import Mathlib

/-! # Segmented queue (`sqUtils.h`): a shallow embedding

`segmentedQueue<dataType, block_size>` is a doubly linked chain of heap blocks
(`struct stack`), each a circular buffer of `block_size` slots.  The embedding keeps the
pointer structure: blocks live in a heap indexed by addresses, `nullptr` is `none`,
`new stack()` takes the next unused address and `delete` empties the cell.  Reading or
writing through a null or freed pointer is undefined behaviour in C++; here it is the
error `Err.badPointer`, so that "the code never does it" is a statement that can be proved.

Naming follows the source: `first` is the NEWEST block (where `push_back` writes),
`last` is the OLDEST block (where `pop_front` reads).  `size_t` values are natural
numbers: every `size_t` the queue computes is bounded by `2 * block_size` or by the number
of stored elements, far from `2^64` for any queue that fits in memory.
-/

namespace SegQueue

/-- The `std::runtime_error`s thrown by `sqUtils.h`, one constructor per message, plus
two outcomes that are not exceptions: `badPointer` (a dereference of `nullptr` or of a
deleted block) and `outOfFuel` (a loop of the embedding ran out of its step budget). -/
inductive Err where
  | emptyPop
  | emptyPeek
  | indexOutOfRange
  | iteratorEnd
  | reverseIteratorEnd
  | invalidIterator
  | invalidReverseIterator
  | notImplemented
  | emptyStack
  | badPointer
  | outOfFuel
  deriving DecidableEq, Repr

/-- A `stack*`: `none` is `nullptr`, `some a` is the block at address `a`. -/
abbrev Ptr := Option Nat

/-- The block type `struct stack`: `next` points to the newer neighbour, `previous` to the
older one, `length` counts the occupied slots, `start` is the slot of the oldest one. -/
structure Stack (α : Type) where
  next : Ptr
  previous : Ptr
  length : Nat
  start : Nat
  data : Nat → α

/-- The object built by `new stack()`: the default member initialisers, and a
value-initialised `data` array. -/
def Stack.fresh {α : Type} [Inhabited α] : Stack α :=
  { next := none, previous := none, length := 0, start := 0, data := fun _ => default }

/-- The memory of one `segmentedQueue` object: its three members and the heap cells that
hold its blocks.  `fresh` is the next address `new` hands out. -/
structure Queue (α : Type) where
  heap : Nat → Option (Stack α)
  fresh : Nat
  first : Ptr
  last : Ptr
  length : Nat

/-- What a pointer points to, if anything. -/
def Queue.load {α : Type} (q : Queue α) : Ptr → Option (Stack α)
  | none => none
  | some a => q.heap a

/-- Pointer dereference for reading: fails on `nullptr` and on freed blocks. -/
def Queue.read {α : Type} (q : Queue α) (p : Ptr) : Except Err (Stack α) :=
  match q.load p with
  | some s => .ok s
  | none => .error .badPointer

/-- The heap with cell `a` replaced. -/
def Queue.store {α : Type} (q : Queue α) (a : Nat) (c : Option (Stack α)) : Queue α :=
  { q with heap := Function.update q.heap a c }

/-! ## Member functions that change the queue

They run in a state-and-exception monad: a computation takes the queue's memory and
returns the memory it leaves behind together with a value or the exception thrown. -/

/-- A member function: from the memory before the call to the outcome and the memory after. -/
def QM (α β : Type) : Type := Queue α → Except Err β × Queue α

/-- Run a member function on a queue. -/
def QM.run {α β : Type} (m : QM α β) (q : Queue α) : Except Err β × Queue α := m q

instance {α : Type} : Monad (QM α) where
  pure b := fun q => (.ok b, q)
  bind m f := fun q =>
    match m q with
    | (.ok b, q1) => f b q1
    | (.error e, q1) => (.error e, q1)

/-- The statement `throw std::runtime_error(...)`. -/
def raise {α β : Type} (e : Err) : QM α β := fun q => (.error e, q)

def getFirst {α : Type} : QM α Ptr := fun q => (.ok q.first, q)
def getLast {α : Type} : QM α Ptr := fun q => (.ok q.last, q)
def getLength {α : Type} : QM α Nat := fun q => (.ok q.length, q)
def getFresh {α : Type} : QM α Nat := fun q => (.ok q.fresh, q)
def setFirst {α : Type} (p : Ptr) : QM α Unit := fun q => (.ok (), { q with first := p })
def setLast {α : Type} (p : Ptr) : QM α Unit := fun q => (.ok (), { q with last := p })
def setLength {α : Type} (n : Nat) : QM α Unit := fun q => (.ok (), { q with length := n })

/-- The expression `*p` read as a value. -/
def deref {α : Type} (p : Ptr) : QM α (Stack α) := fun q =>
  match q.load p with
  | some s => (.ok s, q)
  | none => (.error .badPointer, q)

/-- An assignment to members of `*p`: `f` describes the new block in terms of the old. -/
def assign {α : Type} (p : Ptr) (f : Stack α → Stack α) : QM α Unit := fun q =>
  match p with
  | none => (.error .badPointer, q)
  | some a =>
    match q.heap a with
    | some s => (.ok (), q.store a (some (f s)))
    | none => (.error .badPointer, q)

/-- The expression `new stack()`. -/
def alloc {α : Type} [Inhabited α] : QM α Ptr := fun q =>
  (.ok (some q.fresh),
    { q with heap := Function.update q.heap q.fresh (some Stack.fresh),
             fresh := q.fresh + 1 })

/-- The statement `delete p`. -/
def free {α : Type} (p : Ptr) : QM α Unit := fun q =>
  match p with
  | none => (.ok (), q)
  | some a =>
    match q.heap a with
    | some _ => (.ok (), q.store a none)
    | none => (.error .badPointer, q)

/-- Member function `segmentedQueue::reset` (sqUtils.h:252-262). -/
def reset {α : Type} : QM α Unit := do
  assign (← getFirst) fun s => { s with previous := none }
  assign (← getFirst) fun s => { s with next := none }
  assign (← getFirst) fun s => { s with start := 0 }
  assign (← getFirst) fun s => { s with length := 0 }
  setLength 0

/-- The default constructor `segmentedQueue()` (sqUtils.h:135-142). -/
def construct {α : Type} [Inhabited α] : QM α Unit := do
  setFirst (← alloc)
  setLast (← getFirst)
  reset

/-- Memory before a constructor has run: nothing allocated, members not yet set. -/
def blank {α : Type} : Queue α :=
  { heap := fun _ => none, fresh := 0, first := none, last := none, length := 0 }

/-- A freshly constructed queue. -/
def segmentedQueue {α : Type} [Inhabited α] : Queue α := (construct.run blank).2

/-- Member function `segmentedQueue::size` (sqUtils.h:31). -/
def size {α : Type} (q : Queue α) : Nat := q.length

/-- Member function `segmentedQueue::push_back` (sqUtils.h:155-175); `N` is `block_size`. -/
def push_back {α : Type} [Inhabited α] (N : Nat) (item : α) : QM α Unit := do
  if (← deref (← getFirst)).length ≥ N then
    let temp ← getFirst
    setFirst (← alloc)
    assign (← getFirst) fun s => { s with length := 0 }
    assign (← getFirst) fun s => { s with start := 0 }
    let fresh ← getFirst
    assign temp fun s => { s with next := fresh }
    assign (← getFirst) fun s => { s with previous := temp }
  assign (← getFirst) fun s =>
    { s with data := Function.update s.data ((s.start + s.length) % N) item,
             length := s.length + 1 }
  setLength ((← getLength) + 1)

/-- Member function `segmentedQueue::pop_front` (sqUtils.h:177-198). -/
def pop_front {α : Type} (N : Nat) : QM α Unit := do
  if (← getLength) ≤ 0 then raise .emptyPop
  let l ← deref (← getLast)
  if l.length ≤ 1 ∧ l.next ≠ none then
    let temp ← getLast
    setLast (← deref (← getLast)).next
    assign (← getLast) fun s => { s with previous := none }
    free temp
  else
    assign (← getLast) fun s => { s with start := (s.start + 1) % N }
    assign (← getLast) fun s => { s with length := s.length - 1 }
  setLength ((← getLength) - 1)

/-- The `while (last != first)` loop of `segmentedQueue::clear` (sqUtils.h:203-211),
with a budget of `fuel` evaluations of the loop condition. -/
def clearLoop {α : Type} : Nat → QM α Unit
  | 0 => raise .outOfFuel
  | fuel + 1 => do
    if (← getLast) ≠ (← getFirst) then
      let temp ← getLast
      setLast (← deref (← getLast)).next
      assign (← getLast) fun s => { s with previous := none }
      free temp
      clearLoop fuel

/-- Member function `segmentedQueue::clear` (sqUtils.h:200-214).  The loop frees one block per round, and
no queue holds more blocks than addresses were ever handed out, so `fresh` rounds and one
last test of the condition are budget enough. -/
def clear {α : Type} : QM α Unit := do
  clearLoop ((← getFresh) + 1)
  reset

/-! ## Member functions that only read the queue -/

/-- Member function `segmentedQueue::front` (sqUtils.h:216-222). -/
def front {α : Type} (q : Queue α) : Except Err α := do
  if q.length ≤ 0 then throw Err.emptyPeek
  let l ← q.read q.last
  pure (l.data l.start)

/-- The `while (index >= temp->length)` loop of `operator[]` (sqUtils.h:230), with a
budget of `fuel` evaluations of the loop condition.  It returns the block the loop stops in
and what is left of the index. -/
def subscriptLoop {α : Type} (q : Queue α) : Nat → Ptr → Nat → Except Err (Stack α × Nat)
  | 0, _, _ => throw Err.outOfFuel
  | fuel + 1, temp, index => do
    let t ← q.read temp
    if index ≥ t.length then subscriptLoop q fuel t.next (index - t.length)
    else pure (t, index)

/-- Member function `segmentedQueue::operator[]` (sqUtils.h:224-232); the result is the
element the returned reference refers to.  The loop moves to another block at most once
per block, so `fresh + 1` tests of the condition are budget enough. -/
def subscript {α : Type} (N : Nat) (q : Queue α) (index : Nat) : Except Err α := do
  let temp := q.last
  if index ≥ q.length then throw Err.indexOutOfRange
  let (t, i) ← subscriptLoop q (q.fresh + 1) temp index
  pure (t.data ((t.start + i) % N))

/-! ## Forward iterator -/

/-- The class `segmentedQueueIterator` (sqUtils.h:64-88). -/
structure segmentedQueueIterator where
  current : Ptr
  position : Nat
  deriving DecidableEq, Repr

/-- Member function `segmentedQueue::begin` (sqUtils.h:29), that is the constructor
`segmentedQueueIterator(const segmentedQueue&)` (sqUtils.h:264-265). -/
def begin {α : Type} (q : Queue α) : segmentedQueueIterator :=
  { current := q.last, position := 0 }

/-- Member function `segmentedQueue::end` (sqUtils.h:30), that is the default constructor
of the iterator (sqUtils.h:267-268). -/
def endIterator : segmentedQueueIterator :=
  { current := none, position := 0 }

namespace segmentedQueueIterator

/-- Pre-increment `operator++()` (sqUtils.h:273-281). -/
def increment {α : Type} (q : Queue α) (it : segmentedQueueIterator) :
    Except Err segmentedQueueIterator := do
  if it.current = none then throw Err.iteratorEnd
  let c ← q.read it.current
  if it.position + 1 ≥ c.length then pure { current := c.next, position := 0 }
  else pure { it with position := it.position + 1 }

/-- Dereference `operator*()` (sqUtils.h:304-309). -/
def dereference {α : Type} (N : Nat) (q : Queue α) (it : segmentedQueueIterator) :
    Except Err α :=
  match q.load it.current with
  | none => if it.current = none then throw Err.invalidIterator else throw Err.badPointer
  | some c =>
    if it.position ≥ c.length then throw Err.invalidIterator
    else pure (c.data ((c.start + it.position) % N))

/-- Equality `operator==` (sqUtils.h:318-325). -/
def equal (it other : segmentedQueueIterator) : Bool :=
  if it.current = none ∧ other.current = none then true
  else if it.current ≠ other.current then false
  else it.position == other.position

/-- Inequality `operator!=` (sqUtils.h:327-334). -/
def notEqual (it other : segmentedQueueIterator) : Bool :=
  if it.current = none ∧ other.current = none then false
  else if it.current ≠ other.current then true
  else it.position != other.position

end segmentedQueueIterator

/-- The loop `for (it = ...; it != end(); ++it) out.push_back(*it)`, started at `it` with
`out = acc`, with a budget of `fuel` evaluations of the loop condition.  Every round
dereferences once and appends one element, so the length of the result minus that of
`acc` is the number of dereferences made. -/
def forwardLoop {α : Type} (N : Nat) (q : Queue α) :
    Nat → segmentedQueueIterator → List α → Except Err (List α)
  | 0, _, _ => throw Err.outOfFuel
  | fuel + 1, it, acc =>
    if it.notEqual endIterator then do
      let x ← it.dereference N q
      let next ← it.increment q
      forwardLoop N q fuel next (acc ++ [x])
    else pure acc

/-- Full forward iteration from `begin()` to `end()`, collecting what is dereferenced. -/
def forward {α : Type} (N : Nat) (q : Queue α) : Except Err (List α) :=
  forwardLoop N q (q.length + 1) (begin q) []

/-! ## Reverse iterator -/

/-- The class `segmentedQueueReverseIterator` (sqUtils.h:90-114). -/
structure segmentedQueueReverseIterator where
  current : Ptr
  position : Nat
  deriving DecidableEq, Repr

/-- Member function `segmentedQueue::rbegin` (sqUtils.h:27), that is the constructor
`segmentedQueueReverseIterator(const segmentedQueue&)` (sqUtils.h:336-343).  The member
initialiser reads `first->length`. -/
def rbegin {α : Type} (q : Queue α) : Except Err segmentedQueueReverseIterator := do
  let f ← q.read q.first
  let current := q.first
  let position := f.length
  if position = 0 then pure { current := none, position := position }
  else pure { current := current, position := position - 1 }

/-- Member function `segmentedQueue::rend` (sqUtils.h:28), that is the default
constructor of the reverse iterator (sqUtils.h:345-346). -/
def rend : segmentedQueueReverseIterator :=
  { current := none, position := 0 }

namespace segmentedQueueReverseIterator

/-- Pre-increment `operator++()` (sqUtils.h:351-369). -/
def increment {α : Type} (q : Queue α) (it : segmentedQueueReverseIterator) :
    Except Err segmentedQueueReverseIterator := do
  if it.current = none then throw Err.reverseIteratorEnd
  if it.position = 0 then
    let c ← q.read it.current
    let current := c.previous
    if current = none then pure { current := current, position := it.position }
    else
      let p ← q.read current
      let position := p.length
      if position = 0 then throw Err.emptyStack
      pure { current := current, position := position - 1 }
  else pure { it with position := it.position - 1 }

/-- Dereference `operator*()` (sqUtils.h:392-397). -/
def dereference {α : Type} (N : Nat) (q : Queue α) (it : segmentedQueueReverseIterator) :
    Except Err α :=
  match q.load it.current with
  | none =>
    if it.current = none then throw Err.invalidReverseIterator else throw Err.badPointer
  | some c =>
    if it.position > c.length then throw Err.invalidReverseIterator
    else pure (c.data ((c.start + it.position) % N))

/-- Equality `operator==` (sqUtils.h:406-413). -/
def equal (it other : segmentedQueueReverseIterator) : Bool :=
  if it.current = none ∧ other.current = none then true
  else if it.current ≠ other.current then false
  else it.position == other.position

/-- Inequality `operator!=` (sqUtils.h:415-422). -/
def notEqual (it other : segmentedQueueReverseIterator) : Bool :=
  if it.current = none ∧ other.current = none then false
  else if it.current ≠ other.current then true
  else it.position != other.position

end segmentedQueueReverseIterator

/-- The loop `for (it = ...; it != rend(); ++it) out.push_back(*it)`, started at `it` with
`out = acc`, with a budget of `fuel` evaluations of the loop condition. -/
def reverseLoop {α : Type} (N : Nat) (q : Queue α) :
    Nat → segmentedQueueReverseIterator → List α → Except Err (List α)
  | 0, _, _ => throw Err.outOfFuel
  | fuel + 1, it, acc =>
    if it.notEqual rend then do
      let x ← it.dereference N q
      let next ← it.increment q
      reverseLoop N q fuel next (acc ++ [x])
    else pure acc

/-- Full reverse iteration from `rbegin()` to `rend()`, collecting what is dereferenced. -/
def reverse {α : Type} (N : Nat) (q : Queue α) : Except Err (List α) := do
  let it ← rbegin q
  reverseLoop N q (q.length + 1) it []

/-! ## Proof-level definitions

The chain of blocks as a list (the blocks met when following `next` from `last`, the
oldest block, to `first`, the newest, each with its address), the representation
invariant, histories of calls, and the reference behaviour the theorems compare the code
with.  A queue is reachable when it is what a sequence of calls of the mutating member
functions leaves of a freshly constructed queue; a call that throws leaves the memory it
had reached when it threw. -/

/-- The elements a block holds, oldest first: the slots `(start + i) % N` for
`i < length`. -/
def Stack.elems {α : Type} (N : Nat) (s : Stack α) : List α :=
  (List.range s.length).map fun i => s.data ((s.start + i) % N)

/-- The elements of a chain of blocks, oldest first. -/
def elems {α : Type} (N : Nat) : List (Nat × Stack α) → List α
  | [] => []
  | x :: rest => x.2.elems N ++ elems N rest

/-- A doubly linked list segment: starting at pointer `p`, whose `previous` is `prev`, the
blocks `segs` follow each other by `next`; the `next` of the final one is `nxt` and `lst`
points to the final one (`prev` when there is none). -/
def Chain {α : Type} (h : Nat → Option (Stack α)) :
    Ptr → Ptr → List (Nat × Stack α) → Ptr → Ptr → Prop
  | p, prev, [], nxt, lst => p = nxt ∧ prev = lst
  | p, prev, x :: rest, nxt, lst =>
    p = some x.1 ∧ h x.1 = some x.2 ∧ x.2.previous = prev ∧
      Chain h x.2.next (some x.1) rest nxt lst

/-- The representation invariant: `segs` is the chain of the queue `q`, the heap holds
nothing else, and the counters are consistent. -/
structure Rep {α : Type} (N : Nat) (q : Queue α) (segs : List (Nat × Stack α)) : Prop where
  chain : Chain q.heap q.last none segs none q.first
  nonempty : segs ≠ []
  nodup : (segs.map Prod.fst).Nodup
  owned : ∀ b, b ∉ segs.map Prod.fst → q.heap b = none
  below : ∀ b, q.fresh ≤ b → q.heap b = none
  start_lt : ∀ x ∈ segs, x.2.start < N
  length_le : ∀ x ∈ segs, x.2.length ≤ N
  total : q.length = (segs.map fun x => x.2.length).sum
  no_empty : ∀ x ∈ segs, x.2.length = 0 → segs.length = 1
  middle : ∀ x ∈ segs.dropLast.tail, x.2.length = N

/-- The block a `push_back` that allocates leaves as the newest one. -/
def Stack.single {α : Type} [Inhabited α] (N : Nat) (a : Nat) (x : α) : Stack α :=
  { next := none, previous := some a, length := 1, start := 0,
    data := Function.update (fun _ => default) (0 % N) x }

/-- The block `reset` leaves: no links, no elements, the old `data`. -/
def Stack.cleared {α : Type} (s : Stack α) : Stack α :=
  { s with previous := none, next := none, start := 0, length := 0 }

/-- A call of a member function that changes the queue. -/
inductive Call (α : Type) where
  | push_back (item : α)
  | pop_front
  | clear
  deriving DecidableEq, Repr

/-- The member function a call runs. -/
def Call.run {α : Type} [Inhabited α] (N : Nat) : Call α → QM α Unit
  | .push_back item => SegQueue.push_back N item
  | .pop_front => SegQueue.pop_front N
  | .clear => SegQueue.clear

/-- The memory a call leaves behind. -/
def step {α : Type} [Inhabited α] (N : Nat) (q : Queue α) (c : Call α) : Queue α :=
  ((c.run N).run q).2

/-- The queue a sequence of calls leaves of a freshly constructed one. -/
def after {α : Type} [Inhabited α] (N : Nat) (calls : List (Call α)) : Queue α :=
  calls.foldl (step N) segmentedQueue

/-- Whether a call is a `clear`. -/
def Call.isClear {α : Type} : Call α → Bool
  | .clear => true
  | _ => false

/-- The items of the `push_back` calls of a history, in call order. -/
def pushed {α : Type} : List (Call α) → List α
  | [] => []
  | .push_back item :: cs => item :: pushed cs
  | _ :: cs => pushed cs

/-- The number of `pop_front` calls of a history, run from `q`, that returned without an
exception. -/
def popsOk {α : Type} [Inhabited α] (N : Nat) : Queue α → List (Call α) → Nat
  | _, [] => 0
  | q, .pop_front :: cs =>
    (match ((pop_front N).run q).1 with
      | .ok _ => 1
      | .error _ => 0) + popsOk N (step N q .pop_front) cs
  | q, c :: cs => popsOk N (step N q c) cs

/-- The contents of a FIFO queue after one call, in the words of the specification:
`push_back` appends at the back, `pop_front` removes the front element if there is one,
`clear` removes all. -/
def specStep {α : Type} (l : List α) : Call α → List α
  | .push_back item => l ++ [item]
  | .pop_front => l.tail
  | .clear => []

/-- The contents of a FIFO queue after a history, oldest first, in the words of the
specification. -/
def specContents {α : Type} (calls : List (Call α)) : List α :=
  calls.foldl specStep []

/-- Read `front()` and call `pop_front()`, `k` times over; the values read. -/
def drain {α : Type} (N : Nat) : Nat → Queue α → List (Except Err α)
  | 0, _ => []
  | k + 1, q => front q :: drain N k ((pop_front N).run q).2

/-- The abstraction relation: `q` is a well-formed queue whose elements, oldest first,
are `l`. -/
def Abs {α : Type} (N : Nat) (q : Queue α) (l : List α) : Prop :=
  ∃ segs, Rep N q segs ∧ elems N segs = l

/-- What `front()` returns on a queue with the elements `l`, in the words of the
specification: the oldest element, and `EmptyQueueError` when there is none. -/
def specFront {α : Type} : List α → Except Err α
  | [] => .error Err.emptyPeek
  | y :: _ => .ok y

/-- What full forward iteration yields on a well-formed queue with the elements `l`: the
elements, and the exception of the dereference when there is none. -/
def forwardOf {α : Type} : List α → Except Err (List α)
  | [] => .error Err.invalidIterator
  | y :: ys => .ok (y :: ys)

/-- What `operator[]` returns on a queue with the elements `l`, in the words of the
specification: the element with that index, and `IndexOutOfRangeError` when there is
none. -/
def specSubscript {α : Type} (l : List α) (index : Nat) : Except Err α :=
  match l[index]? with
  | some y => .ok y
  | none => .error Err.indexOutOfRange

/-- A use of the queue whose result a caller can see. -/
inductive Use (α : Type) where
  | push_back (item : α)
  | pop_front
  | front
  | subscript (index : Nat)
  | size
  | forward
  | reverse
  deriving Repr

/-- What a caller sees of one use: whether it threw, and the value returned. -/
inductive Seen (α : Type) where
  | done (r : Except Err Unit)
  | item (r : Except Err α)
  | count (n : Nat)
  | items (r : Except Err (List α))

/-- What a caller sees of a sequence of uses, one after the other, starting on `q`. -/
def observe {α : Type} [Inhabited α] (N : Nat) : Queue α → List (Use α) → List (Seen α)
  | _, [] => []
  | q, .push_back item :: us =>
    .done ((push_back N item).run q).1 :: observe N ((push_back N item).run q).2 us
  | q, .pop_front :: us =>
    .done ((pop_front N).run q).1 :: observe N ((pop_front N).run q).2 us
  | q, .front :: us => .item (front q) :: observe N q us
  | q, .subscript index :: us => .item (subscript N q index) :: observe N q us
  | q, .size :: us => .count (size q) :: observe N q us
  | q, .forward :: us => .items (forward N q) :: observe N q us
  | q, .reverse :: us => .items (reverse N q) :: observe N q us

/-! ## Copy constructor and copy assignment

The source of a copy is an object `other` that the code only reads.  `src` gives the
memory of `other` in terms of the current memory of the object being written: a constant
function when `other` is another object (a queue's blocks are reachable only through its
own private members, so writing one object never changes another), the identity when
`other` is the object itself. -/

/-- The member `other.last`. -/
def otherLast {α : Type} (src : Queue α → Queue α) : QM α Ptr :=
  fun q => (.ok (src q).last, q)

/-- The expression `*p` read in the memory of `other`. -/
def derefOther {α : Type} (src : Queue α → Queue α) (p : Ptr) : QM α (Stack α) := fun q =>
  match (src q).load p with
  | some s => (.ok s, q)
  | none => (.error .badPointer, q)

/-- The number of addresses handed out so far in the memory of `other`. -/
def otherFresh {α : Type} (src : Queue α → Queue α) : QM α Nat :=
  fun q => (.ok (src q).fresh, q)

/-- The loop `for (index = ...; index < temp->length; ++index) push_back(temp->data[...])`
of the copy constructor and of `operator=` (sqUtils.h:129, 244), continued at `index`, with
a budget of `fuel` evaluations of the loop condition. -/
def copyBlock {α : Type} [Inhabited α] (N : Nat) (src : Queue α → Queue α) (temp : Ptr) :
    Nat → Nat → QM α Unit
  | 0, _ => raise .outOfFuel
  | fuel + 1, index => do
    if index < (← derefOther src temp).length then
      let t ← derefOther src temp
      push_back N (t.data ((t.start + index) % N))
      copyBlock N src temp fuel (index + 1)

/-- The loop `while (temp != nullptr)` of the copy constructor and of `operator=`
(sqUtils.h:126-132, 241-247), with a budget of `fuel` evaluations of the loop condition.
The inner loop gets one evaluation more than the block has elements when it starts. -/
def copyLoop {α : Type} [Inhabited α] (N : Nat) (src : Queue α → Queue α) :
    Nat → Ptr → QM α Unit
  | 0, _ => raise .outOfFuel
  | fuel + 1, temp => do
    if temp ≠ none then
      copyBlock N src temp ((← derefOther src temp).length + 1) 0
      copyLoop N src fuel (← derefOther src temp).next

/-- The copy constructor `segmentedQueue(const segmentedQueue& other)` (sqUtils.h:116-133).
The outer loop moves on once per block of `other`, so one evaluation of its condition more
than addresses were handed out there is budget enough. -/
def copyConstruct {α : Type} [Inhabited α] (N : Nat) (src : Queue α → Queue α) :
    QM α Unit := do
  setFirst (← alloc)
  setLast (← getFirst)
  reset
  let temp ← otherLast src
  copyLoop N src ((← otherFresh src) + 1) temp

/-- The copy assignment `operator=(const segmentedQueue& other)` (sqUtils.h:234-250). -/
def copyAssign {α : Type} [Inhabited α] (N : Nat) (src : Queue α → Queue α) :
    QM α Unit := do
  clear
  let temp ← otherLast src
  copyLoop N src ((← otherFresh src) + 1) temp

/-- How a queue object came to be: by the default constructor, by a mutating call on an
object, by the copy constructor from an object, by copy assignment to an object from
another object, or by copy assignment of an object to itself. -/
inductive Origin (α : Type) where
  | constructed
  | called (o : Origin α) (c : Call α)
  | copied (other : Origin α)
  | assigned (o other : Origin α)
  | selfAssigned (o : Origin α)
  deriving Repr

/-- The memory of the object with the given origin.  A call that throws leaves the memory
it had reached when it threw. -/
def Origin.queue {α : Type} [Inhabited α] (N : Nat) : Origin α → Queue α
  | .constructed => segmentedQueue
  | .called o c => step N (o.queue N) c
  | .copied other => ((copyConstruct N (fun _ => other.queue N)).run blank).2
  | .assigned o other => ((copyAssign N (fun _ => other.queue N)).run (o.queue N)).2
  | .selfAssigned o => ((copyAssign N id).run (o.queue N)).2

/-! ## The remaining iterator operators -/

/-- Member access `operator->()` of the forward iterator (sqUtils.h:311-316).  The
pointer returned is given as the address of the block and the slot in its `data`. -/
def segmentedQueueIterator.arrow {α : Type} (N : Nat) (q : Queue α)
    (it : segmentedQueueIterator) : Except Err (Nat × Nat) :=
  match it.current with
  | none => throw Err.invalidIterator
  | some a =>
    match q.heap a with
    | none => throw Err.badPointer
    | some c =>
      if it.position ≥ c.length then throw Err.invalidIterator
      else pure (a, (c.start + it.position) % N)

/-- Post-increment `operator++(int)` of the forward iterator (sqUtils.h:283-288). -/
def segmentedQueueIterator.postIncrement (_it : segmentedQueueIterator) :
    Except Err segmentedQueueIterator :=
  throw Err.notImplemented

/-- Pre-decrement `operator--()` of the forward iterator (sqUtils.h:290-295). -/
def segmentedQueueIterator.preDecrement (_it : segmentedQueueIterator) :
    Except Err segmentedQueueIterator :=
  throw Err.notImplemented

/-- Post-decrement `operator--(int)` of the forward iterator (sqUtils.h:297-302). -/
def segmentedQueueIterator.postDecrement (_it : segmentedQueueIterator) :
    Except Err segmentedQueueIterator :=
  throw Err.notImplemented

/-- Member access `operator->()` of the reverse iterator (sqUtils.h:399-404). -/
def segmentedQueueReverseIterator.arrow {α : Type} (N : Nat) (q : Queue α)
    (it : segmentedQueueReverseIterator) : Except Err (Nat × Nat) :=
  match it.current with
  | none => throw Err.invalidReverseIterator
  | some a =>
    match q.heap a with
    | none => throw Err.badPointer
    | some c =>
      if it.position > c.length then throw Err.invalidReverseIterator
      else pure (a, (c.start + it.position) % N)

/-- Post-increment `operator++(int)` of the reverse iterator (sqUtils.h:371-376). -/
def segmentedQueueReverseIterator.postIncrement (_it : segmentedQueueReverseIterator) :
    Except Err segmentedQueueReverseIterator :=
  throw Err.notImplemented

/-- Pre-decrement `operator--()` of the reverse iterator (sqUtils.h:378-383). -/
def segmentedQueueReverseIterator.preDecrement (_it : segmentedQueueReverseIterator) :
    Except Err segmentedQueueReverseIterator :=
  throw Err.notImplemented

/-- Post-decrement `operator--(int)` of the reverse iterator (sqUtils.h:385-390). -/
def segmentedQueueReverseIterator.postDecrement (_it : segmentedQueueReverseIterator) :
    Except Err segmentedQueueReverseIterator :=
  throw Err.notImplemented

/-! ## Counting the blocks -/

/-- The number of blocks met when following `next` from `p`, at most `fuel` of them. -/
def countBlocks {α : Type} (q : Queue α) : Nat → Ptr → Nat
  | 0, _ => 0
  | fuel + 1, p =>
    match q.load p with
    | none => 0
    | some s => countBlocks q fuel s.next + 1

/-- The number of segments of a queue: the blocks of its chain, counted from `last` (the
oldest) along `next`.  No queue holds more blocks than addresses were handed out, so a
budget of `fresh` blocks counts them all. -/
def segments {α : Type} (q : Queue α) : Nat := countBlocks q q.fresh q.last

/-- The reverse iterator after `k` pre-increments `++it` in a row on an unchanged queue,
or the exception the first failing one throws. -/
def incrementTimes {α : Type} (q : Queue α) :
    Nat → segmentedQueueReverseIterator → Except Err segmentedQueueReverseIterator
  | 0, it => pure it
  | k + 1, it => do
    let next ← it.increment q
    incrementTimes q k next

end SegQueue

/-! # Text parsing (`ioUtils.h`, `ioUtils.cpp`): a shallow embedding

A `std::string` is the list of its characters; `c_str()[i]` is the character at index `i`,
and the terminating `'\0'` at and beyond the end.  `long long` values are integers: the
values these functions compute stay far below `2^63`. -/

namespace IoUtils

/-- The `std::runtime_error`s thrown by `convertUTC` and `getDaysSinceEpoch`, one
constructor per message. -/
inductive Err where
  | invalidFormat
  | hourTooLarge
  | yearTooSmall
  | monthTooSmall
  | monthTooLarge
  | dayTooSmall
  | dayTooLarge
  deriving DecidableEq, Repr

/-- The value of a character in arithmetic and comparisons. -/
def code (ch : Char) : Int := ch.toNat

/-- The character `c_str()[i]` as a number: the `i`-th character of the string, and the
terminating zero at the end. -/
def charAt (s : List Char) (i : Nat) : Int := code (s.getD i (Char.ofNat 0))

/-- The table `days_since_new_years` (ioUtils.cpp:53). -/
def days_since_new_years : List Int := [0, 31, 59, 90, 120, 151, 181, 212, 243, 273, 304, 334]

/-- The table `days_in_month` (ioUtils.cpp:54). -/
def days_in_month : List Int := [31, 28, 31, 30, 31, 30, 31, 31, 30, 31, 30, 31]

/-- The function `getDaysSinceEpoch` (ioUtils.cpp:50-114).  `c i` is `*(c + i)`; every
`throw` leaves the function, so what follows an `if (...) throw` is its `else` branch.
`result` is what the two `return` statements at the end return; it is named before the
check of the day against the month so that both ways through that check can end in it. -/
def getDaysSinceEpoch (timestamp : List Char) : Except Err Int :=
  if timestamp.length < 10 then throw Err.invalidFormat else
  let c := charAt timestamp
  if c 0 < code '0' ∨ c 0 > code '9' then throw Err.invalidFormat else
  if c 1 < code '0' ∨ c 1 > code '9' then throw Err.invalidFormat else
  if c 2 < code '0' ∨ c 2 > code '9' then throw Err.invalidFormat else
  if c 3 < code '0' ∨ c 3 > code '9' then throw Err.invalidFormat else
  let year : Int :=
    1000 * (c 0 - code '0') + 100 * (c 1 - code '0') + 10 * (c 2 - code '0') + c 3 - code '0'
  let is_leap : Bool := (year % 4 == 0) && (year % 100 != 0 || year % 400 == 0)
  if year < 1970 then throw Err.yearTooSmall else
  if c 4 ≠ code '-' then throw Err.invalidFormat else
  if c 5 < code '0' ∨ c 5 > code '9' then throw Err.invalidFormat else
  if c 6 < code '0' ∨ c 6 > code '9' then throw Err.invalidFormat else
  let month : Int := 10 * (c 5 - code '0') + c 6 - code '0'
  if month < 1 then throw Err.monthTooSmall else
  if month > 12 then throw Err.monthTooLarge else
  if c 7 ≠ code '-' then throw Err.invalidFormat else
  if c 8 < code '0' ∨ c 8 > code '9' then throw Err.invalidFormat else
  if c 9 < code '0' ∨ c 9 > code '9' then throw Err.invalidFormat else
  let day_of_month : Int := 10 * (c 8 - code '0') + c 9 - code '0'
  if day_of_month < 1 then throw Err.dayTooSmall else
  let days_since_epoch : Int :=
    365 * (year - 1970) + (year - 1) / 4 - ((1970 - 1) / 4) - (year - 1) / 100
      + ((1970 - 1) / 100) + (year - 1) / 400 - ((1970 - 1) / 400)
      + days_since_new_years.getD (month - 1).toNat 0 + day_of_month - 1
  let result : Int :=
    if month > 2 ∧ is_leap = true then days_since_epoch + 1 else days_since_epoch
  if day_of_month > days_in_month.getD (month - 1).toNat 0 then
    if month = 2 ∧ is_leap = true then
      if day_of_month > 29 then throw Err.dayTooLarge else pure result
    else throw Err.dayTooLarge
  else pure result

/-- The character of a decimal digit: `'0' + n`. -/
def digit (n : Nat) : Char := Char.ofNat (48 + n)

/-- The ten characters `YYYY-MM-DD` spelled by eight decimal digits. -/
def dateText (y3 y2 y1 y0 m1 m0 d1 d0 : Nat) : List Char :=
  [digit y3, digit y2, digit y1, digit y0, '-', digit m1, digit m0, '-', digit d1, digit d0]

/-- A leap year of the Gregorian calendar: divisible by 4 and either not by 100 or by
400. -/
def isLeapYear (y : Nat) : Prop := y % 4 = 0 ∧ (y % 100 ≠ 0 ∨ y % 400 = 0)

instance (y : Nat) : Decidable (isLeapYear y) := by
  unfold isLeapYear
  infer_instance

/-- The number of days of month `m` (1 to 12) of year `y` in the Gregorian calendar. -/
def daysInMonth (y m : Nat) : Nat :=
  if m = 2 then (if isLeapYear y then 29 else 28)
  else if m = 4 ∨ m = 6 ∨ m = 9 ∨ m = 11 then 30
  else 31

/-- The number of days of year `y`: those of its twelve months. -/
def daysInYear (y : Nat) : Nat :=
  ((List.range 12).map fun k => daysInMonth y (k + 1)).sum

/-- A valid calendar date. -/
def validDate (y m d : Nat) : Prop :=
  1 ≤ m ∧ m ≤ 12 ∧ 1 ≤ d ∧ d ≤ daysInMonth y m

instance (y m d : Nat) : Decidable (validDate y m d) := by
  unfold validDate
  infer_instance

/-- The number of days elapsed from 1970-01-01 to the date `y`-`m`-`d`, counted on the
calendar: the days of the whole years since 1970, the days of the whole months of year
`y` before `m`, and the days of month `m` before `d`. -/
def daysElapsed (y m d : Nat) : Nat :=
  ((List.range (y - 1970)).map fun k => daysInYear (1970 + k)).sum
    + ((List.range (m - 1)).map fun k => daysInMonth y (k + 1)).sum + (d - 1)

/-- The calendar day after a date. -/
def nextDay (y m d : Nat) : Nat × Nat × Nat :=
  if d < daysInMonth y m then (y, m, d + 1)
  else if m < 12 then (y, m + 1, 1)
  else (y + 1, 1, 1)

/-- A `long long` product as the machine computes it: wrapped into 64 bits, two's
complement. -/
def wrap64 (x : Int) : Int := (x + 2 ^ 63) % 2 ^ 64 - 2 ^ 63

/-- The statement `f = (f * 0xCCCCCCCDLL) >> 35` of `convertUTC` (ioUtils.cpp:41). -/
def scale (f : Int) : Int := wrap64 (f * 0xCCCCCCCD) >>> 35

/-- The loop `while (*(++c) != 'Z' && *c != '\0')` of `convertUTC` (ioUtils.cpp:36-42).
The list holds the characters from `*(++c)` on, to the end of the string, where `c_str()`
has its terminating zero.  The result is `t` and the character the loop stopped at. -/
def fractionLoop : List Char → Int → Int → Except Err (Int × Int)
  | [], t, _ => pure (t, 0)
  | ch :: cs, t, f =>
    if code ch ≠ code 'Z' ∧ code ch ≠ 0 then
      if code ch < code '0' ∨ code ch > code '9' then throw Err.invalidFormat
      else fractionLoop cs (t + f * (code ch - code '0')) (scale f)
    else pure (t, code ch)

/-- The function `convertUTC` (ioUtils.cpp:4-48).  After `*(c++) != 'T'` the pointer `c`
is at index 11, so `c i` is the character at index `11 + i`; every `throw` leaves the
function, so what follows an `if (...) throw` is its `else` branch. -/
def convertUTC (timestamp : List Char) : Except Err Int :=
  if timestamp.length < 19 then throw Err.invalidFormat else
  if charAt timestamp 10 ≠ code 'T' then throw Err.invalidFormat else
  let c := fun i => charAt timestamp (11 + i)
  if c 0 < code '0' ∨ c 0 > code '9' then throw Err.invalidFormat else
  if c 1 < code '0' ∨ c 1 > code '9' then throw Err.invalidFormat else
  if 10 * (c 0 - code '0') + c 1 - code '0' > 23 then throw Err.hourTooLarge else
  if c 2 ≠ code ':' then throw Err.invalidFormat else
  if c 3 < code '0' ∨ c 3 > code '5' then throw Err.invalidFormat else
  if c 4 < code '0' ∨ c 4 > code '9' then throw Err.invalidFormat else
  if c 5 ≠ code ':' then throw Err.invalidFormat else
  if c 6 < code '0' ∨ c 6 > code '5' then throw Err.invalidFormat else
  if c 7 < code '0' ∨ c 7 > code '9' then throw Err.invalidFormat else
  let t : Int :=
    (10 * (c 0 - code '0') + c 1 - code '0') * 3600000000000
      + (10 * (c 3 - code '0') + c 4 - code '0') * 60000000000
      + (10 * (c 6 - code '0') + c 7 - code '0') * 1000000000
  if c 8 = code '.' then
    match fractionLoop (timestamp.drop 20) t 100000000 with
    | .error e => throw e
    | .ok (t, last) => if last ≠ code 'Z' then throw Err.invalidFormat else pure t
  else
    if c 8 ≠ code 'Z' then throw Err.invalidFormat else pure t

/-- The weight `f` of `convertUTC` after `i` rounds of its loop. -/
def weightAt (i : Nat) : Int := scale^[i] 100000000

/-- The fraction of a second in nanoseconds spelled by decimal digits, the first of which
has the number `i` (counted from 1): the sum of `d_i * 10^(9 - i)` over the digits up to
the ninth; the digits beyond the ninth contribute 0. -/
def fractionFrom (i : Nat) : List Nat → Int
  | [] => 0
  | d :: ds => (if i ≤ 9 then (d : Int) * 10 ^ (9 - i) else 0) + fractionFrom (i + 1) ds

/-- The nine characters `Thh:mm:ss` spelled by six decimal digits. -/
def timeText (h1 h0 m1 m0 s1 s0 : Nat) : List Char :=
  ['T', digit h1, digit h0, ':', digit m1, digit m0, ':', digit s1, digit s0]

/-! ## `convert` for the integer types (ioUtils.h)

`convert<dataType>` for `dataType = int` and `dataType = long long`.  A value of the
integer type of `w` bits is an integer in `[-2^(w-1), 2^(w-1))`, and every arithmetic
operation on it wraps modulo `2^w` (two's complement). -/

/-- The `std::runtime_error`s thrown by `convert` through `throwRuntimeError`
(ioUtils.h:19-31), one constructor per reason. -/
inductive ConvertErr where
  | invalidFormat
  | tooLarge
  deriving DecidableEq, Repr

/-- A result of arithmetic in the integer type of `w` bits: wrapped modulo `2^w` into
`[-2^(w-1), 2^(w-1))`. -/
def wrap (w : Nat) (x : Int) : Int := (x + 2 ^ (w - 1)) % 2 ^ w - 2 ^ (w - 1)

/-- The expression `10 * num + *c - '0'` (ioUtils.h:52, 54, 81, 83) in the integer type of
`w` bits, `ch` being `*c`. -/
def appendDigit (w : Nat) (num : Int) (ch : Char) : Int :=
  wrap w (wrap w (wrap w (10 * num) + code ch) - code '0')

/-- The loops `while (*c != '.' && *c != '\0')` of `convert` (ioUtils.h:49-55, 78-84).  The
list holds the characters from `*c` on; the result is `num` and the characters from the
one the loop stopped at on (none at the terminating zero of `c_str()`). -/
def digitsLoop (w : Nat) : List Char → Int → Except ConvertErr (Int × List Char)
  | [], num => pure (num, [])
  | ch :: cs, num =>
    if code ch ≠ code '.' ∧ code ch ≠ 0 then
      if code ch < code '0' ∨ code ch > code '9' then throw ConvertErr.invalidFormat
      else if appendDigit w num ch ≤ num ∧ num ≠ 0 then throw ConvertErr.tooLarge
      else digitsLoop w cs (appendDigit w num ch)
    else pure (num, ch :: cs)

/-- The statement `factor = factor * 0.1` (ioUtils.h:65, 94) for an integer `factor`: the
product is converted back to the integer type, which truncates it.  `factor` is 1 before
the first round and 0 from then on, and for these values the result is the quotient by 10
rounded towards zero. -/
def tenth (factor : Int) : Int := factor.tdiv 10

/-- The loops `while (*(++c) != '\0')` of `convert` (ioUtils.h:61-67, 90-96).  The list holds
the characters from `*(++c)` on. -/
def decimalsLoop (w : Nat) : List Char → Int → Int → Except ConvertErr Int
  | [], num, _ => pure num
  | ch :: cs, num, factor =>
    if code ch ≠ 0 then
      if code ch < code '0' ∨ code ch > code '9' then throw ConvertErr.invalidFormat
      else
        decimalsLoop w cs
          (wrap w (num + wrap w (tenth factor * wrap w (code ch - code '0')))) (tenth factor)
    else pure num

/-- What follows the loop over the digits before the point (ioUtils.h:57-75, 86-104): `rest`
holds the characters from the one that loop stopped at on, and `sign` is -1 after a
leading `'-'` and 1 otherwise. -/
def convertTail (w : Nat) (sign : Int) (num : Int) (rest : List Char) :
    Except ConvertErr Int :=
  if charAt rest 0 = code '.' then
    match decimalsLoop w (rest.drop 1) num 1 with
    | .error e => throw e
    | .ok num => pure (if sign = -1 then wrap w (-num) else num)
  else if charAt rest 0 = 0 then pure (if sign = -1 then wrap w (-num) else num)
  else throw ConvertErr.invalidFormat

/-- The function template `convert<dataType>` (ioUtils.h:39-105) for the integer type of
`w` bits. -/
def convert (w : Nat) (number : List Char) : Except ConvertErr Int :=
  if charAt number 0 = 0 then pure 0 else
  if charAt number 0 = code '-' then
    match digitsLoop w (number.drop 1) 0 with
    | .error e => throw e
    | .ok (num, rest) => convertTail w (-1) num rest
  else
    match digitsLoop w number 0 with
    | .error e => throw e
    | .ok (num, rest) => convertTail w 1 num rest

/-- The number spelled by decimal digits, the most significant first, continuing from
`num`. -/
def decimalFrom (num : Nat) (ds : List Nat) : Nat := ds.foldl (fun n d => 10 * n + d) num

/-- The number spelled by decimal digits, the most significant first. -/
def decimalValue (ds : List Nat) : Nat := decimalFrom 0 ds

end IoUtils

namespace SegQueue

/-! ## Running the monad -/

@[simp] theorem run_pure {α β : Type} (b : β) (q : Queue α) :
    (pure b : QM α β) q = (.ok b, q) := rfl

@[simp] theorem run_bind {α β γ : Type} (m : QM α β) (f : β → QM α γ) (q : Queue α) :
    (m >>= f) q = match m q with
      | (.ok b, q1) => f b q1
      | (.error e, q1) => (.error e, q1) := rfl

@[simp] theorem run_ite {α β : Type} (c : Prop) [Decidable c] (m1 m2 : QM α β)
    (q : Queue α) : (if c then m1 else m2) q = if c then m1 q else m2 q := by
  split <;> rfl

/-! ## Chains of blocks -/

@[simp] theorem chain_nil {α : Type} (h : Nat → Option (Stack α)) (p prev nxt lst : Ptr) :
    Chain h p prev [] nxt lst ↔ (p = nxt ∧ prev = lst) := Iff.rfl

@[simp] theorem chain_cons {α : Type} (h : Nat → Option (Stack α)) (p prev nxt lst : Ptr)
    (x : Nat × Stack α) (rest : List (Nat × Stack α)) :
    Chain h p prev (x :: rest) nxt lst ↔
      (p = some x.1 ∧ h x.1 = some x.2 ∧ x.2.previous = prev ∧
        Chain h x.2.next (some x.1) rest nxt lst) := Iff.rfl

theorem elems_append {α : Type} (N : Nat) (l1 l2 : List (Nat × Stack α)) :
    elems N (l1 ++ l2) = elems N l1 ++ elems N l2 := by
  induction l1 with
  | nil => simp [elems]
  | cons x l1 ih => simp [elems, ih]

theorem elems_single {α : Type} (N : Nat) (x : Nat × Stack α) :
    elems N [x] = x.2.elems N := by
  simp [elems]

theorem elems_length {α : Type} (N : Nat) (segs : List (Nat × Stack α)) :
    (elems N segs).length = (segs.map fun x => x.2.length).sum := by
  induction segs with
  | nil => simp [elems]
  | cons x rest ih => simp [elems, ih, Stack.elems]

theorem chain_frame {α : Type} {h h2 : Nat → Option (Stack α)}
    (segs : List (Nat × Stack α)) :
    ∀ (p prev nxt lst : Ptr), (∀ b ∈ segs.map Prod.fst, h2 b = h b) →
      Chain h p prev segs nxt lst → Chain h2 p prev segs nxt lst := by
  induction segs with
  | nil => intro p prev nxt lst _ hc; exact hc
  | cons x rest ih =>
    intro p prev nxt lst hag hc
    obtain ⟨h1, h3, h4, h5⟩ := hc
    refine ⟨h1, ?_, h4, ih _ _ _ _ (fun b hb => hag b ?_) h5⟩
    · rw [hag x.1 (by simp)]; exact h3
    · simp only [List.map_cons, List.mem_cons]; exact Or.inr hb

theorem chain_snoc {α : Type} (h : Nat → Option (Stack α)) (segs : List (Nat × Stack α))
    (y : Nat × Stack α) :
    ∀ (p prev nxt lst : Ptr), Chain h p prev (segs ++ [y]) nxt lst ↔
      (Chain h p prev segs (some y.1) y.2.previous ∧ h y.1 = some y.2 ∧ y.2.next = nxt ∧
        lst = some y.1) := by
  induction segs with
  | nil =>
    intro p prev nxt lst
    simp only [List.nil_append, chain_cons, chain_nil]
    constructor
    · rintro ⟨h1, h2, h3, h4, h5⟩; exact ⟨⟨h1, h3.symm⟩, h2, h4, h5.symm⟩
    · rintro ⟨⟨h1, h3⟩, h2, h4, h5⟩; exact ⟨h1, h2, h3.symm, h4, h5.symm⟩
  | cons x rest ih =>
    intro p prev nxt lst
    simp only [List.cons_append, chain_cons, ih]
    tauto

/-- Every block of a chain is in the heap. -/
theorem chain_mem {α : Type} {h : Nat → Option (Stack α)} (segs : List (Nat × Stack α)) :
    ∀ (p prev nxt lst : Ptr), Chain h p prev segs nxt lst → ∀ x ∈ segs, h x.1 = some x.2 := by
  induction segs with
  | nil => intro p prev nxt lst _ x hx; simp at hx
  | cons y rest ih =>
    intro p prev nxt lst hc x hx
    obtain ⟨_, h3, _, h5⟩ := hc
    rcases List.mem_cons.mp hx with rfl | hx
    · exact h3
    · exact ih _ _ _ _ h5 x hx

/-! ## `push_back` keeps the representation and appends -/

/-- Two offsets below `N` from the same start land on different slots. -/
theorem slot_ne {N start i j : Nat} (hij : i < j) (hj : j < N) :
    (start + i) % N ≠ (start + j) % N := by
  intro h
  have h1 : i % N = j % N := Nat.ModEq.add_left_cancel' start h
  rw [Nat.mod_eq_of_lt (by omega), Nat.mod_eq_of_lt hj] at h1
  omega

theorem Stack.elems_push {α : Type} {N : Nat} (s : Stack α) (x : α) (hl : s.length < N) :
    Stack.elems N { s with data := Function.update s.data ((s.start + s.length) % N) x,
                           length := s.length + 1 } = s.elems N ++ [x] := by
  simp only [Stack.elems, List.range_succ, List.map_append, List.map_cons, List.map_nil,
    Function.update_same]
  congr 1
  apply List.map_congr_left
  intro i hi
  rw [List.mem_range] at hi
  rw [Function.update_noteq (slot_ne hi hl)]

theorem mem_tail_concat {β : Type} {l : List β} {y x : β} (h : x ∈ (l ++ [y]).tail) :
    x ∈ l.tail ∨ (l ≠ [] ∧ x = y) := by
  cases l with
  | nil => simp at h
  | cons z l =>
    simp only [List.cons_append, List.tail_cons, List.mem_append, List.mem_singleton] at h
    rcases h with h | h
    · exact Or.inl h
    · exact Or.inr ⟨by simp, h⟩

/-- The newest block of a represented queue: the chain ends in it, `first` points to it and
its `next` is null. -/
theorem Rep.newest {α : Type} {N : Nat} {q : Queue α} {segs : List (Nat × Stack α)}
    (h : Rep N q segs) :
    ∃ init a s, segs = init ++ [(a, s)] ∧ q.first = some a ∧ q.heap a = some s ∧
      s.next = none ∧ Chain q.heap q.last none init (some a) s.previous := by
  obtain ⟨init, y, rfl⟩ := List.eq_nil_or_concat segs |>.resolve_left h.nonempty
  have hc := h.chain
  rw [List.concat_eq_append, chain_snoc] at hc
  exact ⟨init, y.1, y.2, by simp, hc.2.2.2, hc.2.1, hc.2.2.1, hc.1⟩

/-- What `push_back` computes when the newest block has room. -/
theorem push_back_room {α : Type} [Inhabited α] {N : Nat} {q : Queue α} {a : Nat}
    {s : Stack α} (x : α) (hf : q.first = some a) (hs : q.heap a = some s)
    (hl : s.length < N) :
    (push_back N x).run q = (.ok (),
      { q with
        heap := Function.update q.heap a (some { s with
          data := Function.update s.data ((s.start + s.length) % N) x,
          length := s.length + 1 }),
        length := q.length + 1 }) := by
  simp [push_back, QM.run, getFirst, deref, Queue.load, hf, hs, assign, setLength,
    getLength, Queue.store, Nat.not_le.mpr hl]

/-- When the newest block has room, `push_back` writes the item into it. -/
theorem rep_push_room {α : Type} {N : Nat} {q : Queue α}
    {init : List (Nat × Stack α)} {a : Nat} {s : Stack α} (x : α)
    (h : Rep N q (init ++ [(a, s)])) (hl : s.length < N) :
    Rep N
      { q with
        heap := Function.update q.heap a (some { s with
          data := Function.update s.data ((s.start + s.length) % N) x,
          length := s.length + 1 }),
        length := q.length + 1 }
      (init ++ [(a, { s with
        data := Function.update s.data ((s.start + s.length) % N) x,
        length := s.length + 1 })]) := by
  have hc := h.chain
  rw [chain_snoc] at hc
  obtain ⟨hci, hs, hnx, hf⟩ := hc
  simp only at hs hnx hf hci
  have hnd := h.nodup
  rw [List.map_append, List.nodup_append] at hnd
  have hnot : ∀ b ∈ init.map Prod.fst, b ≠ a := by
    intro b hb hba
    exact hnd.2.2 hb (by simp [hba])
  refine ⟨?_, by simp, ?_, ?_, ?_, ?_, ?_, ?_, ?_, ?_⟩
  · rw [chain_snoc]
    refine ⟨chain_frame init _ _ _ _ ?_ hci, by simp, hnx, hf⟩
    intro b hb
    simp [Function.update_noteq (hnot b hb)]
  · simpa using h.nodup
  · intro b hb
    have hb2 : b ∉ (init ++ [(a, s)]).map Prod.fst := by simpa using hb
    have hba : b ≠ a := by
      intro e; apply hb2; simp [e]
    simp [Function.update_noteq hba, h.owned b hb2]
  · intro b hb
    have hba : b ≠ a := by
      intro e
      have := h.below b hb
      rw [e, hs] at this
      exact Option.noConfusion this
    simp [Function.update_noteq hba, h.below b hb]
  · intro y hy
    rcases List.mem_append.mp hy with hy | hy
    · exact h.start_lt y (List.mem_append.mpr (Or.inl hy))
    · rw [List.mem_singleton] at hy
      subst hy
      exact h.start_lt (a, s) (by simp)
  · intro y hy
    rcases List.mem_append.mp hy with hy | hy
    · exact h.length_le y (List.mem_append.mpr (Or.inl hy))
    · rw [List.mem_singleton] at hy
      subst hy
      exact hl
  · have := h.total
    simp only [List.map_append, List.sum_append, List.map_cons, List.map_nil,
      List.sum_cons, List.sum_nil] at this ⊢
    omega
  · intro y hy hy0
    rcases List.mem_append.mp hy with hy | hy
    · simpa using h.no_empty y (List.mem_append.mpr (Or.inl hy)) hy0
    · rw [List.mem_singleton] at hy
      subst hy
      simp at hy0
  · intro y hy
    apply h.middle
    simpa using hy

/-- What `push_back` computes when the newest block is full. -/
theorem push_back_full {α : Type} [Inhabited α] {N : Nat} {q : Queue α} {a : Nat}
    {s : Stack α} (x : α) (hf : q.first = some a) (hs : q.heap a = some s)
    (hl : N ≤ s.length) (hne : a ≠ q.fresh) :
    (push_back N x).run q = (.ok (),
      { heap := Function.update (Function.update q.heap a (some { s with next := some q.fresh }))
                  q.fresh (some (Stack.single N a x)),
        fresh := q.fresh + 1,
        first := some q.fresh,
        last := q.last,
        length := q.length + 1 }) := by
  simp [push_back, QM.run, getFirst, deref, Queue.load, hf, hs, assign, setLength,
    getLength, Queue.store, hl, alloc, setFirst, Stack.fresh, hne, Ne.symm hne,
    Function.update_noteq, Stack.single]
  funext b
  by_cases h1 : b = q.fresh
  · subst h1; simp
  · by_cases h2 : b = a
    · subst h2; simp [h1]
    · simp [h1, h2]

theorem Stack.elems_of_single {α : Type} [Inhabited α] (N : Nat) (a : Nat) (x : α) :
    (Stack.single N a x).elems N = [x] := by
  simp only [Stack.elems, Stack.single, List.range_succ, List.range_zero, List.nil_append,
    List.map_cons, List.map_nil, Nat.add_zero]
  rw [Function.update_same]

/-- Changing only the links of a block does not change its elements. -/
theorem Stack.elems_relink {α : Type} (N : Nat) (s : Stack α) (p r : Ptr) :
    Stack.elems N { s with next := p, previous := r } = s.elems N := rfl

/-- The address of a block in the heap is below `fresh`. -/
theorem Rep.lt_fresh {α : Type} {N : Nat} {q : Queue α} {segs : List (Nat × Stack α)}
    (h : Rep N q segs) {a : Nat} {s : Stack α} (hs : q.heap a = some s) : a < q.fresh := by
  by_contra hge
  have := h.below a (Nat.le_of_not_lt hge)
  rw [hs] at this
  exact Option.noConfusion this

/-- When the newest block is full, `push_back` links a new block behind it and writes the
item there. -/
theorem rep_push_full {α : Type} [Inhabited α] {N : Nat} (hN : 0 < N) {q : Queue α}
    {init : List (Nat × Stack α)} {a : Nat} {s : Stack α} (x : α)
    (h : Rep N q (init ++ [(a, s)])) (hl : N ≤ s.length) :
    Rep N
      { heap := Function.update (Function.update q.heap a (some { s with next := some q.fresh }))
                  q.fresh (some (Stack.single N a x)),
        fresh := q.fresh + 1,
        first := some q.fresh,
        last := q.last,
        length := q.length + 1 }
      (init ++ [(a, { s with next := some q.fresh })] ++ [(q.fresh, Stack.single N a x)]) := by
  have hc := h.chain
  rw [chain_snoc] at hc
  obtain ⟨hci, hs, hnx, hf⟩ := hc
  simp only at hs hnx hf hci
  have hnd := h.nodup
  rw [List.map_append, List.nodup_append] at hnd
  have hnot : ∀ b ∈ init.map Prod.fst, b ≠ a := by
    intro b hb hba
    exact hnd.2.2 hb (by simp [hba])
  have hmem := chain_mem _ _ _ _ _ h.chain
  have hlt : ∀ y ∈ init ++ [(a, s)], y.1 < q.fresh := fun y hy => h.lt_fresh (hmem y hy)
  have hltm : ∀ b ∈ (init ++ [(a, s)]).map Prod.fst, b < q.fresh := by
    intro b hb
    obtain ⟨y, hy, rfl⟩ := List.mem_map.mp hb
    exact hlt y hy
  have haf : a < q.fresh := hlt (a, s) (by simp)
  have hsN : s.length = N := Nat.le_antisymm (h.length_le (a, s) (by simp)) hl
  refine ⟨?_, by simp, ?_, ?_, ?_, ?_, ?_, ?_, ?_, ?_⟩
  · rw [chain_snoc, chain_snoc]
    refine ⟨⟨chain_frame init _ _ _ _ ?_ hci, ?_, rfl, rfl⟩, by simp, rfl, rfl⟩
    · intro b hb
      have hbf : b ≠ q.fresh := Nat.ne_of_lt (hltm b (by simp [List.mem_map] at hb ⊢; tauto))
      simp [Function.update_noteq (hnot b hb), Function.update_noteq hbf]
    · simp [Function.update_noteq (Nat.ne_of_lt haf)]
  · simp only [List.map_append, List.map_cons, List.map_nil]
    rw [List.nodup_append]
    refine ⟨by simpa using h.nodup, by simp, ?_⟩
    intro b hb hb2
    rw [List.mem_singleton] at hb2
    have := hltm b (by simpa using hb)
    omega
  · intro b hb
    simp only [List.map_append, List.map_cons, List.map_nil, List.mem_append,
      List.mem_singleton, not_or] at hb
    have hb2 : b ∉ (init ++ [(a, s)]).map Prod.fst := by
      simp only [List.map_append, List.map_cons, List.map_nil, List.mem_append,
        List.mem_singleton, not_or]
      exact hb.1
    simp [Function.update_noteq hb.2, Function.update_noteq hb.1.2, h.owned b hb2]
  · intro b hb
    have h1 : b ≠ q.fresh := by simp at hb; omega
    have h2 : b ≠ a := by simp at hb; omega
    simp [Function.update_noteq h1, Function.update_noteq h2, h.below b (by simp at hb; omega)]
  · intro y hy
    simp only [List.mem_append, List.mem_singleton] at hy
    rcases hy with (hy | hy) | hy
    · exact h.start_lt y (List.mem_append.mpr (Or.inl hy))
    · subst hy; exact h.start_lt (a, s) (by simp)
    · subst hy; exact hN
  · intro y hy
    simp only [List.mem_append, List.mem_singleton] at hy
    rcases hy with (hy | hy) | hy
    · exact h.length_le y (List.mem_append.mpr (Or.inl hy))
    · subst hy; exact h.length_le (a, s) (by simp)
    · subst hy; exact hN
  · have := h.total
    simp only [List.map_append, List.sum_append, List.map_cons, List.map_nil,
      List.sum_cons, List.sum_nil, Stack.single] at this ⊢
    omega
  · intro y hy hy0
    simp only [List.mem_append, List.mem_singleton] at hy
    rcases hy with (hy | hy) | hy
    · have := h.no_empty y (List.mem_append.mpr (Or.inl hy)) hy0
      have hi : init ≠ [] := List.ne_nil_of_mem hy
      cases init with
      | nil => exact absurd rfl hi
      | cons z init => simp at this
    · subst hy
      simp only at hy0
      omega
    · subst hy
      simp [Stack.single] at hy0
  · intro y hy
    rw [List.dropLast_concat] at hy
    rcases mem_tail_concat hy with hy | ⟨_, hy⟩
    · apply h.middle
      simpa using hy
    · subst hy
      exact hsN

/-- On a represented queue `push_back` succeeds, keeps the representation and appends the
item to the elements. -/
theorem rep_push {α : Type} [Inhabited α] {N : Nat} (hN : 0 < N) {q : Queue α}
    {segs : List (Nat × Stack α)} (x : α) (h : Rep N q segs) :
    ∃ q2 segs2, (push_back N x).run q = (.ok (), q2) ∧ Rep N q2 segs2 ∧
      elems N segs2 = elems N segs ++ [x] := by
  obtain ⟨init, a, s, rfl, hf, hs, _, _⟩ := h.newest
  by_cases hl : s.length < N
  · refine ⟨_, _, push_back_room x hf hs hl, rep_push_room x h hl, ?_⟩
    simp only [elems_append, elems_single, Stack.elems_push s x hl, List.append_assoc]
  · have hl2 : N ≤ s.length := Nat.le_of_not_lt hl
    refine ⟨_, _, push_back_full x hf hs hl2 (Nat.ne_of_lt (h.lt_fresh hs)),
      rep_push_full hN x h hl2, ?_⟩
    simp only [elems_append, elems_single, Stack.elems_of_single]
    rfl

/-! ## `pop_front` keeps the representation and drops the oldest element -/

/-- The oldest block of a represented queue: the chain starts with it, `last` points to it
and its `previous` is null. -/
theorem Rep.oldest {α : Type} {N : Nat} {q : Queue α} {segs : List (Nat × Stack α)}
    (h : Rep N q segs) :
    ∃ a s rest, segs = (a, s) :: rest ∧ q.last = some a ∧ q.heap a = some s ∧
      s.previous = none ∧ Chain q.heap s.next (some a) rest none q.first := by
  cases segs with
  | nil => exact absurd rfl h.nonempty
  | cons y rest =>
    obtain ⟨h1, h2, h3, h4⟩ := h.chain
    exact ⟨y.1, y.2, rest, rfl, h1, h2, h3, h4⟩

/-- The cached length is the number of elements. -/
theorem Rep.length_eq {α : Type} {N : Nat} {q : Queue α} {segs : List (Nat × Stack α)}
    (h : Rep N q segs) : q.length = (elems N segs).length := by
  rw [elems_length, h.total]

/-- In a queue that is not empty no block is empty. -/
theorem Rep.pos {α : Type} {N : Nat} {q : Queue α} {segs : List (Nat × Stack α)}
    (h : Rep N q segs) (hq : 0 < q.length) : ∀ x ∈ segs, 1 ≤ x.2.length := by
  intro x hx
  by_contra hlt
  have h0 : x.2.length = 0 := by omega
  have h1 := h.no_empty x hx h0
  have ht := h.total
  match segs, h1 with
  | [y], _ =>
    rw [List.mem_singleton] at hx
    subst hx
    simp only [List.map_cons, List.map_nil, List.sum_cons, List.sum_nil] at ht
    omega

/-- The first element of a block that is not empty. -/
theorem Stack.elems_eq_cons {α : Type} {N : Nat} (s : Stack α) (hl : 1 ≤ s.length) :
    s.elems N = s.data (s.start % N) ::
      Stack.elems N { s with start := (s.start + 1) % N, length := s.length - 1 } := by
  obtain ⟨n, hn⟩ : ∃ n, s.length = n + 1 := ⟨s.length - 1, by omega⟩
  simp only [Stack.elems, hn, List.range_succ_eq_map, List.map_cons, List.map_map,
    Nat.add_zero, Nat.add_sub_cancel]
  congr 1
  apply List.map_congr_left
  intro i _
  simp only [Function.comp, Nat.mod_add_mod]
  congr 2
  omega

/-- What `pop_front` computes when the oldest block keeps elements or is the only one. -/
theorem pop_front_keep {α : Type} {N : Nat} {q : Queue α} {a : Nat} {s : Stack α}
    (hq : 0 < q.length) (hl : q.last = some a) (hs : q.heap a = some s)
    (hc : ¬ (s.length ≤ 1 ∧ s.next ≠ none)) :
    (pop_front N).run q = (.ok (),
      { q with
        heap := Function.update q.heap a (some { s with
          start := (s.start + 1) % N,
          length := s.length - 1 }),
        length := q.length - 1 }) := by
  have hq2 : ¬ q.length = 0 := by omega
  by_cases h1 : s.length ≤ 1
  · have h2 : s.next = none := by
      by_contra h2
      exact hc ⟨h1, h2⟩
    simp [pop_front, QM.run, getLength, getLast, deref, Queue.load, hl, hs, assign,
      setLength, Queue.store, raise, hq2, h2]
  · simp [pop_front, QM.run, getLength, getLast, deref, Queue.load, hl, hs, assign,
      setLength, Queue.store, raise, hq2, h1]

/-- What `pop_front` computes when the oldest block holds one element and has a successor. -/
theorem pop_front_drop {α : Type} {N : Nat} {q : Queue α} {a b : Nat} {s t : Stack α}
    (hq : 0 < q.length) (hl : q.last = some a) (hs : q.heap a = some s)
    (hc : s.length ≤ 1) (hn : s.next = some b) (ht : q.heap b = some t) (hab : a ≠ b) :
    (pop_front N).run q = (.ok (),
      { q with
        heap := Function.update
          (Function.update q.heap b (some { t with previous := none })) a none,
        last := some b,
        length := q.length - 1 }) := by
  have hq2 : ¬ q.length = 0 := by omega
  simp [pop_front, QM.run, getLength, getLast, deref, Queue.load, hl, hs, assign, setLength,
    Queue.store, raise, hq2, hc, hn, setLast, ht, free, Function.update_noteq hab]

/-- What `pop_front` computes on an empty queue: the exception, with the memory as it was. -/
theorem pop_front_empty {α : Type} {N : Nat} {q : Queue α} (hq : q.length = 0) :
    (pop_front N).run q = (.error Err.emptyPop, q) := by
  simp [pop_front, QM.run, getLength, raise, hq]

/-- A chain that starts at the null pointer has no blocks. -/
theorem chain_null {α : Type} {h : Nat → Option (Stack α)} {prev nxt lst : Ptr}
    {segs : List (Nat × Stack α)} (hc : Chain h none prev segs nxt lst) : segs = [] := by
  cases segs with
  | nil => rfl
  | cons x rest => exact Option.noConfusion hc.1

/-- Advancing `start` of the oldest block and decrementing its `length`, as `pop_front`
does when it frees nothing, leaves a represented queue. -/
theorem rep_pop_keep {α : Type} {N : Nat} {q : Queue α} {a : Nat} {s : Stack α}
    {rest : List (Nat × Stack α)} (h : Rep N q ((a, s) :: rest)) (hq : 0 < q.length)
    (hc : ¬ (s.length ≤ 1 ∧ s.next ≠ none)) :
    Rep N
      { q with
        heap := Function.update q.heap a (some { s with
          start := (s.start + 1) % N,
          length := s.length - 1 }),
        length := q.length - 1 }
      ((a, { s with start := (s.start + 1) % N, length := s.length - 1 }) :: rest) := by
  obtain ⟨hl, hs, hp, hch⟩ := h.chain
  simp only at hl hs hp hch
  have hnd := h.nodup
  rw [List.map_cons, List.nodup_cons] at hnd
  have hnot : ∀ b ∈ rest.map Prod.fst, b ≠ a := by
    intro b hb hba
    exact hnd.1 (hba ▸ hb)
  have hpos := h.pos hq (a, s) (by simp)
  have hN : 0 < N := Nat.lt_of_le_of_lt (Nat.zero_le _) (h.start_lt (a, s) (by simp))
  refine ⟨?_, by simp, ?_, ?_, ?_, ?_, ?_, ?_, ?_, ?_⟩
  · refine ⟨hl, by simp, hp, chain_frame rest _ _ _ _ ?_ hch⟩
    intro b hb
    simp [Function.update_noteq (hnot b hb)]
  · simpa using h.nodup
  · intro b hb
    have hb2 : b ∉ ((a, s) :: rest).map Prod.fst := by simpa using hb
    have hba : b ≠ a := by
      intro e; apply hb2; simp [e]
    simp [Function.update_noteq hba, h.owned b hb2]
  · intro b hb
    have hba : b ≠ a := Ne.symm (Nat.ne_of_lt (Nat.lt_of_lt_of_le (h.lt_fresh hs) hb))
    simp [Function.update_noteq hba, h.below b hb]
  · intro y hy
    rcases List.mem_cons.mp hy with hy | hy
    · subst hy; exact Nat.mod_lt _ hN
    · exact h.start_lt y (List.mem_cons.mpr (Or.inr hy))
  · intro y hy
    rcases List.mem_cons.mp hy with hy | hy
    · subst hy
      have := h.length_le (a, s) (by simp)
      simp only at this ⊢
      omega
    · exact h.length_le y (List.mem_cons.mpr (Or.inr hy))
  · have := h.total
    simp only [List.map_cons, List.sum_cons] at this hpos ⊢
    omega
  · intro y hy hy0
    rcases List.mem_cons.mp hy with hy | hy
    · subst hy
      simp only at hy0
      have hnx : s.next = none := by
        by_contra hne
        exact hc ⟨by omega, hne⟩
      rw [hnx] at hch
      rw [chain_null hch]
      rfl
    · simpa using h.no_empty y (List.mem_cons.mpr (Or.inr hy)) hy0
  · intro y hy
    apply h.middle
    cases rest with
    | nil => simp at hy
    | cons z rest => simpa using hy

/-- Unlinking and freeing the oldest block of a chain of two or more, as `pop_front` and
`clear` do, leaves a represented queue (with the cached length adjusted). -/
theorem rep_drop {α : Type} {N : Nat} {q : Queue α} {a b : Nat} {s t : Stack α}
    {rest : List (Nat × Stack α)} (h : Rep N q ((a, s) :: (b, t) :: rest)) :
    Rep N
      { q with
        heap := Function.update
          (Function.update q.heap b (some { t with previous := none })) a none,
        last := some b,
        length := q.length - s.length }
      ((b, { t with previous := none }) :: rest) := by
  obtain ⟨hl, hs, hp, hn, ht, htp, hch⟩ := h.chain
  simp only at hl hs hp hn ht htp hch
  have hnd := h.nodup
  simp only [List.map_cons, List.nodup_cons, List.mem_cons, not_or] at hnd
  have hab : a ≠ b := hnd.1.1
  have hnota : ∀ c ∈ rest.map Prod.fst, c ≠ a := by
    intro c hc1 hca
    exact hnd.1.2 (hca ▸ hc1)
  have hnotb : ∀ c ∈ rest.map Prod.fst, c ≠ b := by
    intro c hc1 hcb
    exact hnd.2.1 (hcb ▸ hc1)
  refine ⟨?_, by simp, ?_, ?_, ?_, ?_, ?_, ?_, ?_, ?_⟩
  · refine ⟨rfl, by simp [Function.update_noteq (Ne.symm hab)], rfl,
      chain_frame rest _ _ _ _ ?_ hch⟩
    intro c hc1
    simp [Function.update_noteq (hnota c hc1), Function.update_noteq (hnotb c hc1)]
  · simp only [List.map_cons, List.nodup_cons]
    exact hnd.2
  · intro c hc1
    simp only [List.map_cons, List.mem_cons, not_or] at hc1
    by_cases hca : c = a
    · subst hca; simp
    · have hc2 : c ∉ ((a, s) :: (b, t) :: rest).map Prod.fst := by
        simp only [List.map_cons, List.mem_cons, not_or]
        exact ⟨hca, hc1⟩
      simp [Function.update_noteq hca, Function.update_noteq hc1.1, h.owned c hc2]
  · intro c hc1
    have hca : c ≠ a := Ne.symm (Nat.ne_of_lt (Nat.lt_of_lt_of_le (h.lt_fresh hs) hc1))
    have hcb : c ≠ b := Ne.symm (Nat.ne_of_lt (Nat.lt_of_lt_of_le (h.lt_fresh ht) hc1))
    simp [Function.update_noteq hca, Function.update_noteq hcb, h.below c hc1]
  · intro y hy
    rcases List.mem_cons.mp hy with hy | hy
    · subst hy; exact h.start_lt (b, t) (by simp)
    · exact h.start_lt y (by simp [hy])
  · intro y hy
    rcases List.mem_cons.mp hy with hy | hy
    · subst hy; exact h.length_le (b, t) (by simp)
    · exact h.length_le y (by simp [hy])
  · have := h.total
    simp only [List.map_cons, List.sum_cons] at this ⊢
    omega
  · intro y hy hy0
    exfalso
    rcases List.mem_cons.mp hy with hy | hy
    · subst hy
      have := h.no_empty (b, t) (by simp) hy0
      simp at this
    · have := h.no_empty y (by simp [hy]) hy0
      simp at this
  · intro y hy
    cases rest with
    | nil => simp at hy
    | cons z rest =>
      apply h.middle
      simp only [List.dropLast_cons₂, List.tail_cons] at hy ⊢
      exact List.mem_cons.mpr (Or.inr hy)

/-- On a represented queue `pop_front` throws and changes nothing when there is no
element, and otherwise succeeds, keeps the representation and drops the oldest element. -/
theorem rep_pop {α : Type} {N : Nat} {q : Queue α} {segs : List (Nat × Stack α)}
    (h : Rep N q segs) :
    (elems N segs = [] → (pop_front N).run q = (.error Err.emptyPop, q)) ∧
    (∀ y ys, elems N segs = y :: ys → ∃ q2 segs2,
      (pop_front N).run q = (.ok (), q2) ∧ Rep N q2 segs2 ∧ elems N segs2 = ys) := by
  constructor
  · intro he
    apply pop_front_empty
    rw [h.length_eq, he]
    rfl
  · intro y ys he
    have hq : 0 < q.length := by
      rw [h.length_eq, he]
      simp
    obtain ⟨a, s, rest, rfl, hl, hs, _, hch⟩ := h.oldest
    have hpos := h.pos hq (a, s) (by simp)
    have hN : 0 < N := Nat.lt_of_le_of_lt (Nat.zero_le _) (h.start_lt (a, s) (by simp))
    simp only [elems, Stack.elems_eq_cons s hpos, List.cons_append, List.cons.injEq] at he
    by_cases hc : s.length ≤ 1 ∧ s.next ≠ none
    · obtain ⟨b, hb⟩ := Option.ne_none_iff_exists'.mp hc.2
      rw [hb] at hch
      cases rest with
      | nil => exact Option.noConfusion hch.1
      | cons z rest =>
        obtain ⟨b2, t⟩ := z
        obtain ⟨hb2, ht, _, _⟩ := hch
        simp only [Option.some.injEq] at hb2 ht
        subst hb2
        have hab : a ≠ b := by
          have := h.nodup
          simp only [List.map_cons, List.nodup_cons, List.mem_cons, not_or] at this
          exact this.1.1
        have hc1 := hc.1
        simp only at hpos
        have h1 : s.length - 1 = 0 := by omega
        have h2 : s.length = 1 := by omega
        have hr := rep_drop h
        rw [h2] at hr
        refine ⟨_, _, pop_front_drop hq hl hs hc.1 hb ht hab, hr, ?_⟩
        rw [← he.2]
        simp [elems, Stack.elems, h1]
    · refine ⟨_, _, pop_front_keep hq hl hs hc, rep_pop_keep h hq hc, ?_⟩
      rw [← he.2]
      simp [elems]

/-! ## `front` reads the oldest element -/

/-- On a represented queue `front` throws when there is no element and otherwise returns
the oldest one. -/
theorem rep_front {α : Type} {N : Nat} {q : Queue α} {segs : List (Nat × Stack α)}
    (h : Rep N q segs) :
    front q = match elems N segs with
      | [] => .error Err.emptyPeek
      | y :: _ => .ok y := by
  obtain ⟨a, s, rest, rfl, hl, hs, _, _⟩ := h.oldest
  by_cases hq : q.length = 0
  · have he : elems N ((a, s) :: rest) = [] := by
      apply List.eq_nil_of_length_eq_zero
      rw [← h.length_eq, hq]
    rw [he]
    simp [front, hq, throw, throwThe, MonadExceptOf.throw, bind, Except.bind]
  · have hpos := h.pos (Nat.pos_of_ne_zero hq) (a, s) (by simp)
    have hst := h.start_lt (a, s) (by simp)
    simp only at hst
    simp [front, hq, bind, Except.bind, Queue.read, Queue.load, hl, hs, elems,
      Stack.elems_eq_cons s hpos, Nat.mod_eq_of_lt hst, pure, Except.pure]

/-! ## The constructor -/

/-- What the default constructor builds. -/
theorem segmentedQueue_eq {α : Type} [Inhabited α] :
    (segmentedQueue : Queue α) =
      { heap := Function.update (fun _ => none) 0 (some Stack.fresh),
        fresh := 1, first := some 0, last := some 0, length := 0 } := by
  simp [segmentedQueue, construct, QM.run, blank, alloc, setFirst, getFirst, setLast, reset,
    assign, Queue.store, setLength, Stack.fresh]

/-- A freshly constructed queue is represented by one empty block. -/
theorem rep_construct {α : Type} [Inhabited α] {N : Nat} (hN : 0 < N) :
    Rep N (segmentedQueue : Queue α) [(0, Stack.fresh)] := by
  rw [segmentedQueue_eq]
  refine ⟨?_, by simp, by simp, ?_, ?_, ?_, ?_, ?_, ?_, ?_⟩
  · simp [Stack.fresh]
  · intro b hb
    have : b ≠ 0 := by simpa using hb
    simp [Function.update_noteq this]
  · intro b hb
    have : b ≠ 0 := by simp at hb; omega
    simp [Function.update_noteq this]
  · intro x hx
    rw [List.mem_singleton] at hx
    subst hx
    exact hN
  · intro x hx
    rw [List.mem_singleton] at hx
    subst hx
    simp [Stack.fresh]
  · simp [Stack.fresh]
  · intro x _ _
    rfl
  · intro x hx
    simp at hx

/-! ## `clear` -/

/-- The end pointer of a chain with blocks points to one of them. -/
theorem chain_lst_mem {α : Type} {h : Nat → Option (Stack α)} (rest : List (Nat × Stack α)) :
    ∀ (x : Nat × Stack α) (p prev nxt lst : Ptr), Chain h p prev (x :: rest) nxt lst →
      ∃ y ∈ x :: rest, lst = some y.1 := by
  induction rest with
  | nil =>
    intro x p prev nxt lst hc
    exact ⟨x, by simp, hc.2.2.2.2.symm⟩
  | cons z rest ih =>
    intro x p prev nxt lst hc
    obtain ⟨y, hy, hl⟩ := ih z _ _ _ _ hc.2.2.2
    exact ⟨y, List.mem_cons.mpr (Or.inr hy), hl⟩

/-- A represented queue has no more blocks than addresses were handed out. -/
theorem Rep.length_le_fresh {α : Type} {N : Nat} {q : Queue α}
    {segs : List (Nat × Stack α)} (h : Rep N q segs) : segs.length ≤ q.fresh := by
  have hmem := chain_mem _ _ _ _ _ h.chain
  have hsub : (segs.map Prod.fst).toFinset ⊆ Finset.range q.fresh := by
    intro b hb
    rw [List.mem_toFinset] at hb
    obtain ⟨y, hy, rfl⟩ := List.mem_map.mp hb
    exact Finset.mem_range.mpr (h.lt_fresh (hmem y hy))
  have := Finset.card_le_card hsub
  rwa [List.toFinset_card_of_nodup h.nodup, Finset.card_range, List.length_map] at this

/-- One round of the loop of `clear` on a chain of two or more blocks. -/
theorem clearLoop_step {α : Type} {q : Queue α} {a b : Nat} {s t : Stack α} (fuel : Nat)
    (hl : q.last = some a) (hf : q.first ≠ some a) (hs : q.heap a = some s)
    (hn : s.next = some b) (ht : q.heap b = some t) (hab : a ≠ b) :
    clearLoop (fuel + 1) q = clearLoop fuel
      { q with
        heap := Function.update
          (Function.update q.heap b (some { t with previous := none })) a none,
        last := some b } := by
  simp [clearLoop, getLast, getFirst, hl, Ne.symm hf, deref, Queue.load, hs, setLast, hn,
    assign, ht, Queue.store, free, Function.update_noteq hab]

/-- The loop of `clear` stops when one block is left. -/
theorem clearLoop_done {α : Type} {q : Queue α} (fuel : Nat) (h : q.last = q.first) :
    clearLoop (fuel + 1) q = (.ok (), q) := by
  simp [clearLoop, getLast, getFirst, h]

/-- On a represented queue (whatever its cached length) the loop of `clear` ends without an
error and leaves the newest block as the only one. -/
theorem rep_clearLoop {α : Type} {N : Nat} (fuel : Nat) :
    ∀ (segs : List (Nat × Stack α)) (q : Queue α) (n : Nat),
      Rep N { q with length := n } segs → segs.length ≤ fuel →
      ∃ (q2 : Queue α) (a : Nat) (s : Stack α) (m : Nat),
        clearLoop fuel q = (.ok (), q2) ∧ Rep N { q2 with length := m } [(a, s)] ∧
        q2.fresh = q.fresh ∧ q2.length = q.length := by
  induction fuel with
  | zero =>
    intro segs q n h hfuel
    exact absurd (List.eq_nil_of_length_eq_zero (Nat.le_zero.mp hfuel)) h.nonempty
  | succ fuel ih =>
    intro segs q n h hfuel
    match segs, h, hfuel with
    | [], h, _ => exact absurd rfl h.nonempty
    | [(a, s)], h, _ =>
      have hc := h.chain
      simp only [chain_cons, chain_nil] at hc
      refine ⟨q, a, s, n, clearLoop_done fuel ?_, h, rfl, rfl⟩
      rw [hc.1, ← hc.2.2.2.2]
    | (a, s) :: (b, t) :: rest, h, hfuel =>
      obtain ⟨hl, hs, _, hn, ht, _, hch⟩ := h.chain
      simp only at hl hs hn ht hch
      have hnd := h.nodup
      simp only [List.map_cons, List.nodup_cons, List.mem_cons, not_or] at hnd
      have hf : q.first ≠ some a := by
        obtain ⟨y, hy, hy2⟩ := chain_lst_mem rest (b, t) _ _ _ _ h.chain.2.2.2
        simp only at hy2
        rw [hy2]
        intro e
        simp only [Option.some.injEq] at e
        rcases List.mem_cons.mp hy with hy | hy
        · subst hy; exact hnd.1.1 e.symm
        · exact hnd.1.2 (e ▸ List.mem_map_of_mem Prod.fst hy)
      rw [clearLoop_step fuel hl hf hs hn ht hnd.1.1]
      have hr := rep_drop h
      obtain ⟨q2, a2, s2, m, h1, h2, h3, h4⟩ :=
        ih ((b, { t with previous := none }) :: rest)
          { q with
            heap := Function.update
              (Function.update q.heap b (some { t with previous := none })) a none,
            last := some b }
          (n - s.length) hr (by simpa using hfuel)
      exact ⟨q2, a2, s2, m, h1, h2, h3, h4⟩

/-- What `reset` computes when `first` points to a block. -/
theorem reset_eq {α : Type} {q : Queue α} {a : Nat} {s : Stack α} (hf : q.first = some a)
    (hs : q.heap a = some s) :
    reset.run q = (.ok (),
      { q with
        heap := Function.update q.heap a
          (some { s with previous := none, next := none, start := 0, length := 0 }),
        length := 0 }) := by
  simp [reset, QM.run, getFirst, hf, assign, hs, Queue.store, setLength]

/-- On a represented queue `clear` succeeds and leaves exactly one block, with `start` and
`length` zero and no links, and the cached length zero; every other cell of the heap is
free. -/
theorem rep_clear {α : Type} {N : Nat} {q : Queue α} {segs : List (Nat × Stack α)}
    (h : Rep N q segs) :
    ∃ (q2 : Queue α) (a : Nat) (s : Stack α),
      clear.run q = (.ok (), q2) ∧ Rep N q2 [(a, s.cleared)] ∧
      q2.first = some a ∧ q2.last = some a ∧ q2.length = 0 ∧
      q2.heap = Function.update (fun _ => none) a (some s.cleared) := by
  obtain ⟨q1, a, s, m, h1, h2, h3, _⟩ :=
    rep_clearLoop (q.fresh + 1) segs q q.length h (Nat.le_succ_of_le h.length_le_fresh)
  have hc := h2.chain
  simp only [chain_cons, chain_nil] at hc
  obtain ⟨hl, hs, _, _, hf⟩ := hc
  have hN : 0 < N := Nat.lt_of_le_of_lt (Nat.zero_le _) (h2.start_lt (a, s) (by simp))
  refine ⟨{ q1 with
      heap := Function.update q1.heap a (some s.cleared),
      length := 0 }, a, s, ?_, ?_, hf.symm, hl, rfl, ?_⟩
  · simp only [clear, QM.run, run_bind, getFresh, h1]
    exact reset_eq hf.symm hs
  · refine ⟨?_, by simp, by simp, ?_, ?_, ?_, ?_, ?_, ?_, ?_⟩
    · simp only [chain_cons, chain_nil]
      exact ⟨hl, by simp [Stack.cleared], rfl, rfl, hf⟩
    · intro b hb
      have hba : b ≠ a := by simpa using hb
      simp only [Function.update_noteq hba]
      exact h2.owned b (by simpa using hb)
    · intro b hb
      have hba : b ≠ a := Ne.symm (Nat.ne_of_lt (Nat.lt_of_lt_of_le (h2.lt_fresh hs) hb))
      simp only [Function.update_noteq hba]
      exact h2.below b hb
    · intro x hx
      rw [List.mem_singleton] at hx
      subst hx
      exact hN
    · intro x hx
      rw [List.mem_singleton] at hx
      subst hx
      exact Nat.zero_le _
    · simp [Stack.cleared]
    · intro x _ _
      rfl
    · intro x hx
      simp at hx
  · funext b
    by_cases hba : b = a
    · subst hba; simp [Stack.cleared]
    · simp only [Function.update_noteq hba]
      exact h2.owned b (by simpa using hba)

/-! ## `operator[]` -/

/-- The element at offset `i` of a block. -/
theorem Stack.elems_getElem? {α : Type} {N : Nat} (s : Stack α) {i : Nat}
    (hi : i < s.length) : (s.elems N)[i]? = some (s.data ((s.start + i) % N)) := by
  simp [Stack.elems, List.getElem?_map, List.getElem?_range hi]

theorem Stack.length_elems {α : Type} {N : Nat} (s : Stack α) :
    (s.elems N).length = s.length := by
  simp [Stack.elems]

/-- Along a chain the loop of `operator[]` stops, without an error, in the block that holds
the element with the given index, and the remaining index is the element's offset there. -/
theorem chain_subscriptLoop {α : Type} {N : Nat} {q : Queue α}
    (segs : List (Nat × Stack α)) :
    ∀ (p prev nxt lst : Ptr) (index fuel : Nat), Chain q.heap p prev segs nxt lst →
      index < (elems N segs).length → segs.length ≤ fuel →
      ∃ (t : Stack α) (i : Nat), subscriptLoop q fuel p index = .ok (t, i) ∧ i < t.length ∧
        (∃ a, (a, t) ∈ segs) ∧
        (elems N segs)[index]? = some (t.data ((t.start + i) % N)) := by
  induction segs with
  | nil => intro p prev nxt lst index fuel _ hi; simp [elems] at hi
  | cons x rest ih =>
    intro p prev nxt lst index fuel hc hi hfuel
    obtain ⟨hp, hx, _, hch⟩ := hc
    cases fuel with
    | zero => simp at hfuel
    | succ fuel =>
      by_cases hlt : index < x.2.length
      · refine ⟨x.2, index, ?_, hlt, ⟨x.1, by simp⟩, ?_⟩
        · simp [subscriptLoop, Queue.read, Queue.load, hp, hx, bind, Except.bind,
            Nat.not_le.mpr hlt, pure, Except.pure]
        · simp only [elems]
          rw [List.getElem?_append_left (by rw [Stack.length_elems]; exact hlt)]
          exact Stack.elems_getElem? x.2 hlt
      · have hge : x.2.length ≤ index := Nat.le_of_not_lt hlt
        simp only [elems, List.length_append, Stack.length_elems] at hi
        obtain ⟨t, i, h1, h2, ⟨a, h3⟩, h4⟩ :=
          ih x.2.next (some x.1) nxt lst (index - x.2.length) fuel hch (by omega)
            (by simpa using hfuel)
        refine ⟨t, i, ?_, h2, ⟨a, List.mem_cons.mpr (Or.inr h3)⟩, ?_⟩
        · simp [subscriptLoop, Queue.read, Queue.load, hp, hx, bind, Except.bind, hge, h1]
        · simp only [elems]
          rw [List.getElem?_append_right (by rw [Stack.length_elems]; exact hge),
            Stack.length_elems]
          exact h4

/-- On a represented queue `operator[]` throws when the index is not below the number of
elements and otherwise returns the element with that index, counted from the oldest. -/
theorem rep_subscript {α : Type} {N : Nat} {q : Queue α} {segs : List (Nat × Stack α)}
    (h : Rep N q segs) (index : Nat) :
    subscript N q index = match (elems N segs)[index]? with
      | some y => .ok y
      | none => .error Err.indexOutOfRange := by
  by_cases hi : index < (elems N segs).length
  · obtain ⟨t, i, h1, _, _, h4⟩ :=
      chain_subscriptLoop segs q.last none none q.first index (q.fresh + 1) h.chain hi
        (Nat.le_succ_of_le h.length_le_fresh)
    have hq : ¬ q.length ≤ index := by rw [h.length_eq]; omega
    rw [h4]
    simp [subscript, hq, h1, bind, Except.bind, pure, Except.pure]
  · have hq : q.length ≤ index := by rw [h.length_eq]; omega
    rw [List.getElem?_eq_none (Nat.le_of_not_lt hi)]
    simp [subscript, hq, bind, Except.bind, throw, throwThe, MonadExceptOf.throw]

/-! ## Forward iteration -/

/-- The loop stops at the end sentinel. -/
theorem forwardLoop_end {α : Type} (N : Nat) (q : Queue α) (fuel : Nat) (acc : List α) :
    forwardLoop N q (fuel + 1) { current := none, position := 0 } acc = .ok acc := by
  simp [forwardLoop, segmentedQueueIterator.notEqual, endIterator, pure, Except.pure]

/-- One round of the loop at a valid position inside a block. -/
theorem forwardLoop_step {α : Type} (N : Nat) (q : Queue α) (fuel : Nat) (acc : List α)
    {a p : Nat} {s : Stack α} (hs : q.heap a = some s) (hp : p < s.length) :
    forwardLoop N q (fuel + 1) { current := some a, position := p } acc =
      forwardLoop N q fuel
        (if p + 1 ≥ s.length then { current := s.next, position := 0 }
         else { current := some a, position := p + 1 })
        (acc ++ [s.data ((s.start + p) % N)]) := by
  by_cases hlast : p + 1 ≥ s.length
  · simp [forwardLoop, segmentedQueueIterator.notEqual, endIterator,
      segmentedQueueIterator.dereference, segmentedQueueIterator.increment, Queue.load,
      Queue.read, hs, Nat.not_le.mpr hp, bind, Except.bind, pure, Except.pure, hlast,
      ge_iff_le.mp hlast]
  · simp [forwardLoop, segmentedQueueIterator.notEqual, endIterator,
      segmentedQueueIterator.dereference, segmentedQueueIterator.increment, Queue.load,
      Queue.read, hs, Nat.not_le.mpr hp, bind, Except.bind, pure, Except.pure, hlast,
      Nat.not_le.mp hlast]

/-- From a valid position in a block of a chain whose later blocks are not empty, the
loop runs to the end of the chain, without an error, and collects the elements from that
position on. -/
theorem chain_forwardLoop {α : Type} {N : Nat} {q : Queue α} (fuel : Nat) :
    ∀ (x : Nat × Stack α) (rest : List (Nat × Stack α)) (p : Nat) (prev lst : Ptr)
      (acc : List α), Chain q.heap (some x.1) prev (x :: rest) none lst → p < x.2.length →
      (∀ y ∈ rest, 1 ≤ y.2.length) →
      (x.2.length - p) + (elems N rest).length + 1 ≤ fuel →
      forwardLoop N q fuel { current := some x.1, position := p } acc =
        .ok (acc ++ (x.2.elems N).drop p ++ elems N rest) := by
  induction fuel with
  | zero => intro x rest p prev lst acc _ _ _ hfuel; omega
  | succ fuel ih =>
    intro x rest p prev lst acc hc hp hpos hfuel
    obtain ⟨_, hx, _, hch⟩ := hc
    rw [forwardLoop_step N q fuel acc hx hp]
    have hdrop : (x.2.elems N).drop p =
        x.2.data ((x.2.start + p) % N) :: (x.2.elems N).drop (p + 1) := by
      rw [List.drop_eq_getElem_cons (by rw [Stack.length_elems]; exact hp)]
      congr 1
      have := Stack.elems_getElem? (N := N) x.2 hp
      rw [List.getElem?_eq_getElem (by rw [Stack.length_elems]; exact hp)] at this
      exact Option.some.inj this
    by_cases hlast : p + 1 ≥ x.2.length
    · rw [if_pos hlast, hdrop, List.drop_of_length_le (by rw [Stack.length_elems]; exact hlast)]
      cases rest with
      | nil =>
        simp only [chain_nil] at hch
        rw [hch.1]
        cases fuel with
        | zero => simp [elems] at hfuel; omega
        | succ fuel => rw [forwardLoop_end]; simp [elems]
      | cons y rest =>
        have hy := hch.1
        rw [hy]
        have hy1 := hpos y (by simp)
        rw [ih y rest 0 (some x.1) lst _ (hy ▸ hch) hy1
          (fun z hz => hpos z (List.mem_cons.mpr (Or.inr hz)))
          (by simp only [elems, List.length_append, Stack.length_elems] at hfuel ⊢; omega)]
        simp [elems]
    · rw [if_neg hlast]
      rw [ih x rest (p + 1) prev lst _ ⟨rfl, hx, by assumption, hch⟩ (by omega) hpos (by omega),
        hdrop]
      simp

/-- On a represented queue with elements, full forward iteration succeeds and yields the
elements, oldest first; on an empty one its first dereference throws. -/
theorem rep_forward {α : Type} {N : Nat} {q : Queue α} {segs : List (Nat × Stack α)}
    (h : Rep N q segs) :
    forward N q = match elems N segs with
      | [] => .error Err.invalidIterator
      | y :: ys => .ok (y :: ys) := by
  obtain ⟨a, s, rest, rfl, hl, hs, _, hch⟩ := h.oldest
  by_cases hq : q.length = 0
  · have he : elems N ((a, s) :: rest) = [] := by
      apply List.eq_nil_of_length_eq_zero
      rw [← h.length_eq, hq]
    have hs0 : s.length = 0 := by
      have := h.total
      simp only [List.map_cons, List.sum_cons] at this
      omega
    rw [he]
    simp [forward, forwardLoop, hq, begin, hl, segmentedQueueIterator.notEqual, endIterator,
      segmentedQueueIterator.dereference, Queue.load, hs, hs0, bind, Except.bind, throw,
      throwThe, MonadExceptOf.throw]
  · have hq0 : 0 < q.length := Nat.pos_of_ne_zero hq
    have hne : elems N ((a, s) :: rest) ≠ [] := by
      intro he
      rw [h.length_eq, he] at hq
      exact hq rfl
    have hpos := h.pos hq0
    have := chain_forwardLoop (N := N) (q.length + 1) (a, s) rest 0 none q.first []
      (hl ▸ h.chain) (hpos (a, s) (by simp))
      (fun z hz => hpos z (List.mem_cons.mpr (Or.inr hz)))
      (by
        rw [h.length_eq]
        simp only [elems, List.length_append, Stack.length_elems]
        omega)
    simp only [forward, begin, hl]
    rw [this]
    simp only [List.nil_append, List.drop_zero]
    change Except.ok (elems N ((a, s) :: rest)) = _
    match hm : elems N ((a, s) :: rest) with
    | [] => exact absurd hm hne
    | y :: ys => rfl

/-! ## Reverse iteration -/

/-- The reverse loop stops at the end sentinel. -/
theorem reverseLoop_end {α : Type} (N : Nat) (q : Queue α) (fuel : Nat) (acc : List α) :
    reverseLoop N q (fuel + 1) { current := none, position := 0 } acc = .ok acc := by
  simp [reverseLoop, segmentedQueueReverseIterator.notEqual, rend, pure, Except.pure]

/-- One round of the reverse loop at a position that is not the first of its block. -/
theorem reverseLoop_inner {α : Type} (N : Nat) (q : Queue α) (fuel : Nat) (acc : List α)
    {a p : Nat} {s : Stack α} (hs : q.heap a = some s) (hp : p + 1 < s.length) :
    reverseLoop N q (fuel + 1) { current := some a, position := p + 1 } acc =
      reverseLoop N q fuel { current := some a, position := p }
        (acc ++ [s.data ((s.start + (p + 1)) % N)]) := by
  have h1 : ¬ s.length < p + 1 := by omega
  simp [reverseLoop, segmentedQueueReverseIterator.notEqual, rend,
    segmentedQueueReverseIterator.dereference, segmentedQueueReverseIterator.increment,
    Queue.load, Queue.read, hs, h1, bind, Except.bind, pure, Except.pure]

/-- One round of the reverse loop at the first position of the oldest block. -/
theorem reverseLoop_first {α : Type} (N : Nat) (q : Queue α) (fuel : Nat) (acc : List α)
    {a : Nat} {s : Stack α} (hs : q.heap a = some s) (hprev : s.previous = none) :
    reverseLoop N q (fuel + 1) { current := some a, position := 0 } acc =
      reverseLoop N q fuel { current := none, position := 0 }
        (acc ++ [s.data ((s.start + 0) % N)]) := by
  simp [reverseLoop, segmentedQueueReverseIterator.notEqual, rend,
    segmentedQueueReverseIterator.dereference, segmentedQueueReverseIterator.increment,
    Queue.load, Queue.read, hs, bind, Except.bind, pure, Except.pure, hprev]

/-- One round of the reverse loop at the first position of a block with an older
neighbour that is not empty. -/
theorem reverseLoop_prev {α : Type} (N : Nat) (q : Queue α) (fuel : Nat) (acc : List α)
    {a b : Nat} {s t : Stack α} (hs : q.heap a = some s)
    (hprev : s.previous = some b) (ht : q.heap b = some t) (htl : 1 ≤ t.length) :
    reverseLoop N q (fuel + 1) { current := some a, position := 0 } acc =
      reverseLoop N q fuel { current := some b, position := t.length - 1 }
        (acc ++ [s.data ((s.start + 0) % N)]) := by
  have h1 : ¬ t.length = 0 := by omega
  simp [reverseLoop, segmentedQueueReverseIterator.notEqual, rend,
    segmentedQueueReverseIterator.dereference, segmentedQueueReverseIterator.increment,
    Queue.load, Queue.read, hs, bind, Except.bind, pure, Except.pure, hprev, ht, h1]

/-- The first `p + 1` elements of a block, newest first. -/
theorem Stack.elems_take_succ {α : Type} {N : Nat} (s : Stack α) {p : Nat}
    (hp : p < s.length) :
    ((s.elems N).take (p + 1)).reverse =
      s.data ((s.start + p) % N) :: ((s.elems N).take p).reverse := by
  rw [List.take_succ, Stack.elems_getElem? s hp]
  simp

/-- From a valid position in the newest block of a chain whose older blocks are not
empty, the reverse loop runs to the start of the chain, without an error, and collects the
elements from that position back, newest first. -/
theorem chain_reverseLoop {α : Type} {N : Nat} {q : Queue α} (fuel : Nat) :
    ∀ (init : List (Nat × Stack α)) (x : Nat × Stack α) (p : Nat) (p0 nxt lst : Ptr)
      (acc : List α), Chain q.heap p0 none (init ++ [x]) nxt lst → p < x.2.length →
      (∀ y ∈ init, 1 ≤ y.2.length) →
      p + 1 + (elems N init).length + 1 ≤ fuel →
      reverseLoop N q fuel { current := some x.1, position := p } acc =
        .ok (acc ++ ((x.2.elems N).take (p + 1)).reverse ++ (elems N init).reverse) := by
  induction fuel with
  | zero => intro init x p p0 nxt lst acc _ _ _ hfuel; omega
  | succ fuel ih =>
    intro init x p p0 nxt lst acc hc hp hpos hfuel
    have hc2 := (chain_snoc _ _ _ _ _ _ _).mp hc
    obtain ⟨hci, hx, _, _⟩ := hc2
    rw [Stack.elems_take_succ x.2 hp]
    cases p with
    | succ p =>
      rw [reverseLoop_inner N q fuel acc hx hp,
        ih init x p p0 nxt lst _ hc (by omega) hpos (by omega)]
      simp
    | zero =>
      rcases List.eq_nil_or_concat init with hnil | ⟨init2, y, hcat⟩
      · subst hnil
        simp only [chain_nil] at hci
        rw [reverseLoop_first N q fuel acc hx hci.2.symm]
        cases fuel with
        | zero => omega
        | succ fuel => rw [reverseLoop_end]; simp [elems]
      · rw [List.concat_eq_append] at hcat
        subst hcat
        have hci2 := (chain_snoc _ _ _ _ _ _ _).mp hci
        obtain ⟨_, hy, _, hprev⟩ := hci2
        have hyl := hpos y (by simp)
        rw [reverseLoop_prev N q fuel acc hx hprev hy hyl,
          ih init2 y (y.2.length - 1) p0 (some x.1) x.2.previous _ hci (by omega)
            (fun z hz => hpos z (List.mem_append.mpr (Or.inl hz)))
            (by
              simp only [elems_append, elems_single, List.length_append,
                Stack.length_elems] at hfuel
              omega)]
        have hfull : (x.2.elems N).take 0 = [] := rfl
        have htake : (y.2.elems N).take (y.2.length - 1 + 1) = y.2.elems N := by
          apply List.take_of_length_le
          rw [Stack.length_elems]
          omega
        rw [htake, elems_append, elems_single]
        simp

/-- On a represented queue `rbegin` reads `first` without an error; it is the end
sentinel when there is no element and otherwise stands on the last element of the newest
block. -/
theorem rep_rbegin {α : Type} {N : Nat} {q : Queue α} {init : List (Nat × Stack α)}
    {a : Nat} {s : Stack α} (h : Rep N q (init ++ [(a, s)])) :
    rbegin q = .ok (if q.length = 0 then rend
      else { current := some a, position := s.length - 1 }) := by
  obtain ⟨_, hs, _, hf⟩ := (chain_snoc _ _ _ _ _ _ _).mp h.chain
  simp only at hs hf
  by_cases hq : q.length = 0
  · have hs0 : s.length = 0 := by
      have := h.total
      simp only [List.map_append, List.sum_append, List.map_cons, List.map_nil,
        List.sum_cons, List.sum_nil] at this
      omega
    simp [rbegin, Queue.read, Queue.load, hf, hs, hs0, hq, rend, bind, Except.bind, pure,
      Except.pure]
  · have hs1 := h.pos (Nat.pos_of_ne_zero hq) (a, s) (by simp)
    simp only at hs1
    have hs0 : ¬ s.length = 0 := by omega
    simp [rbegin, Queue.read, Queue.load, hf, hs, hs0, hq, bind, Except.bind, pure,
      Except.pure]

/-- On a represented queue full reverse iteration succeeds and yields the elements, newest
first. -/
theorem rep_reverse {α : Type} {N : Nat} {q : Queue α} {segs : List (Nat × Stack α)}
    (h : Rep N q segs) : reverse N q = .ok (elems N segs).reverse := by
  obtain ⟨init, a, s, rfl, _, _, _, _⟩ := h.newest
  simp only [reverse, rep_rbegin h, bind, Except.bind]
  by_cases hq : q.length = 0
  · have he : elems N (init ++ [(a, s)]) = [] := by
      apply List.eq_nil_of_length_eq_zero
      rw [← h.length_eq, hq]
    rw [if_pos hq, he, hq]
    exact reverseLoop_end N q 0 []
  · have hpos := h.pos (Nat.pos_of_ne_zero hq)
    have hs1 := hpos (a, s) (by simp)
    simp only at hs1
    rw [if_neg hq]
    rw [chain_reverseLoop (N := N) (q.length + 1) init (a, s) (s.length - 1) q.last none
      q.first [] h.chain (by simp only; omega)
      (fun z hz => hpos z (List.mem_append.mpr (Or.inl hz)))
      (by
        rw [h.length_eq]
        simp only [elems_append, elems_single, List.length_append, Stack.length_elems]
        omega)]
    have htake : (s.elems N).take (s.length - 1 + 1) = s.elems N := by
      apply List.take_of_length_le
      rw [Stack.length_elems]
      omega
    simp only [htake, elems_append, elems_single, List.reverse_append, List.nil_append]

/-! ## Reachable queues are well formed -/

theorem abs_construct {α : Type} [Inhabited α] {N : Nat} (hN : 0 < N) :
    Abs N (segmentedQueue : Queue α) [] :=
  ⟨_, rep_construct hN, by simp [elems, Stack.elems, Stack.fresh]⟩

theorem Abs.size_eq {α : Type} {N : Nat} {q : Queue α} {l : List α} (h : Abs N q l) :
    size q = l.length := by
  obtain ⟨segs, hr, rfl⟩ := h
  exact hr.length_eq

theorem Abs.push {α : Type} [Inhabited α] {N : Nat} (hN : 0 < N) {q : Queue α} {l : List α}
    (h : Abs N q l) (x : α) :
    ∃ q2, (push_back N x).run q = (.ok (), q2) ∧ Abs N q2 (l ++ [x]) := by
  obtain ⟨segs, hr, rfl⟩ := h
  obtain ⟨q2, segs2, h1, h2, h3⟩ := rep_push hN x hr
  exact ⟨q2, h1, segs2, h2, h3⟩

theorem Abs.pop_nil {α : Type} {N : Nat} {q : Queue α} (h : Abs N q []) :
    (pop_front N).run q = (.error Err.emptyPop, q) := by
  obtain ⟨segs, hr, he⟩ := h
  exact (rep_pop hr).1 he

theorem Abs.pop_cons {α : Type} {N : Nat} {q : Queue α} {y : α} {ys : List α}
    (h : Abs N q (y :: ys)) :
    ∃ q2, (pop_front N).run q = (.ok (), q2) ∧ Abs N q2 ys := by
  obtain ⟨segs, hr, he⟩ := h
  obtain ⟨q2, segs2, h1, h2, h3⟩ := (rep_pop hr).2 y ys he
  exact ⟨q2, h1, segs2, h2, h3⟩

theorem Abs.clear {α : Type} {N : Nat} {q : Queue α} {l : List α} (h : Abs N q l) :
    ∃ q2, clear.run q = (.ok (), q2) ∧ Abs N q2 [] := by
  obtain ⟨segs, hr, _⟩ := h
  obtain ⟨q2, a, s, h1, h2, _⟩ := rep_clear hr
  exact ⟨q2, h1, _, h2, by simp [elems, Stack.elems, Stack.cleared]⟩

/-- Every call keeps the abstraction relation and acts on the elements as the
specification says. -/
theorem Abs.step {α : Type} [Inhabited α] {N : Nat} (hN : 0 < N) {q : Queue α} {l : List α}
    (h : Abs N q l) (c : Call α) : Abs N (step N q c) (specStep l c) := by
  cases c with
  | push_back x =>
    obtain ⟨q2, h1, h2⟩ := h.push hN x
    simpa [SegQueue.step, Call.run, h1, specStep] using h2
  | pop_front =>
    cases l with
    | nil => simpa [SegQueue.step, Call.run, h.pop_nil, specStep] using h
    | cons y ys =>
      obtain ⟨q2, h1, h2⟩ := h.pop_cons
      simpa [SegQueue.step, Call.run, h1, specStep] using h2
  | clear =>
    obtain ⟨q2, h1, h2⟩ := h.clear
    simpa [SegQueue.step, Call.run, h1, specStep] using h2

theorem abs_foldl {α : Type} [Inhabited α] {N : Nat} (hN : 0 < N) (calls : List (Call α)) :
    ∀ (q : Queue α) (l : List α), Abs N q l →
      Abs N (calls.foldl (step N) q) (calls.foldl specStep l) := by
  induction calls with
  | nil => intro q l h; exact h
  | cons c cs ih => intro q l h; exact ih _ _ (h.step hN c)

/-- Every reachable queue is well formed, and its elements are those the specification
gives for its history. -/
theorem abs_after {α : Type} [Inhabited α] {N : Nat} (hN : 0 < N) (calls : List (Call α)) :
    Abs N (after N calls) (specContents calls) :=
  abs_foldl hN calls _ _ (abs_construct hN)

theorem Abs.front {α : Type} {N : Nat} {q : Queue α} {l : List α} (h : Abs N q l) :
    front q = specFront l := by
  obtain ⟨segs, hr, he⟩ := h
  rw [rep_front hr, he]
  cases l <;> rfl

/-- In a history without `clear`, the elements are the pushed items minus as many of the
oldest as `pop_front` calls succeeded. -/
theorem abs_history {α : Type} [Inhabited α] {N : Nat} (hN : 0 < N)
    (calls : List (Call α)) :
    ∀ (q : Queue α) (l : List α), Abs N q l → (∀ c ∈ calls, c.isClear = false) →
      popsOk N q calls ≤ l.length + (pushed calls).length ∧
      calls.foldl specStep l = (l ++ pushed calls).drop (popsOk N q calls) := by
  induction calls with
  | nil => intro q l _ _; simp [popsOk, pushed]
  | cons c cs ih =>
    intro q l h hc
    have hcs : ∀ c ∈ cs, c.isClear = false := fun c hm => hc c (List.mem_cons.mpr (Or.inr hm))
    cases c with
    | push_back x =>
      obtain ⟨h1, h2⟩ := ih _ _ (h.step hN (.push_back x)) hcs
      simp only [popsOk, pushed, List.foldl_cons, List.length_cons] at h1 h2 ⊢
      simp only [specStep, List.length_append, List.length_singleton] at h1 h2 ⊢
      refine ⟨by omega, ?_⟩
      rw [h2]
      simp
    | pop_front =>
      cases l with
      | nil =>
        have hp := h.pop_nil
        have hs : step N q Call.pop_front = q := by simp [step, Call.run, hp]
        obtain ⟨h1, h2⟩ := ih q [] h hcs
        simp only [popsOk, pushed, List.foldl_cons, specStep, hs, hp, List.tail_nil]
        exact ⟨by simpa using h1, by simpa using h2⟩
      | cons y ys =>
        obtain ⟨q2, hp, h3⟩ := h.pop_cons
        have hs : step N q Call.pop_front = q2 := by simp [step, Call.run, hp]
        obtain ⟨h1, h2⟩ := ih q2 ys h3 hcs
        simp only [popsOk, pushed, List.foldl_cons, specStep, hs, hp, List.tail_cons,
          List.length_cons]
        refine ⟨by omega, ?_⟩
        rw [h2, Nat.add_comm 1, List.cons_append, List.drop_succ_cons]
    | clear =>
      have := hc Call.clear (by simp)
      simp [Call.isClear] at this

theorem specContents_append {α : Type} (calls : List (Call α)) (c : Call α) :
    specContents (calls ++ [c]) = specStep (specContents calls) c := by
  simp [specContents, List.foldl_append]

theorem after_append {α : Type} [Inhabited α] (N : Nat) (calls : List (Call α))
    (c : Call α) : after N (calls ++ [c]) = step N (after N calls) c := by
  simp [after, List.foldl_append]

theorem specContents_pushes {α : Type} (xs : List α) :
    ∀ l : List α, (xs.map Call.push_back).foldl specStep l = l ++ xs := by
  induction xs with
  | nil => intro l; simp
  | cons x xs ih => intro l; simp [specStep, ih]

/-- Draining a well-formed queue reads its elements, oldest first. -/
theorem Abs.drain {α : Type} {N : Nat} (l : List α) :
    ∀ q : Queue α, Abs N q l → drain N l.length q = l.map Except.ok := by
  induction l with
  | nil => intro q _; rfl
  | cons y ys ih =>
    intro q h
    obtain ⟨q2, hp, h2⟩ := h.pop_cons
    simp only [SegQueue.drain, List.length_cons, h.front, specFront, hp, List.map_cons,
      ih q2 h2]

/-! ## The claims -/

/-- C1. For every sequence of `push_back` and `pop_front` calls on a freshly constructed
queue with `block_size = N ≥ 1`, and after each of its calls (after the first `k`, for
every `k`): `size()` is the number of `push_back` calls so far minus the number of
`pop_front` calls so far that succeeded (which never exceeds the former), and if `size()`
is 0 then a `pop_front` throws and `size()` is 0 afterwards. -/
theorem size_eq_pushes_minus_pops {α : Type} [Inhabited α] (N : Nat) (hN : 0 < N)
    (calls : List (Call α)) (hc : ∀ c ∈ calls, c.isClear = false) (k : Nat) :
    size (after N (calls.take k)) =
      (pushed (calls.take k)).length - popsOk N segmentedQueue (calls.take k) ∧
    popsOk N segmentedQueue (calls.take k) ≤ (pushed (calls.take k)).length ∧
    (size (after N (calls.take k)) = 0 →
      ∃ q2, (pop_front N).run (after N (calls.take k)) = (.error Err.emptyPop, q2) ∧
        size q2 = 0) := by
  have hck : ∀ c ∈ calls.take k, c.isClear = false :=
    fun c hm => hc c (List.mem_of_mem_take hm)
  obtain ⟨h1, h2⟩ := abs_history hN (calls.take k) _ _ (abs_construct hN) hck
  have ha := abs_after hN (calls.take k)
  have hs := ha.size_eq
  simp only [specContents] at ha hs
  simp only [List.length_nil, Nat.zero_add, List.nil_append] at h1 h2
  rw [h2, List.length_drop] at hs
  refine ⟨hs, h1, ?_⟩
  intro h0
  have hnil : List.foldl specStep [] (calls.take k) = [] := by
    apply List.eq_nil_of_length_eq_zero
    rw [← ha.size_eq, h0]
  rw [hnil] at ha
  exact ⟨_, ha.pop_nil, h0⟩

theorem size_eq_pushes_minus_pops_witness :
    (∀ c ∈ [Call.push_back 7, Call.pop_front, Call.pop_front, Call.push_back 8],
      c.isClear = false) ∧
    size (after 2 ([Call.push_back 7, Call.pop_front, Call.pop_front,
      Call.push_back 8].take 3)) = 1 - 1 ∧
    size (after 2 ([Call.push_back 7, Call.pop_front, Call.pop_front,
      Call.push_back 8].take 3)) = 0 ∧
    ∃ q2, (pop_front 2).run (after 2 ([Call.push_back 7, Call.pop_front, Call.pop_front,
      Call.push_back 8].take 3)) = (.error Err.emptyPop, q2) ∧ size q2 = 0 :=
  ⟨by decide,
    (size_eq_pushes_minus_pops 2 (by decide)
      [Call.push_back 7, Call.pop_front, Call.pop_front, Call.push_back 8]
      (by decide) 3).1,
    by decide,
    (size_eq_pushes_minus_pops 2 (by decide)
      [Call.push_back 7, Call.pop_front, Call.pop_front, Call.push_back 8]
      (by decide) 3).2.2 (by decide)⟩

/-- C2. FIFO order.  For every sequence of `push_back` and `pop_front` calls on a freshly
constructed queue with `block_size = N ≥ 1`: `front()` returns the oldest pushed item not
yet popped, that is the first of the pushed items left when as many as `pop_front`
succeeded are dropped, and throws when none is left; pushing `xs` on a fresh queue and
then reading `front()` and calling `pop_front()` as many times as `xs` is long reads `xs`
in order; and `front()` right after `push_back(x)` on a queue that is empty at that moment
returns `x`. -/
theorem fifo_order {α : Type} [Inhabited α] (N : Nat) (hN : 0 < N)
    (calls : List (Call α)) (hc : ∀ c ∈ calls, c.isClear = false) :
    front (after N calls) =
      specFront ((pushed calls).drop (popsOk N segmentedQueue calls)) ∧
    (∀ xs : List α, drain N xs.length (after N (xs.map Call.push_back)) =
      xs.map Except.ok) ∧
    (∀ x : α, size (after N calls) = 0 →
      front (after N (calls ++ [Call.push_back x])) = .ok x) := by
  obtain ⟨_, h2⟩ := abs_history hN calls _ _ (abs_construct hN) hc
  have ha := abs_after hN calls
  simp only [List.nil_append] at h2
  refine ⟨?_, ?_, ?_⟩
  · rw [ha.front, specContents, h2]
  · intro xs
    have hx := abs_after hN (xs.map Call.push_back)
    rw [specContents, specContents_pushes, List.nil_append] at hx
    exact Abs.drain xs _ hx
  · intro x h0
    have hnil : specContents calls = [] := by
      apply List.eq_nil_of_length_eq_zero
      rw [← ha.size_eq, h0]
    have hx := abs_after hN (calls ++ [Call.push_back x])
    rw [specContents_append, hnil] at hx
    rw [hx.front]
    rfl

theorem fifo_order_witness :
    (∀ c ∈ [Call.push_back 1, Call.push_back 2, Call.push_back 3, Call.pop_front],
      c.isClear = false) ∧
    front (after 2 [Call.push_back 1, Call.push_back 2, Call.push_back 3, Call.pop_front]) =
      .ok 2 ∧
    drain 2 3 (after 2 ([1, 2, 3].map Call.push_back)) = [.ok 1, .ok 2, .ok 3] :=
  ⟨by decide,
    (fifo_order 2 (by decide)
      [Call.push_back 1, Call.push_back 2, Call.push_back 3, Call.pop_front]
      (by decide)).1,
    (fifo_order 2 (by decide)
      [Call.push_back 1, Call.push_back 2, Call.push_back 3, Call.pop_front]
      (by decide)).2.1 [1, 2, 3]⟩

theorem Abs.forward {α : Type} {N : Nat} {q : Queue α} {l : List α} (h : Abs N q l) :
    forward N q = forwardOf l := by
  obtain ⟨segs, hr, he⟩ := h
  rw [rep_forward hr, he]
  cases l <;> rfl

theorem Abs.subscript {α : Type} {N : Nat} {q : Queue α} {l : List α} (h : Abs N q l)
    (index : Nat) : subscript N q index = specSubscript l index := by
  obtain ⟨segs, hr, he⟩ := h
  rw [rep_subscript hr, he]
  rfl

theorem Abs.reverse {α : Type} {N : Nat} {q : Queue α} {l : List α} (h : Abs N q l) :
    reverse N q = .ok l.reverse := by
  obtain ⟨segs, hr, he⟩ := h
  rw [rep_reverse hr, he]

/-- C3. For every queue reachable from a fresh one by `push_back`, `pop_front` and `clear`
(with `block_size = N ≥ 1`) that is not empty, forward iteration from `begin()` to `end()`
ends without a failed dereference and yields the stored elements, oldest to newest; one
dereference is made per element yielded, `size()` in all.  With `N = 2`, after pushing
10, 20, 30, one `pop_front` and pushing 40, `size()` is 3 and the iteration yields
20, 30, 40. -/
theorem forward_yields_elements {α : Type} [Inhabited α] (N : Nat) (hN : 0 < N)
    (calls : List (Call α)) (hne : size (after N calls) ≠ 0) :
    forward N (after N calls) = .ok (specContents calls) ∧
    (specContents calls).length = size (after N calls) ∧
    size (after 2 [Call.push_back 10, Call.push_back 20, Call.push_back 30, Call.pop_front,
      Call.push_back 40]) = 3 ∧
    forward 2 (after 2 [Call.push_back 10, Call.push_back 20, Call.push_back 30,
      Call.pop_front, Call.push_back 40]) = .ok [20, 30, 40] := by
  have ha := abs_after hN calls
  refine ⟨?_, ha.size_eq.symm, rfl, rfl⟩
  rw [ha.forward]
  cases hl : specContents calls with
  | nil =>
    rw [ha.size_eq, hl] at hne
    exact absurd rfl hne
  | cons y ys => rfl

theorem forward_yields_elements_witness :
    size (after 2 [Call.push_back 10, Call.push_back 20, Call.push_back 30, Call.pop_front,
      Call.push_back 40]) ≠ 0 ∧
    forward 2 (after 2 [Call.push_back 10, Call.push_back 20, Call.push_back 30,
      Call.pop_front, Call.push_back 40]) = .ok [20, 30, 40] :=
  ⟨by decide,
    (forward_yields_elements 2 (by decide)
      [Call.push_back 10, Call.push_back 20, Call.push_back 30, Call.pop_front,
        Call.push_back 40] (by decide)).1⟩

/-- C4. For every reachable queue (`block_size = N ≥ 1`) and every index `i` below
`size()`, full forward iteration succeeds and `operator[](i)` returns the element the
iteration yields at place `i`, counted from 0. -/
theorem subscript_eq_forward {α : Type} [Inhabited α] (N : Nat) (hN : 0 < N)
    (calls : List (Call α)) (i : Nat) (hi : i < size (after N calls)) :
    ∃ (l : List α) (y : α), forward N (after N calls) = .ok l ∧ l[i]? = some y ∧
      subscript N (after N calls) i = .ok y := by
  have ha := abs_after hN calls
  rw [ha.size_eq] at hi
  refine ⟨specContents calls, (specContents calls)[i], ?_, List.getElem?_eq_getElem hi, ?_⟩
  · rw [ha.forward]
    cases hl : specContents calls with
    | nil => rw [hl] at hi; exact absurd hi (Nat.not_lt_zero _)
    | cons y ys => rfl
  · rw [ha.subscript, specSubscript, List.getElem?_eq_getElem hi]

theorem subscript_eq_forward_witness :
    1 < size (after 2 [Call.push_back 10, Call.push_back 20, Call.push_back 30,
      Call.pop_front, Call.push_back 40]) ∧
    ∃ (l : List Nat) (y : Nat),
      forward 2 (after 2 [Call.push_back 10, Call.push_back 20, Call.push_back 30,
        Call.pop_front, Call.push_back 40]) = .ok l ∧ l[1]? = some y ∧
      subscript 2 (after 2 [Call.push_back 10, Call.push_back 20, Call.push_back 30,
        Call.pop_front, Call.push_back 40]) 1 = .ok y :=
  ⟨by decide,
    subscript_eq_forward 2 (by decide)
      [Call.push_back 10, Call.push_back 20, Call.push_back 30, Call.pop_front,
        Call.push_back 40] 1 (by decide)⟩

/-- C5. For every reachable queue (`block_size = N ≥ 1`) that is not empty, forward
iteration and reverse iteration both succeed, and what reverse iteration collects is the
reversal of what forward iteration collects. -/
theorem reverse_eq_forward_reversed {α : Type} [Inhabited α] (N : Nat) (hN : 0 < N)
    (calls : List (Call α)) (hne : size (after N calls) ≠ 0) :
    ∃ l : List α, forward N (after N calls) = .ok l ∧
      reverse N (after N calls) = .ok l.reverse := by
  have ha := abs_after hN calls
  refine ⟨specContents calls, ?_, ha.reverse⟩
  rw [ha.forward]
  cases hl : specContents calls with
  | nil =>
    rw [ha.size_eq, hl] at hne
    exact absurd rfl hne
  | cons y ys => rfl

theorem reverse_eq_forward_reversed_witness :
    size (after 2 [Call.push_back 10, Call.push_back 20, Call.push_back 30, Call.pop_front,
      Call.push_back 40]) ≠ 0 ∧
    ∃ l : List Nat,
      forward 2 (after 2 [Call.push_back 10, Call.push_back 20, Call.push_back 30,
        Call.pop_front, Call.push_back 40]) = .ok l ∧
      reverse 2 (after 2 [Call.push_back 10, Call.push_back 20, Call.push_back 30,
        Call.pop_front, Call.push_back 40]) = .ok l.reverse :=
  ⟨by decide,
    reverse_eq_forward_reversed 2 (by decide)
      [Call.push_back 10, Call.push_back 20, Call.push_back 30, Call.pop_front,
        Call.push_back 40] (by decide)⟩

/-- C6 (the code departs from it). On an empty queue `begin()` does NOT compare equal to
`end()`: the forward iterator's constructor takes `last`, which is never null, while the
end sentinel holds null.  Shown with `block_size = 2` on a freshly constructed queue, on a
cleared one and on one emptied by `pop_front`: in each `size()` is 0, `operator==` returns
false, `operator!=` returns true, and the loop `for (it = begin(); it != end(); ++it)`
enters its body, where the dereference throws. -/
theorem begin_ne_end_on_empty :
    (size (after 2 ([] : List (Call Nat))) = 0 ∧
      (begin (after 2 ([] : List (Call Nat)))).equal endIterator = false ∧
      (begin (after 2 ([] : List (Call Nat)))).notEqual endIterator = true ∧
      forward 2 (after 2 ([] : List (Call Nat))) = .error Err.invalidIterator) ∧
    (size (after 2 [Call.push_back 1, Call.push_back 2, Call.push_back 3, Call.clear]) = 0 ∧
      (begin (after 2 [Call.push_back 1, Call.push_back 2, Call.push_back 3,
        Call.clear])).equal endIterator = false ∧
      forward 2 (after 2 [Call.push_back 1, Call.push_back 2, Call.push_back 3,
        Call.clear]) = .error Err.invalidIterator) ∧
    (size (after 2 [Call.push_back 1, Call.pop_front]) = 0 ∧
      (begin (after 2 [Call.push_back 1, Call.pop_front])).equal endIterator = false ∧
      forward 2 (after 2 [Call.push_back 1, Call.pop_front]) =
        .error Err.invalidIterator) :=
  ⟨⟨rfl, rfl, rfl, rfl⟩, ⟨rfl, rfl, rfl⟩, ⟨rfl, rfl, rfl⟩⟩

/-- The newest element is the one at the last occupied position of the newest block. -/
theorem elems_getLast? {α : Type} {N : Nat} (init : List (Nat × Stack α)) (a : Nat)
    (s : Stack α) (hs : 1 ≤ s.length) :
    (elems N (init ++ [(a, s)])).getLast? =
      some (s.data ((s.start + (s.length - 1)) % N)) := by
  rw [elems_append, elems_single, List.getLast?_eq_getElem?, List.length_append,
    Stack.length_elems]
  have h1 : (elems N init).length + s.length - 1 =
      (elems N init).length + (s.length - 1) := by omega
  rw [h1, List.getElem?_append_right (Nat.le_add_right _ _), Nat.add_sub_cancel_left]
  exact Stack.elems_getElem? s (by omega)

/-- C7. For every reachable queue (`block_size = N ≥ 1`), with `s` the newest block (the
one `first` points to, whose `next` is null): when the queue is not empty, `s` is not
empty, `rbegin()` is the iterator on `s` at position `s.length - 1`, and dereferencing it
gives the newest element; when the queue is empty, `rbegin()` compares equal to
`rend()`. -/
theorem rbegin_position {α : Type} [Inhabited α] (N : Nat) (hN : 0 < N)
    (calls : List (Call α)) :
    ∃ (a : Nat) (s : Stack α),
      (after N calls).first = some a ∧ (after N calls).heap a = some s ∧ s.next = none ∧
      (size (after N calls) ≠ 0 →
        1 ≤ s.length ∧
        rbegin (after N calls) = .ok { current := some a, position := s.length - 1 } ∧
        ∃ y, (specContents calls).getLast? = some y ∧
          segmentedQueueReverseIterator.dereference N (after N calls)
            { current := some a, position := s.length - 1 } = .ok y) ∧
      (size (after N calls) = 0 →
        ∃ it, rbegin (after N calls) = .ok it ∧ it.equal rend = true) := by
  obtain ⟨segs, hr, he⟩ := abs_after hN calls
  obtain ⟨init, a, s, rfl, hf, hs, hnx, _⟩ := hr.newest
  refine ⟨a, s, hf, hs, hnx, ?_, ?_⟩
  · intro hne
    have hq : (after N calls).length ≠ 0 := hne
    have hs1 := hr.pos (Nat.pos_of_ne_zero hq) (a, s) (by simp)
    simp only at hs1
    refine ⟨hs1, ?_, s.data ((s.start + (s.length - 1)) % N), ?_, ?_⟩
    · rw [rep_rbegin hr, if_neg hq]
    · rw [← he]
      exact elems_getLast? init a s hs1
    · have h2 : ¬ s.length - 1 > s.length := by omega
      simp [segmentedQueueReverseIterator.dereference, Queue.load, hs, h2, pure,
        Except.pure]
  · intro h0
    have hq : (after N calls).length = 0 := h0
    exact ⟨rend, by rw [rep_rbegin hr, if_pos hq], rfl⟩

theorem rbegin_position_witness :
    size (after 2 [Call.push_back 10, Call.push_back 20, Call.push_back 30]) ≠ 0 ∧
    ∃ (a : Nat) (s : Stack Nat),
      (after 2 [Call.push_back 10, Call.push_back 20, Call.push_back 30]).first = some a ∧
      (after 2 [Call.push_back 10, Call.push_back 20, Call.push_back 30]).heap a = some s ∧
      rbegin (after 2 [Call.push_back 10, Call.push_back 20, Call.push_back 30]) =
        .ok { current := some a, position := s.length - 1 } ∧
      segmentedQueueReverseIterator.dereference 2
        (after 2 [Call.push_back 10, Call.push_back 20, Call.push_back 30])
        { current := some a, position := s.length - 1 } = .ok 30 :=
  ⟨by decide,
    match rbegin_position 2 (by decide)
      [Call.push_back 10, Call.push_back 20, Call.push_back 30] with
    | ⟨a, s, h1, h2, _, h3, _⟩ =>
      match h3 (by decide) with
      | ⟨_, h4, y, h5, h6⟩ => ⟨a, s, h1, h2, h4, by
          have hy : y = 30 := (Option.some.inj h5).symm
          rw [hy] at h6; exact h6⟩⟩

/-- C8. For every reachable queue (`block_size = N ≥ 1`): `front()` throws exactly when
`size()` is 0, `pop_front()` throws exactly when `size()` is 0, and a `pop_front()` that
throws leaves the whole memory of the queue as it was (members, chain and every block).  A
freshly constructed queue has `size()` 0, so its `pop_front()` throws and changes
nothing. -/
theorem front_pop_fail_iff_empty {α : Type} [Inhabited α] (N : Nat) (hN : 0 < N)
    (calls : List (Call α)) :
    ((∃ e, front (after N calls) = .error e) ↔ size (after N calls) = 0) ∧
    ((∃ e, ((pop_front N).run (after N calls)).1 = .error e) ↔ size (after N calls) = 0) ∧
    (∀ e, ((pop_front N).run (after N calls)).1 = .error e →
      ((pop_front N).run (after N calls)).2 = after N calls) ∧
    size (segmentedQueue : Queue α) = 0 ∧
    (pop_front N).run (segmentedQueue : Queue α) = (.error Err.emptyPop, segmentedQueue) := by
  have ha := abs_after hN calls
  have hsz := ha.size_eq
  have hfr := ha.front
  cases hl : specContents calls with
  | nil =>
    rw [hl] at ha hsz hfr
    have hp := ha.pop_nil
    refine ⟨?_, ?_, ?_, rfl, (abs_construct hN).pop_nil⟩
    · exact ⟨fun _ => hsz, fun _ => ⟨_, hfr⟩⟩
    · exact ⟨fun _ => hsz, fun _ => ⟨_, by rw [hp]⟩⟩
    · intro e _
      rw [hp]
  | cons y ys =>
    rw [hl] at ha hsz hfr
    obtain ⟨q2, hp, _⟩ := ha.pop_cons
    have hne : size (after N calls) ≠ 0 := by
      rw [hsz]; simp
    refine ⟨?_, ?_, ?_, rfl, (abs_construct hN).pop_nil⟩
    · constructor
      · rintro ⟨e, he⟩
        rw [hfr] at he
        exact Except.noConfusion he
      · intro h0; exact absurd h0 hne
    · constructor
      · rintro ⟨e, he⟩
        rw [hp] at he
        exact Except.noConfusion he
      · intro h0; exact absurd h0 hne
    · intro e he
      rw [hp] at he
      exact Except.noConfusion he

theorem front_pop_fail_iff_empty_witness :
    ((∃ e, front (after 2 [Call.push_back 5, Call.pop_front]) = .error e) ↔
      size (after 2 [Call.push_back 5, Call.pop_front]) = 0) ∧
    ((pop_front 2).run (after 2 [Call.push_back 5, Call.pop_front])).2 =
      after 2 [Call.push_back 5, Call.pop_front] :=
  ⟨(front_pop_fail_iff_empty 2 (by decide) [Call.push_back 5, Call.pop_front]).1,
    (front_pop_fail_iff_empty 2 (by decide) [Call.push_back 5, Call.pop_front]).2.2.1
      Err.emptyPop rfl⟩

/-- C9. For every reachable queue (`block_size = N ≥ 1`) and every index: when the index
is not below `size()`, `operator[]` throws; when it is below `size()`, the walk over the
blocks ends without dereferencing a null or freed pointer, in a block `t` of the chain
with the remaining index `i` below `t.length`, and `operator[]` returns the element in slot
`(t.start + i) % N` of `t`, which is the element with that index counted from the
oldest. -/
theorem subscript_in_range {α : Type} [Inhabited α] (N : Nat) (hN : 0 < N)
    (calls : List (Call α)) (index : Nat) :
    (size (after N calls) ≤ index →
      subscript N (after N calls) index = .error Err.indexOutOfRange) ∧
    (index < size (after N calls) →
      ∃ (t : Stack α) (i : Nat),
        subscriptLoop (after N calls) ((after N calls).fresh + 1) (after N calls).last index
          = .ok (t, i) ∧
        i < t.length ∧
        (∃ a, (after N calls).heap a = some t) ∧
        subscript N (after N calls) index = .ok (t.data ((t.start + i) % N)) ∧
        (specContents calls)[index]? = some (t.data ((t.start + i) % N))) := by
  obtain ⟨segs, hr, he⟩ := abs_after hN calls
  constructor
  · intro hge
    have hq : (after N calls).length ≤ index := hge
    simp [subscript, hq, bind, Except.bind, throw, throwThe, MonadExceptOf.throw]
  · intro hlt
    have hq : index < (after N calls).length := hlt
    have hi : index < (elems N segs).length := by rw [← hr.length_eq]; exact hq
    obtain ⟨t, i, h1, h2, ⟨a, h3⟩, h4⟩ :=
      chain_subscriptLoop segs _ none none _ index ((after N calls).fresh + 1) hr.chain hi
        (Nat.le_succ_of_le hr.length_le_fresh)
    refine ⟨t, i, h1, h2, ⟨a, chain_mem _ _ _ _ _ hr.chain (a, t) h3⟩, ?_, ?_⟩
    · simp [subscript, Nat.not_le.mpr hq, h1, bind, Except.bind, pure, Except.pure]
    · rw [← he]; exact h4

theorem subscript_in_range_witness :
    (size (after 2 [Call.push_back 10, Call.push_back 20, Call.push_back 30]) ≤ 3 ∧
      subscript 2 (after 2 [Call.push_back 10, Call.push_back 20, Call.push_back 30]) 3 =
        .error Err.indexOutOfRange) ∧
    (2 < size (after 2 [Call.push_back 10, Call.push_back 20, Call.push_back 30]) ∧
      ∃ (t : Stack Nat) (i : Nat),
        subscript 2 (after 2 [Call.push_back 10, Call.push_back 20, Call.push_back 30]) 2 =
          .ok (t.data ((t.start + i) % 2)) ∧
        (specContents [Call.push_back 10, Call.push_back 20, Call.push_back 30])[2]? =
          some (t.data ((t.start + i) % 2))) :=
  ⟨⟨by decide,
      (subscript_in_range 2 (by decide)
        [Call.push_back 10, Call.push_back 20, Call.push_back 30] 3).1 (by decide)⟩,
    ⟨by decide,
      match (subscript_in_range 2 (by decide)
        [Call.push_back 10, Call.push_back 20, Call.push_back 30] 2).2 (by decide) with
      | ⟨t, i, _, _, _, h4, h5⟩ => ⟨t, i, h4, h5⟩⟩⟩

/-- Two well-formed queues with the same elements cannot be told apart by any sequence of
uses, whatever their addresses and the contents of their unoccupied slots. -/
theorem observe_abs {α : Type} [Inhabited α] {N : Nat} (hN : 0 < N) (us : List (Use α)) :
    ∀ (q1 q2 : Queue α) (l : List α), Abs N q1 l → Abs N q2 l →
      observe N q1 us = observe N q2 us := by
  induction us with
  | nil => intro q1 q2 l _ _; rfl
  | cons u us ih =>
    intro q1 q2 l h1 h2
    cases u with
    | push_back x =>
      obtain ⟨r1, e1, a1⟩ := h1.push hN x
      obtain ⟨r2, e2, a2⟩ := h2.push hN x
      simp only [observe, e1, e2, ih r1 r2 _ a1 a2]
    | pop_front =>
      cases l with
      | nil => simp only [observe, h1.pop_nil, h2.pop_nil, ih q1 q2 _ h1 h2]
      | cons y ys =>
        obtain ⟨r1, e1, a1⟩ := h1.pop_cons
        obtain ⟨r2, e2, a2⟩ := h2.pop_cons
        simp only [observe, e1, e2, ih r1 r2 _ a1 a2]
    | front => simp only [observe, h1.front, h2.front, ih q1 q2 _ h1 h2]
    | subscript i => simp only [observe, h1.subscript, h2.subscript, ih q1 q2 _ h1 h2]
    | size => simp only [observe, h1.size_eq, h2.size_eq, ih q1 q2 _ h1 h2]
    | forward => simp only [observe, h1.forward, h2.forward, ih q1 q2 _ h1 h2]
    | reverse => simp only [observe, h1.reverse, h2.reverse, ih q1 q2 _ h1 h2]

/-- What holds of `clear()`.  For every reachable queue (`block_size = N ≥ 1`), `clear()`
returns and leaves `first` and `last` on one block with `start = 0`, `length = 0` and no
links, the cached length 0 and no other block in the heap; and every sequence of
`push_back`, `pop_front`, `front`, `operator[]`, `size`, and complete traversals from
`begin()` to `end()` and from `rbegin()` to `rend()` shows the same results after the
`clear()` as on a freshly constructed queue.  No use in such a sequence holds an iterator
across a call. -/
theorem clear_like_fresh {α : Type} [Inhabited α] (N : Nat) (hN : 0 < N)
    (calls : List (Call α)) :
    ∃ (q2 : Queue α) (a : Nat) (s : Stack α),
      clear.run (after N calls) = (.ok (), q2) ∧
      q2.first = some a ∧ q2.last = some a ∧ q2.length = 0 ∧
      q2.heap = Function.update (fun _ => none) a (some s) ∧
      s.start = 0 ∧ s.length = 0 ∧ s.next = none ∧ s.previous = none ∧
      ∀ us : List (Use α), observe N q2 us = observe N segmentedQueue us := by
  obtain ⟨segs, hr, _⟩ := abs_after hN calls
  obtain ⟨q2, a, s, h1, h2, h3, h4, h5, h6⟩ := rep_clear hr
  refine ⟨q2, a, s.cleared, h1, h3, h4, h5, h6, rfl, rfl, rfl, rfl, ?_⟩
  intro us
  exact observe_abs hN us q2 segmentedQueue []
    ⟨_, h2, by simp [elems, Stack.elems, Stack.cleared]⟩ (abs_construct hN)

theorem clear_like_fresh_witness :
    ∃ (q2 : Queue Nat) (a : Nat) (s : Stack Nat),
      clear.run (after 2 [Call.push_back 1, Call.push_back 2, Call.push_back 3,
        Call.pop_front]) = (.ok (), q2) ∧
      q2.first = some a ∧ q2.last = some a ∧ q2.length = 0 ∧
      q2.heap = Function.update (fun _ => none) a (some s) ∧
      s.start = 0 ∧ s.length = 0 ∧ s.next = none ∧ s.previous = none ∧
      ∀ us : List (Use Nat), observe 2 q2 us = observe 2 segmentedQueue us :=
  clear_like_fresh 2 (by decide)
    [Call.push_back 1, Call.push_back 2, Call.push_back 3, Call.pop_front]

/-- C10. A cleared queue can be told from a freshly constructed one: an element stored
before the `clear()` is read back after it.  `reset()` sets `start` and `length` of the
remaining block to 0 and leaves its `data` as it was, and the reverse iterator's
`operator*` tests `position > current->length` where the forward iterator's tests `>=`,
so at `position == length` it returns a slot that holds no element.  With
`block_size = 2`: `clear()` after push 1, push 2 leaves one block with `start = 0`,
`length = 0` and `size()` 0, as a fresh queue has; then the same calls on both queues,
push 7, `rbegin()` (block 0, position 0 on both), `pop_front()`, and `*it` returns 2 on
the cleared queue, the element pushed before the `clear()`, and 0 on the fresh one.  The
forward iterator in the same state throws on both. -/
theorem clear_leaks_old_element :
    size (after 2 [Call.push_back 1, Call.push_back 2, Call.clear]) = 0 ∧
    ((after 2 [Call.push_back 1, Call.push_back 2, Call.clear]).heap 0).map
      (fun s => (s.start, s.length, s.next, s.previous)) = some (0, 0, none, none) ∧
    (segmentedQueue : Queue Nat).heap 0 = some Stack.fresh ∧
    rbegin (after 2 [Call.push_back 1, Call.push_back 2, Call.clear, Call.push_back 7]) =
      .ok { current := some 0, position := 0 } ∧
    rbegin (after 2 [Call.push_back 7]) = .ok { current := some 0, position := 0 } ∧
    segmentedQueueReverseIterator.dereference 2
      (after 2 [Call.push_back 1, Call.push_back 2, Call.clear, Call.push_back 7,
        Call.pop_front])
      { current := some 0, position := 0 } = .ok 2 ∧
    segmentedQueueReverseIterator.dereference 2 (after 2 [Call.push_back 7, Call.pop_front])
      { current := some 0, position := 0 } = .ok 0 ∧
    segmentedQueueIterator.dereference 2
      (after 2 [Call.push_back 1, Call.push_back 2, Call.clear, Call.push_back 7,
        Call.pop_front])
      { current := some 0, position := 0 } = .error Err.invalidIterator ∧
    segmentedQueueIterator.dereference 2 (after 2 [Call.push_back 7, Call.pop_front])
      { current := some 0, position := 0 } = .error Err.invalidIterator :=
  ⟨rfl, rfl, rfl, rfl, rfl, rfl, rfl, rfl, rfl⟩

/-! ## Copying from another object -/

/-- One round of the inner copy loop, from another object. -/
theorem copyBlock_step {α : Type} [Inhabited α] (N : Nat) (other : Queue α) {a : Nat}
    {t : Stack α} (ht : other.heap a = some t) (fuel index : Nat) (hi : index < t.length)
    (q : Queue α) :
    copyBlock N (fun _ => other) (some a) (fuel + 1) index q =
      (push_back N (t.data ((t.start + index) % N)) >>= fun _ =>
        copyBlock N (fun _ => other) (some a) fuel (index + 1)) q := by
  simp [copyBlock, derefOther, Queue.load, ht, hi]

/-- The inner copy loop stops at the end of the block. -/
theorem copyBlock_done {α : Type} [Inhabited α] (N : Nat) (other : Queue α) {a : Nat}
    {t : Stack α} (ht : other.heap a = some t) (fuel index : Nat) (hi : t.length ≤ index)
    (q : Queue α) :
    copyBlock N (fun _ => other) (some a) (fuel + 1) index q = (.ok (), q) := by
  simp [copyBlock, derefOther, Queue.load, ht, Nat.not_lt.mpr hi]

/-- The inner copy loop appends the elements of the source block, from `index` on. -/
theorem abs_copyBlock {α : Type} [Inhabited α] {N : Nat} (hN : 0 < N) (other : Queue α)
    {a : Nat} {t : Stack α} (ht : other.heap a = some t) (fuel : Nat) :
    ∀ (index : Nat) (q : Queue α) (l : List α), Abs N q l → t.length - index + 1 ≤ fuel →
      ∃ q2, copyBlock N (fun _ => other) (some a) fuel index q = (.ok (), q2) ∧
        Abs N q2 (l ++ (t.elems N).drop index) := by
  induction fuel with
  | zero => intro index q l _ hf; omega
  | succ fuel ih =>
    intro index q l h hf
    by_cases hi : index < t.length
    · obtain ⟨q1, h1, h2⟩ := h.push hN (t.data ((t.start + index) % N))
      obtain ⟨q2, h3, h4⟩ := ih (index + 1) q1 _ h2 (by omega)
      refine ⟨q2, ?_, ?_⟩
      · have h1' : push_back N (t.data ((t.start + index) % N)) q = (.ok (), q1) := h1
        rw [copyBlock_step N other ht fuel index hi, run_bind, h1']
        exact h3
      · have hdrop : (t.elems N).drop index =
            t.data ((t.start + index) % N) :: (t.elems N).drop (index + 1) := by
          rw [List.drop_eq_getElem_cons (by rw [Stack.length_elems]; exact hi)]
          congr 1
          have := Stack.elems_getElem? (N := N) t hi
          rw [List.getElem?_eq_getElem (by rw [Stack.length_elems]; exact hi)] at this
          exact Option.some.inj this
        rw [hdrop]
        simpa using h4
    · refine ⟨q, copyBlock_done N other ht fuel index (Nat.le_of_not_lt hi) q, ?_⟩
      rw [List.drop_of_length_le (by rw [Stack.length_elems]; omega)]
      simpa using h

/-- Along a chain of another object, the outer copy loop appends all its elements. -/
theorem abs_copyLoop {α : Type} [Inhabited α] {N : Nat} (hN : 0 < N) (other : Queue α)
    (segs : List (Nat × Stack α)) :
    ∀ (p prev lst : Ptr) (fuel : Nat) (q : Queue α) (l : List α),
      Chain other.heap p prev segs none lst → Abs N q l → segs.length + 1 ≤ fuel →
      ∃ q2, copyLoop N (fun _ => other) fuel p q = (.ok (), q2) ∧
        Abs N q2 (l ++ elems N segs) := by
  induction segs with
  | nil =>
    intro p prev lst fuel q l hc h hf
    simp only [chain_nil] at hc
    cases fuel with
    | zero => simp at hf
    | succ fuel =>
      refine ⟨q, ?_, by simpa [elems] using h⟩
      simp [copyLoop, hc.1]
  | cons x rest ih =>
    intro p prev lst fuel q l hc h hf
    obtain ⟨hp, hx, _, hch⟩ := hc
    cases fuel with
    | zero => simp at hf
    | succ fuel =>
      obtain ⟨q1, h1, h2⟩ := abs_copyBlock hN other hx (x.2.length + 1) 0 q l h (by omega)
      obtain ⟨q2, h3, h4⟩ := ih x.2.next (some x.1) lst fuel q1 _ hch h2 (by simpa using hf)
      refine ⟨q2, ?_, ?_⟩
      · simp [copyLoop, hp, derefOther, Queue.load, hx, h1, h3]
      · simpa [elems, List.append_assoc] using h4

/-- Copy assignment from another well-formed object succeeds and leaves a well-formed
queue with the elements of the source, whatever the destination held. -/
theorem abs_copyAssign {α : Type} [Inhabited α] {N : Nat} (hN : 0 < N) {other q : Queue α}
    {lo l : List α} (ho : Abs N other lo) (h : Abs N q l) :
    ∃ q2, (copyAssign N (fun _ => other)).run q = (.ok (), q2) ∧ Abs N q2 lo := by
  obtain ⟨segs, hr, he⟩ := ho
  obtain ⟨q1, h1, h2⟩ := h.clear
  obtain ⟨q2, h3, h4⟩ := abs_copyLoop hN other segs _ _ _ (other.fresh + 1) q1 [] hr.chain h2
    (Nat.succ_le_succ hr.length_le_fresh)
  refine ⟨q2, ?_, by simpa [he] using h4⟩
  have h1' : clear q = (.ok (), q1) := h1
  simp [copyAssign, QM.run, h1', otherLast, otherFresh, h3]

/-- Copy construction from a well-formed object succeeds and builds a well-formed queue
with the elements of the source. -/
theorem abs_copyConstruct {α : Type} [Inhabited α] {N : Nat} (hN : 0 < N) {other : Queue α}
    {lo : List α} (ho : Abs N other lo) :
    ∃ q2, (copyConstruct N (fun _ => other)).run blank = (.ok (), q2) ∧ Abs N q2 lo := by
  obtain ⟨segs, hr, he⟩ := ho
  obtain ⟨q2, h3, h4⟩ := abs_copyLoop hN other segs _ _ _ (other.fresh + 1) segmentedQueue []
    hr.chain (abs_construct hN) (Nat.succ_le_succ hr.length_le_fresh)
  refine ⟨q2, ?_, by simpa [he] using h4⟩
  have hc : (construct : QM α Unit) blank = (.ok (), segmentedQueue) := by
    simp [segmentedQueue, construct, QM.run, blank, alloc, setFirst, getFirst, setLast, reset,
      assign, Queue.store, setLength, Stack.fresh]
  rw [← h3]
  simp [copyConstruct, QM.run, otherLast, otherFresh, segmentedQueue, construct, blank, alloc,
    setFirst, getFirst, setLast, reset, assign, Queue.store, setLength, Stack.fresh]

/-- Copy assignment of a well-formed object to itself succeeds and leaves what `clear()`
leaves: after the `clear()` the source, which is the object itself, has no element left to
copy. -/
theorem abs_copyAssign_self {α : Type} [Inhabited α] {N : Nat} {q : Queue α} {l : List α}
    (h : Abs N q l) :
    ∃ q2, (copyAssign N id).run q = (.ok (), q2) ∧ clear.run q = (.ok (), q2) ∧
      Abs N q2 [] := by
  obtain ⟨segs, hr, _⟩ := h
  obtain ⟨q2, a, s, h1, h2, h3, h4, h5, h6⟩ := rep_clear hr
  have habs : Abs N q2 [] := ⟨_, h2, by simp [elems, Stack.elems, Stack.cleared]⟩
  refine ⟨q2, ?_, h1, habs⟩
  have h1' : clear q = (.ok (), q2) := h1
  have hs : q2.heap a = some s.cleared := by rw [h6]; simp
  have hf : q2.fresh = (q2.fresh - 1) + 1 := by
    have := h2.lt_fresh hs
    omega
  simp only [copyAssign, QM.run, run_bind, h1', otherLast, otherFresh, id, h4]
  rw [hf]
  simp [copyLoop, copyBlock, derefOther, Queue.load, hs, Stack.cleared]

/-- Every object is well formed, whatever its origin. -/
theorem abs_origin {α : Type} [Inhabited α] {N : Nat} (hN : 0 < N) (o : Origin α) :
    ∃ l, Abs N (o.queue N) l := by
  induction o with
  | constructed => exact ⟨[], abs_construct hN⟩
  | called o c ih =>
    obtain ⟨l, h⟩ := ih
    exact ⟨_, h.step hN c⟩
  | copied other ih =>
    obtain ⟨lo, ho⟩ := ih
    obtain ⟨q2, h1, h2⟩ := abs_copyConstruct hN ho
    exact ⟨lo, by simpa [Origin.queue, h1] using h2⟩
  | assigned o other ih1 ih2 =>
    obtain ⟨l, h⟩ := ih1
    obtain ⟨lo, ho⟩ := ih2
    obtain ⟨q2, h1, h2⟩ := abs_copyAssign hN ho h
    exact ⟨lo, by simpa [Origin.queue, h1] using h2⟩
  | selfAssigned o ih =>
    obtain ⟨l, h⟩ := ih
    obtain ⟨q2, h1, _, h2⟩ := abs_copyAssign_self h
    exact ⟨[], by simpa [Origin.queue, h1] using h2⟩

/-- C11. For every source object `A` and every other object `B`, each of any origin
(`block_size = N ≥ 1`): the copy constructor from `A`, and the copy assignment of `A` to
`B`, return and leave a queue whose `size()` is that of `A`, whose `operator[]` and whose
forward iteration give what they give on `A`, and that no sequence of uses tells from `A`.
The source is only read: it is a parameter of the copy, which has no way to change it. -/
theorem copy_same_elements {α : Type} [Inhabited α] (N : Nat) (hN : 0 < N)
    (a b : Origin α) :
    ∃ qc qb : Queue α,
      (copyConstruct N (fun _ => a.queue N)).run blank = (.ok (), qc) ∧
      (copyAssign N (fun _ => a.queue N)).run (b.queue N) = (.ok (), qb) ∧
      size qc = size (a.queue N) ∧ size qb = size (a.queue N) ∧
      forward N qc = forward N (a.queue N) ∧ forward N qb = forward N (a.queue N) ∧
      (∀ i, subscript N qc i = subscript N (a.queue N) i) ∧
      (∀ i, subscript N qb i = subscript N (a.queue N) i) ∧
      (∀ us, observe N qc us = observe N (a.queue N) us) ∧
      (∀ us, observe N qb us = observe N (a.queue N) us) := by
  obtain ⟨la, ha⟩ := abs_origin hN a
  obtain ⟨lb, hb⟩ := abs_origin hN b
  obtain ⟨qc, h1, h2⟩ := abs_copyConstruct hN ha
  obtain ⟨qb, h3, h4⟩ := abs_copyAssign hN ha hb
  refine ⟨qc, qb, h1, h3, ?_, ?_, ?_, ?_, ?_, ?_, ?_, ?_⟩
  · rw [h2.size_eq, ha.size_eq]
  · rw [h4.size_eq, ha.size_eq]
  · rw [h2.forward, ha.forward]
  · rw [h4.forward, ha.forward]
  · intro i; rw [h2.subscript, ha.subscript]
  · intro i; rw [h4.subscript, ha.subscript]
  · intro us; exact observe_abs hN us _ _ _ h2 ha
  · intro us; exact observe_abs hN us _ _ _ h4 ha

theorem copy_same_elements_witness :
    ∃ qc qb : Queue Nat,
      (copyConstruct 2 (fun _ => (Origin.called (Origin.called (Origin.called
        Origin.constructed (Call.push_back 1)) (Call.push_back 2))
        (Call.push_back 3)).queue 2)).run blank = (.ok (), qc) ∧
      (copyAssign 2 (fun _ => (Origin.called (Origin.called (Origin.called
        Origin.constructed (Call.push_back 1)) (Call.push_back 2))
        (Call.push_back 3)).queue 2)).run
        ((Origin.called Origin.constructed (Call.push_back 9)).queue 2) = (.ok (), qb) ∧
      size qc = 3 ∧ size qb = 3 ∧
      forward 2 qc = .ok [1, 2, 3] ∧ forward 2 qb = .ok [1, 2, 3] :=
  match copy_same_elements 2 (by decide)
    (Origin.called (Origin.called (Origin.called Origin.constructed (Call.push_back 1))
      (Call.push_back 2)) (Call.push_back 3))
    (Origin.called Origin.constructed (Call.push_back 9)) with
  | ⟨qc, qb, h1, h2, h3, h4, h5, h6, _⟩ => ⟨qc, qb, h1, h2, h3, h4, h5, h6⟩

/-- C12. For every memory and every forward iterator whose `current` is null or points to
a block that is allocated: `operator*` and `operator->` throw when `current` is null
(the iterator is at End) and when `position` is not below the block's `length`;
otherwise `operator*` returns the element in slot `(start + position) % N` of the block
and `operator->` the address of that slot.  So they throw exactly in the two cases. -/
theorem forward_dereference_cases {α : Type} (N : Nat) (q : Queue α)
    (it : segmentedQueueIterator) :
    (it.current = none →
      it.dereference N q = (.error Err.invalidIterator : Except Err α) ∧
      it.arrow N q = .error Err.invalidIterator) ∧
    (∀ (a : Nat) (s : Stack α), it.current = some a → q.heap a = some s →
      (s.length ≤ it.position →
        it.dereference N q = .error Err.invalidIterator ∧
        it.arrow N q = .error Err.invalidIterator) ∧
      (it.position < s.length →
        it.dereference N q = .ok (s.data ((s.start + it.position) % N)) ∧
        it.arrow N q = .ok (a, (s.start + it.position) % N))) := by
  constructor
  · intro h
    simp [segmentedQueueIterator.dereference, segmentedQueueIterator.arrow, h, Queue.load,
      throw, throwThe, MonadExceptOf.throw]
  · intro a s h hs
    constructor
    · intro hp
      simp [segmentedQueueIterator.dereference, segmentedQueueIterator.arrow, h, Queue.load,
        hs, hp, throw, throwThe, MonadExceptOf.throw]
    · intro hp
      simp [segmentedQueueIterator.dereference, segmentedQueueIterator.arrow, h, Queue.load,
        hs, Nat.not_le.mpr hp, pure, Except.pure]

/-- C13 (the code departs from it). The reverse iterator's `operator*` and `operator->`
test `position > current->length` where the forward iterator's test `>=`, so at
`position == length` they return a slot that holds no element instead of throwing.  With
`block_size = 2`: push 5, take `rbegin()` (block 0, position 0), `pop_front()`; the block
now has `length` 0 and `start` 1, the forward iterator in the same state throws, and the
reverse iterator returns the never written slot 1.  With `block_size = 1` it returns the
element that was popped. -/
theorem reverse_dereference_past_count :
    rbegin (after 2 [Call.push_back 5]) = .ok { current := some 0, position := 0 } ∧
    size (after 2 [Call.push_back 5, Call.pop_front]) = 0 ∧
    ((after 2 [Call.push_back 5, Call.pop_front]).heap 0).map Stack.length = some 0 ∧
    segmentedQueueIterator.dereference 2 (after 2 [Call.push_back 5, Call.pop_front])
      { current := some 0, position := 0 } = .error Err.invalidIterator ∧
    segmentedQueueReverseIterator.dereference 2 (after 2 [Call.push_back 5, Call.pop_front])
      { current := some 0, position := 0 } = .ok 0 ∧
    segmentedQueueReverseIterator.arrow 2 (after 2 [Call.push_back 5, Call.pop_front])
      { current := some 0, position := 0 } = .ok (0, 1) ∧
    rbegin (after 1 [Call.push_back 5]) = .ok { current := some 0, position := 0 } ∧
    segmentedQueueReverseIterator.dereference 1 (after 1 [Call.push_back 5, Call.pop_front])
      { current := some 0, position := 0 } = .ok 5 :=
  ⟨rfl, rfl, rfl, rfl, rfl, rfl, rfl, rfl⟩

/-- C14. For both iterator types and every two iterators: `operator==` returns true
exactly when both are at End (`current` null), or both have the same non-null `current`
and the same `position`; and `operator!=` returns the negation of `operator==`. -/
theorem iterator_equality (it other : segmentedQueueIterator)
    (rit rother : segmentedQueueReverseIterator) :
    (it.equal other = true ↔
      (it.current = none ∧ other.current = none) ∨
      (it.current ≠ none ∧ it.current = other.current ∧ it.position = other.position)) ∧
    it.notEqual other = !it.equal other ∧
    (rit.equal rother = true ↔
      (rit.current = none ∧ rother.current = none) ∨
      (rit.current ≠ none ∧ rit.current = rother.current ∧
        rit.position = rother.position)) ∧
    rit.notEqual rother = !rit.equal rother := by
  refine ⟨?_, ?_, ?_, ?_⟩
  · unfold segmentedQueueIterator.equal
    by_cases h1 : it.current = none ∧ other.current = none
    · simp [h1]
    · by_cases h2 : it.current = other.current
      · have h3 : it.current ≠ none := fun h => h1 ⟨h, h2 ▸ h⟩
        simp [h1, h3, h2.symm]
      · simp [h1, h2]
  · unfold segmentedQueueIterator.equal segmentedQueueIterator.notEqual
    by_cases h1 : it.current = none ∧ other.current = none
    · simp [h1]
    · by_cases h2 : it.current = other.current
      · simp [h1, h2, bne]
      · simp [h1, h2]
  · unfold segmentedQueueReverseIterator.equal
    by_cases h1 : rit.current = none ∧ rother.current = none
    · simp [h1]
    · by_cases h2 : rit.current = rother.current
      · have h3 : rit.current ≠ none := fun h => h1 ⟨h, h2 ▸ h⟩
        simp [h1, h3, h2.symm]
      · simp [h1, h2]
  · unfold segmentedQueueReverseIterator.equal segmentedQueueReverseIterator.notEqual
    by_cases h1 : rit.current = none ∧ rother.current = none
    · simp [h1]
    · by_cases h2 : rit.current = rother.current
      · simp [h1, h2, bne]
      · simp [h1, h2]

/-- C16. For both iterator types and every iterator: post-increment, pre-decrement and
post-decrement throw and return no iterator. -/
theorem unsupported_operators_throw (it : segmentedQueueIterator)
    (rit : segmentedQueueReverseIterator) :
    it.postIncrement = .error Err.notImplemented ∧
    it.preDecrement = .error Err.notImplemented ∧
    it.postDecrement = .error Err.notImplemented ∧
    rit.postIncrement = .error Err.notImplemented ∧
    rit.preDecrement = .error Err.notImplemented ∧
    rit.postDecrement = .error Err.notImplemented :=
  ⟨rfl, rfl, rfl, rfl, rfl, rfl⟩

/-- In a chain every `previous` is the pointer the chain was entered with or points to a
block of the chain. -/
theorem chain_previous {α : Type} {h : Nat → Option (Stack α)}
    (segs : List (Nat × Stack α)) :
    ∀ (p prev nxt lst : Ptr), Chain h p prev segs nxt lst →
      ∀ x ∈ segs, x.2.previous = prev ∨ ∃ y ∈ segs, x.2.previous = some y.1 := by
  induction segs with
  | nil => intro p prev nxt lst _ x hx; simp at hx
  | cons z rest ih =>
    intro p prev nxt lst hc x hx
    obtain ⟨_, _, h3, h4⟩ := hc
    rcases List.mem_cons.mp hx with rfl | hx
    · exact Or.inl h3
    · rcases ih _ _ _ _ h4 x hx with h5 | ⟨y, hy, h5⟩
      · exact Or.inr ⟨z, by simp, h5⟩
      · exact Or.inr ⟨y, List.mem_cons.mpr (Or.inr hy), h5⟩

/-- In a represented queue an allocated block is a block of the chain. -/
theorem Rep.mem_of_heap {α : Type} {N : Nat} {q : Queue α} {segs : List (Nat × Stack α)}
    (h : Rep N q segs) {a : Nat} {s : Stack α} (hs : q.heap a = some s) : (a, s) ∈ segs := by
  have ha : a ∈ segs.map Prod.fst := by
    by_contra hn
    rw [h.owned a hn] at hs
    exact Option.noConfusion hs
  obtain ⟨x, hx, rfl⟩ := List.mem_map.mp ha
  have := chain_mem _ _ _ _ _ h.chain x hx
  rw [hs] at this
  have h2 : s = x.2 := Option.some.inj this
  rw [h2]
  exact hx

/-- In a represented queue the `previous` of an allocated block is null or points to an
allocated block that is not empty. -/
theorem Rep.previous_cases {α : Type} {N : Nat} {q : Queue α}
    {segs : List (Nat × Stack α)} (h : Rep N q segs) {a : Nat} {s : Stack α}
    (hs : q.heap a = some s) :
    s.previous = none ∨
      ∃ (b : Nat) (t : Stack α), s.previous = some b ∧ q.heap b = some t ∧ 1 ≤ t.length := by
  have hx := h.mem_of_heap hs
  rcases chain_previous segs _ _ _ _ h.chain (a, s) hx with h1 | ⟨y, hy, h1⟩
  · exact Or.inl h1
  · refine Or.inr ⟨y.1, y.2, h1, chain_mem _ _ _ _ _ h.chain y hy, ?_⟩
    by_contra hlt
    have h0 : y.2.length = 0 := by omega
    have hlen := h.no_empty y hy h0
    match segs, hlen, h, hx, hy with
    | [z], _, h, hx, hy =>
      rw [List.mem_singleton] at hx hy
      have hc := h.chain
      simp only [chain_cons] at hc
      rw [← hx] at hc
      rw [hc.2.2.1] at h1
      exact Option.noConfusion h1

/-- C15. For every queue object, of any origin (`block_size = N ≥ 1`), and every forward
or reverse iterator whose `current` is null or points to an allocated block of the object,
at whatever position: pre-increment throws when `current` is null (the iterator is at End)
and returns an iterator otherwise, so it throws exactly at End.  The forward advance from
the last position of the newest block returns the end sentinel, and the reverse advance
from position 0 of the oldest block returns the reverse end sentinel. -/
theorem increment_fails_iff_end {α : Type} [Inhabited α] (N : Nat) (hN : 0 < N)
    (o : Origin α) (it : segmentedQueueIterator) (rit : segmentedQueueReverseIterator) :
    (it.current = none → it.increment (o.queue N) = .error Err.iteratorEnd) ∧
    (∀ (a : Nat) (s : Stack α), it.current = some a → (o.queue N).heap a = some s →
      ∃ next, it.increment (o.queue N) = .ok next) ∧
    (rit.current = none → rit.increment (o.queue N) = .error Err.reverseIteratorEnd) ∧
    (∀ (a : Nat) (s : Stack α), rit.current = some a → (o.queue N).heap a = some s →
      ∃ next, rit.increment (o.queue N) = .ok next) ∧
    (∃ (a : Nat) (s : Stack α), (o.queue N).first = some a ∧ (o.queue N).heap a = some s ∧
      segmentedQueueIterator.increment (o.queue N)
        { current := some a, position := s.length - 1 } = .ok endIterator) ∧
    (∃ a : Nat, (o.queue N).last = some a ∧
      segmentedQueueReverseIterator.increment (o.queue N)
        { current := some a, position := 0 } = .ok rend) := by
  obtain ⟨l, segs, hr, _⟩ := abs_origin hN o
  refine ⟨?_, ?_, ?_, ?_, ?_, ?_⟩
  · intro h
    simp [segmentedQueueIterator.increment, h, bind, Except.bind, throw, throwThe,
      MonadExceptOf.throw]
  · intro a s h hs
    by_cases hp : it.position + 1 ≥ s.length
    · exact ⟨{ current := s.next, position := 0 }, by
        simp [segmentedQueueIterator.increment, h, bind, Except.bind, Queue.read,
          Queue.load, hs, ge_iff_le.mp hp, pure, Except.pure]⟩
    · have hp2 : ¬ s.length ≤ it.position + 1 := hp
      exact ⟨{ current := some a, position := it.position + 1 }, by
        simp [segmentedQueueIterator.increment, h, bind, Except.bind, Queue.read,
          Queue.load, hs, hp2, pure, Except.pure]⟩
  · intro h
    simp [segmentedQueueReverseIterator.increment, h, bind, Except.bind, throw, throwThe,
      MonadExceptOf.throw]
  · intro a s h hs
    by_cases hp : rit.position = 0
    · rcases hr.previous_cases hs with h1 | ⟨b, t, h1, h2, h3⟩
      · exact ⟨{ current := none, position := 0 }, by
          simp [segmentedQueueReverseIterator.increment, h, bind, Except.bind, Queue.read,
            Queue.load, hs, hp, h1, pure, Except.pure]⟩
      · have h4 : ¬ t.length = 0 := by omega
        exact ⟨{ current := some b, position := t.length - 1 }, by
          simp [segmentedQueueReverseIterator.increment, h, bind, Except.bind, Queue.read,
            Queue.load, hs, hp, h1, h2, h4, pure, Except.pure]⟩
    · exact ⟨{ current := some a, position := rit.position - 1 }, by
        simp [segmentedQueueReverseIterator.increment, h, bind, Except.bind, hp, pure,
          Except.pure]⟩
  · obtain ⟨init, a, s, _, hf, hs, hnx, _⟩ := hr.newest
    refine ⟨a, s, hf, hs, ?_⟩
    have hp : s.length ≤ s.length - 1 + 1 := by omega
    simp [segmentedQueueIterator.increment, bind, Except.bind, Queue.read, Queue.load, hs,
      hp, hnx, pure, Except.pure, endIterator]
  · obtain ⟨a, s, rest, _, hl, hs, hpv, _⟩ := hr.oldest
    refine ⟨a, hl, ?_⟩
    simp [segmentedQueueReverseIterator.increment, bind, Except.bind, Queue.read, Queue.load,
      hs, hpv, pure, Except.pure, rend]

theorem increment_fails_iff_end_witness :
    (segmentedQueueIterator.increment
      ((Origin.called (Origin.called (Origin.called Origin.constructed (Call.push_back 1))
        (Call.push_back 2)) (Call.push_back 3)).queue 2)
      { current := none, position := 0 } = .error Err.iteratorEnd) ∧
    (∃ next, segmentedQueueReverseIterator.increment
      ((Origin.called (Origin.called (Origin.called Origin.constructed (Call.push_back 1))
        (Call.push_back 2)) (Call.push_back 3)).queue 2)
      { current := some 1, position := 0 } = .ok next) :=
  ⟨(increment_fails_iff_end 2 (by decide)
      (Origin.called (Origin.called (Origin.called Origin.constructed (Call.push_back 1))
        (Call.push_back 2)) (Call.push_back 3))
      { current := none, position := 0 } { current := none, position := 0 }).1 rfl,
    (increment_fails_iff_end 2 (by decide)
      (Origin.called (Origin.called (Origin.called Origin.constructed (Call.push_back 1))
        (Call.push_back 2)) (Call.push_back 3))
      { current := none, position := 0 } { current := some 1, position := 0 }).2.2.2.1
      1 (Stack.single 2 0 3) rfl rfl⟩

/-- C19. Cached length invariant.  For every queue object reachable from construction by
`push_back`, `pop_front`, `clear`, copy construction and copy assignment
(`block_size = N ≥ 1`), with `segs` the chain of blocks met from `last` (the oldest) along
`next` to `first` (the newest): the cached `length` is the sum of the blocks' `length`,
and every block has `start < N` and `length ≤ N`. -/
theorem cached_length_invariant {α : Type} [Inhabited α] (N : Nat) (hN : 0 < N)
    (o : Origin α) :
    ∃ segs : List (Nat × Stack α),
      Chain (o.queue N).heap (o.queue N).last none segs none (o.queue N).first ∧
      size (o.queue N) = (segs.map fun x => x.2.length).sum ∧
      ∀ x ∈ segs, x.2.start < N ∧ x.2.length ≤ N := by
  obtain ⟨l, segs, hr, _⟩ := abs_origin hN o
  exact ⟨segs, hr.chain, hr.total, fun x hx => ⟨hr.start_lt x hx, hr.length_le x hx⟩⟩

theorem cached_length_invariant_witness :
    ∃ segs : List (Nat × Stack Nat),
      Chain ((Origin.assigned (Origin.called Origin.constructed (Call.push_back 9))
          (Origin.called (Origin.called (Origin.called Origin.constructed
            (Call.push_back 1)) (Call.push_back 2)) (Call.push_back 3))).queue 2).heap
        ((Origin.assigned (Origin.called Origin.constructed (Call.push_back 9))
          (Origin.called (Origin.called (Origin.called Origin.constructed
            (Call.push_back 1)) (Call.push_back 2)) (Call.push_back 3))).queue 2).last
        none segs none
        ((Origin.assigned (Origin.called Origin.constructed (Call.push_back 9))
          (Origin.called (Origin.called (Origin.called Origin.constructed
            (Call.push_back 1)) (Call.push_back 2)) (Call.push_back 3))).queue 2).first ∧
      size ((Origin.assigned (Origin.called Origin.constructed (Call.push_back 9))
          (Origin.called (Origin.called (Origin.called Origin.constructed
            (Call.push_back 1)) (Call.push_back 2)) (Call.push_back 3))).queue 2) =
        (segs.map fun x => x.2.length).sum ∧
      ∀ x ∈ segs, x.2.start < 2 ∧ x.2.length ≤ 2 :=
  cached_length_invariant 2 (by decide)
    (Origin.assigned (Origin.called Origin.constructed (Call.push_back 9))
      (Origin.called (Origin.called (Origin.called Origin.constructed
        (Call.push_back 1)) (Call.push_back 2)) (Call.push_back 3)))

/-- C20. Chain shape invariant.  For every queue object, of any origin
(`block_size = N ≥ 1`), with `segs` the chain of blocks from `last` to `first`: every
block strictly between the oldest and the newest has `length = N`; a block with
`length = 0` exists only when the chain is that single block and the queue is empty; so in
a chain of two or more blocks every block has `length ≥ 1`. -/
theorem chain_shape_invariant {α : Type} [Inhabited α] (N : Nat) (hN : 0 < N)
    (o : Origin α) :
    ∃ segs : List (Nat × Stack α),
      Chain (o.queue N).heap (o.queue N).last none segs none (o.queue N).first ∧
      (∀ x ∈ segs.dropLast.tail, x.2.length = N) ∧
      (∀ x ∈ segs, x.2.length = 0 → segs.length = 1 ∧ size (o.queue N) = 0) ∧
      (2 ≤ segs.length → ∀ x ∈ segs, 1 ≤ x.2.length) := by
  obtain ⟨l, segs, hr, _⟩ := abs_origin hN o
  refine ⟨segs, hr.chain, hr.middle, ?_, ?_⟩
  · intro x hx h0
    have h1 := hr.no_empty x hx h0
    refine ⟨h1, ?_⟩
    have ht := hr.total
    match segs, h1, hx, ht with
    | [y], _, hx, ht =>
      rw [List.mem_singleton] at hx
      subst hx
      simpa [h0] using ht
  · intro h2 x hx
    by_contra hlt
    have h1 := hr.no_empty x hx (by omega)
    omega

theorem chain_shape_invariant_witness :
    ∃ segs : List (Nat × Stack Nat),
      Chain (after 2 [Call.push_back 1, Call.push_back 2, Call.push_back 3,
          Call.push_back 4, Call.push_back 5, Call.pop_front]).heap
        (after 2 [Call.push_back 1, Call.push_back 2, Call.push_back 3,
          Call.push_back 4, Call.push_back 5, Call.pop_front]).last
        none segs none
        (after 2 [Call.push_back 1, Call.push_back 2, Call.push_back 3,
          Call.push_back 4, Call.push_back 5, Call.pop_front]).first ∧
      (∀ x ∈ segs.dropLast.tail, x.2.length = 2) ∧
      (2 ≤ segs.length → ∀ x ∈ segs, 1 ≤ x.2.length) :=
  match chain_shape_invariant 2 (by decide)
    (Origin.called (Origin.called (Origin.called (Origin.called (Origin.called
      (Origin.called Origin.constructed (Call.push_back 1)) (Call.push_back 2))
      (Call.push_back 3)) (Call.push_back 4)) (Call.push_back 5)) Call.pop_front) with
  | ⟨segs, h1, h2, _, h4⟩ => ⟨segs, h1, h2, h4⟩

/-! ## The number of blocks -/

/-- Counting along a chain that ends in null counts its blocks, when the budget allows. -/
theorem chain_countBlocks {α : Type} {q : Queue α} (segs : List (Nat × Stack α)) :
    ∀ (fuel : Nat) (p prev lst : Ptr), Chain q.heap p prev segs none lst →
      segs.length ≤ fuel → countBlocks q fuel p = segs.length := by
  induction segs with
  | nil =>
    intro fuel p prev lst hc _
    obtain ⟨rfl, _⟩ := hc
    cases fuel <;> rfl
  | cons x rest ih =>
    intro fuel p prev lst hc hfuel
    obtain ⟨rfl, hx, _, hrest⟩ := hc
    obtain ⟨f, rfl⟩ : ∃ f, fuel = f + 1 := ⟨fuel - 1, by simp at hfuel; omega⟩
    have hf : rest.length ≤ f := by simpa using hfuel
    simp only [countBlocks, Queue.load, hx, ih f _ _ _ hrest hf, List.length_cons]

/-- The number of segments of a represented queue is the length of its chain. -/
theorem Rep.segments_eq {α : Type} {N : Nat} {q : Queue α} {segs : List (Nat × Stack α)}
    (h : Rep N q segs) : segments q = segs.length :=
  chain_countBlocks segs _ _ _ _ h.chain h.length_le_fresh

/-- C21. Block-at-a-time growth and shrink.  For every queue object, of any origin
(`block_size = N ≥ 1`), with `segments` the number of blocks of the chain: `push_back`
returns, and leaves one block more when the newest block held `N` elements before the
call, and as many blocks as before otherwise; `pop_front` on a queue that is not empty
returns, and leaves one block fewer when the oldest block held one element (its count
becomes 0) and has a successor, and otherwise as many blocks as before, with the oldest
block still the oldest, its `start` advanced by one modulo `N` and its `length`
decremented. -/
theorem block_at_a_time {α : Type} [Inhabited α] (N : Nat) (hN : 0 < N) (o : Origin α)
    (x : α) :
    (∃ a s q2, (o.queue N).first = some a ∧ (o.queue N).heap a = some s ∧
      (push_back N x).run (o.queue N) = (.ok (), q2) ∧
      segments q2 =
        if s.length = N then segments (o.queue N) + 1 else segments (o.queue N)) ∧
    (0 < size (o.queue N) →
      ∃ b t q3, (o.queue N).last = some b ∧ (o.queue N).heap b = some t ∧
        (pop_front N).run (o.queue N) = (.ok (), q3) ∧
        if t.length = 1 ∧ t.next ≠ none then segments q3 + 1 = segments (o.queue N)
        else segments q3 = segments (o.queue N) ∧ q3.last = some b ∧
          q3.heap b = some { t with start := (t.start + 1) % N, length := t.length - 1 }) := by
  obtain ⟨l, segs, hr, _⟩ := abs_origin hN o
  generalize o.queue N = q at hr ⊢
  constructor
  · obtain ⟨init, a, s, rfl, hf, hs, _, _⟩ := hr.newest
    have hle := hr.length_le (a, s) (by simp)
    simp only at hle
    by_cases hl : s.length < N
    · refine ⟨a, s, _, hf, hs, push_back_room x hf hs hl, ?_⟩
      rw [(rep_push_room x hr hl).segments_eq, hr.segments_eq, if_neg (by omega)]
      simp
    · have hl2 : N ≤ s.length := Nat.le_of_not_lt hl
      refine ⟨a, s, _, hf, hs, push_back_full x hf hs hl2 (Nat.ne_of_lt (hr.lt_fresh hs)), ?_⟩
      rw [(rep_push_full hN x hr hl2).segments_eq, hr.segments_eq, if_pos (by omega)]
      simp
  · intro hq
    have hq : 0 < q.length := hq
    obtain ⟨a, s, rest, rfl, hl, hs, _, hch⟩ := hr.oldest
    have hpos := hr.pos hq (a, s) (by simp)
    simp only at hpos
    by_cases hc : s.length ≤ 1 ∧ s.next ≠ none
    · obtain ⟨b, hb⟩ := Option.ne_none_iff_exists'.mp hc.2
      rw [hb] at hch
      cases rest with
      | nil => exact Option.noConfusion hch.1
      | cons z rest =>
        obtain ⟨b2, t⟩ := z
        obtain ⟨hb2, ht, _, _⟩ := hch
        simp only [Option.some.injEq] at hb2 ht
        subst hb2
        have hab : a ≠ b := by
          have := hr.nodup
          simp only [List.map_cons, List.nodup_cons, List.mem_cons, not_or] at this
          exact this.1.1
        refine ⟨a, s, _, hl, hs, pop_front_drop hq hl hs hc.1 hb ht hab, ?_⟩
        have h1 : s.length = 1 := by omega
        rw [if_pos ⟨h1, hc.2⟩, hr.segments_eq]
        have hd := (rep_drop hr).segments_eq
        have e : q.length - s.length = q.length - 1 := by rw [h1]
        rw [e] at hd
        rw [hd]
        simp
    · refine ⟨a, s, _, hl, hs, pop_front_keep hq hl hs hc, ?_⟩
      have hc2 : ¬ (s.length = 1 ∧ s.next ≠ none) := fun h => hc ⟨by omega, h.2⟩
      rw [if_neg hc2, (rep_pop_keep hr hq hc).segments_eq, hr.segments_eq]
      refine ⟨by simp, hl, ?_⟩
      simp

theorem block_at_a_time_witness :
    (∃ a s q2,
      ((Origin.called (Origin.called Origin.constructed (Call.push_back 1))
        (Call.push_back 2)).queue 2).first = some a ∧
      ((Origin.called (Origin.called Origin.constructed (Call.push_back 1))
        (Call.push_back 2)).queue 2).heap a = some s ∧
      (push_back 2 3).run ((Origin.called (Origin.called Origin.constructed
        (Call.push_back 1)) (Call.push_back 2)).queue 2) = (.ok (), q2) ∧
      segments q2 =
        if s.length = 2 then
          segments ((Origin.called (Origin.called Origin.constructed (Call.push_back 1))
            (Call.push_back 2)).queue 2) + 1
        else
          segments ((Origin.called (Origin.called Origin.constructed (Call.push_back 1))
            (Call.push_back 2)).queue 2)) ∧
    (0 < size ((Origin.called (Origin.called Origin.constructed (Call.push_back 1))
        (Call.push_back 2)).queue 2) →
      ∃ b t q3,
        ((Origin.called (Origin.called Origin.constructed (Call.push_back 1))
          (Call.push_back 2)).queue 2).last = some b ∧
        ((Origin.called (Origin.called Origin.constructed (Call.push_back 1))
          (Call.push_back 2)).queue 2).heap b = some t ∧
        (pop_front 2).run ((Origin.called (Origin.called Origin.constructed
          (Call.push_back 1)) (Call.push_back 2)).queue 2) = (.ok (), q3) ∧
        if t.length = 1 ∧ t.next ≠ none then
          segments q3 + 1 =
            segments ((Origin.called (Origin.called Origin.constructed (Call.push_back 1))
              (Call.push_back 2)).queue 2)
        else
          segments q3 =
            segments ((Origin.called (Origin.called Origin.constructed (Call.push_back 1))
              (Call.push_back 2)).queue 2) ∧
          q3.last = some b ∧
          q3.heap b = some { t with start := (t.start + 1) % 2, length := t.length - 1 }) :=
  block_at_a_time 2 (by decide)
    (Origin.called (Origin.called Origin.constructed (Call.push_back 1)) (Call.push_back 2)) 3

/-! ## Counting the increments of a reverse walk -/

theorem reverse_notEqual_rend (it : segmentedQueueReverseIterator) :
    it.notEqual rend = !it.equal rend := by
  unfold segmentedQueueReverseIterator.notEqual segmentedQueueReverseIterator.equal rend
  by_cases h : it.current = none <;> simp [h]

theorem reverse_equal_rend (it : segmentedQueueReverseIterator) :
    it.equal rend = true ↔ it.current = none := by
  unfold segmentedQueueReverseIterator.equal rend
  by_cases h : it.current = none <;> simp [h]

theorem incrementTimes_add {α : Type} (q : Queue α) (a b : Nat) :
    ∀ it, incrementTimes q (a + b) it = incrementTimes q a it >>= incrementTimes q b := by
  induction a with
  | zero => intro it; simp [incrementTimes]
  | succ a ih =>
    intro it
    rw [Nat.succ_add]
    simp only [incrementTimes]
    cases it.increment q with
    | error e => rfl
    | ok next => simpa using ih next

/-- One more increment of an iterator at the end throws the end-of-iterator exception. -/
theorem incrementTimes_past_end {α : Type} (q : Queue α) (it : segmentedQueueReverseIterator)
    (h : it.current = none) (j : Nat) :
    incrementTimes q (j + 1) it = .error Err.reverseIteratorEnd := by
  simp [incrementTimes, segmentedQueueReverseIterator.increment, h]
  rfl

/-- A reverse loop that ends has made as many increments as it collected elements: it
reached `rend()` after exactly that many, and not before. -/
theorem reverseLoop_increments {α : Type} (N : Nat) (q : Queue α) :
    ∀ (fuel : Nat) (it : segmentedQueueReverseIterator) (acc out : List α),
      reverseLoop N q fuel it acc = .ok out →
      ∃ k last, out.length = acc.length + k ∧ incrementTimes q k it = .ok last ∧
        last.equal rend = true ∧
        ∀ j, j < k → ∃ itj, incrementTimes q j it = .ok itj ∧ itj.equal rend = false := by
  intro fuel
  induction fuel with
  | zero =>
    intro it acc out h
    exact Except.noConfusion h
  | succ fuel ih =>
    intro it acc out h
    rw [reverseLoop] at h
    by_cases hne : it.notEqual rend = true
    · rw [if_pos hne] at h
      cases hd : it.dereference N q with
      | error e =>
        rw [hd] at h
        exact Except.noConfusion h
      | ok x =>
        cases hi : it.increment q with
        | error e =>
          rw [hd, hi] at h
          exact Except.noConfusion h
        | ok next =>
          rw [hd, hi] at h
          obtain ⟨k, last, h1, h2, h3, h4⟩ := ih next _ out h
          refine ⟨k + 1, last, ?_, ?_, h3, ?_⟩
          · rw [h1, List.length_append]
            simp
            omega
          · simp only [incrementTimes, hi]
            exact h2
          · intro j hj
            cases j with
            | zero =>
              refine ⟨it, rfl, ?_⟩
              rw [reverse_notEqual_rend] at hne
              simpa using hne
            | succ j =>
              obtain ⟨itj, h5, h6⟩ := h4 j (by omega)
              refine ⟨itj, ?_, h6⟩
              simp only [incrementTimes, hi]
              exact h5
    · rw [if_neg hne] at h
      have hout : acc = out := by
        injection h
      subst hout
      refine ⟨0, it, rfl, rfl, ?_, fun j hj => absurd hj (Nat.not_lt_zero j)⟩
      rw [reverse_notEqual_rend] at hne
      simpa using hne

/-- C22. For every queue object, of any origin (`block_size = N ≥ 1`), with no change of
the queue in between: `rbegin()` returns an iterator; no number of pre-increments of it in
a row ends in the exception of the branch for an empty previous block; after each number
of increments below `size()` the iterator is not yet equal to `rend()`; and after exactly
`size()` increments it is equal to `rend()`. -/
theorem reverse_walk_reaches_rend {α : Type} [Inhabited α] (N : Nat) (hN : 0 < N)
    (o : Origin α) :
    ∃ it0, rbegin (o.queue N) = .ok it0 ∧
      (∀ k, incrementTimes (o.queue N) k it0 ≠ .error Err.emptyStack) ∧
      (∀ k, k < size (o.queue N) →
        ∃ it, incrementTimes (o.queue N) k it0 = .ok it ∧ it.equal rend = false) ∧
      ∃ it, incrementTimes (o.queue N) (size (o.queue N)) it0 = .ok it ∧
        it.equal rend = true := by
  obtain ⟨l, habs⟩ := abs_origin hN o
  generalize o.queue N = q at habs ⊢
  have hrev := habs.reverse
  have hsize := habs.size_eq
  unfold reverse at hrev
  cases hrb : rbegin q with
  | error e =>
    rw [hrb] at hrev
    exact Except.noConfusion hrev
  | ok it0 =>
    rw [hrb] at hrev
    obtain ⟨k, last, h1, h2, h3, h4⟩ := reverseLoop_increments N q _ it0 [] _ hrev
    have hk : k = size q := by
      rw [hsize]
      simpa using h1.symm
    subst hk
    refine ⟨it0, rfl, ?_, h4, last, h2, h3⟩
    intro k hk
    rcases Nat.lt_trichotomy k (size q) with hlt | heq | hgt
    · obtain ⟨it, h5, _⟩ := h4 k hlt
      rw [h5] at hk
      exact Except.noConfusion hk
    · rw [heq, h2] at hk
      exact Except.noConfusion hk
    · obtain ⟨j, rfl⟩ : ∃ j, k = size q + (j + 1) := ⟨k - size q - 1, by omega⟩
      rw [incrementTimes_add, h2] at hk
      have := incrementTimes_past_end q last ((reverse_equal_rend last).mp h3) j
      have hk2 : incrementTimes q (j + 1) last = .error Err.emptyStack := hk
      rw [this] at hk2
      exact Err.noConfusion (Except.error.inj hk2)

theorem reverse_walk_reaches_rend_witness :
    ∃ it0, rbegin ((Origin.called (Origin.called (Origin.called Origin.constructed
        (Call.push_back 1)) (Call.push_back 2)) (Call.push_back 3)).queue 2) = .ok it0 ∧
      (∀ k, incrementTimes ((Origin.called (Origin.called (Origin.called
        Origin.constructed (Call.push_back 1)) (Call.push_back 2))
        (Call.push_back 3)).queue 2) k it0 ≠ .error Err.emptyStack) ∧
      (∀ k, k < size ((Origin.called (Origin.called (Origin.called Origin.constructed
          (Call.push_back 1)) (Call.push_back 2)) (Call.push_back 3)).queue 2) →
        ∃ it, incrementTimes ((Origin.called (Origin.called (Origin.called
          Origin.constructed (Call.push_back 1)) (Call.push_back 2))
          (Call.push_back 3)).queue 2) k it0 = .ok it ∧ it.equal rend = false) ∧
      ∃ it, incrementTimes ((Origin.called (Origin.called (Origin.called
          Origin.constructed (Call.push_back 1)) (Call.push_back 2))
          (Call.push_back 3)).queue 2)
          (size ((Origin.called (Origin.called (Origin.called Origin.constructed
            (Call.push_back 1)) (Call.push_back 2)) (Call.push_back 3)).queue 2)) it0 =
            .ok it ∧
        it.equal rend = true :=
  reverse_walk_reaches_rend 2 (by decide)
    (Origin.called (Origin.called (Origin.called Origin.constructed
      (Call.push_back 1)) (Call.push_back 2)) (Call.push_back 3))

/-! ## What `push_back` leaves alone -/

/-- On a represented queue `push_back` returns, and every block there was is still there
with the same `start`, the same occupied slots and at least the same `length`; only the
newest block's `length` changes. -/
theorem rep_push_frame {α : Type} [Inhabited α] {N : Nat} {q : Queue α}
    {segs : List (Nat × Stack α)} (x : α) (h : Rep N q segs) :
    ∃ q2, (push_back N x).run q = (.ok (), q2) ∧
      ∀ b t, q.heap b = some t → ∃ t2, q2.heap b = some t2 ∧ t2.start = t.start ∧
        t.length ≤ t2.length ∧
        (∀ p, p < t.length → t2.data ((t.start + p) % N) = t.data ((t.start + p) % N)) ∧
        (q.first ≠ some b → t2.length = t.length) := by
  obtain ⟨init, a, s, rfl, hf, hs, _, _⟩ := h.newest
  by_cases hl : s.length < N
  · refine ⟨_, push_back_room x hf hs hl, ?_⟩
    intro b t hb
    by_cases hba : b = a
    · subst hba
      rw [hs] at hb
      obtain rfl := Option.some.inj hb
      refine ⟨{ s with data := Function.update s.data ((s.start + s.length) % N) x,
                       length := s.length + 1 }, by simp, rfl, Nat.le_succ _, ?_,
        fun hne => absurd hf hne⟩
      intro p hp
      exact Function.update_noteq (slot_ne hp hl) _ _
    · exact ⟨t, by simp [Function.update_noteq hba, hb], rfl, le_refl _, fun _ _ => rfl,
        fun _ => rfl⟩
  · have hl2 : N ≤ s.length := Nat.le_of_not_lt hl
    refine ⟨_, push_back_full x hf hs hl2 (Nat.ne_of_lt (h.lt_fresh hs)), ?_⟩
    intro b t hb
    have hbf : b ≠ q.fresh := Nat.ne_of_lt (h.lt_fresh hb)
    by_cases hba : b = a
    · subst hba
      rw [hs] at hb
      obtain rfl := Option.some.inj hb
      exact ⟨{ s with next := some q.fresh }, by simp [Function.update_noteq hbf], rfl,
        le_refl _, fun _ _ => rfl, fun hne => absurd hf hne⟩
    · exact ⟨t, by simp [Function.update_noteq hbf, Function.update_noteq hba, hb], rfl,
        le_refl _, fun _ _ => rfl, fun _ => rfl⟩

/-- C23. For every queue object `q`, of any origin (`block_size = N ≥ 1`), every forward
iterator on an element of `q` (its `current` a block `s` of `q`, its `position` below the
`length` of `s`) and every item `x`: `q.push_back(x)` returns, whether or not it allocates
a block, and dereferencing the iterator after it succeeds and gives the element it gave
before.  Every block there was keeps its `start` and its occupied slots, and every block
but the newest its `length`. -/
theorem push_back_keeps_iterators {α : Type} [Inhabited α] (N : Nat) (hN : 0 < N)
    (o : Origin α) (it : segmentedQueueIterator) (a : Nat) (s : Stack α) (x : α)
    (hcur : it.current = some a) (hs : (o.queue N).heap a = some s)
    (hp : it.position < s.length) :
    ∃ q2, (push_back N x).run (o.queue N) = (.ok (), q2) ∧
      it.dereference N (o.queue N) = .ok (s.data ((s.start + it.position) % N)) ∧
      it.dereference N q2 = .ok (s.data ((s.start + it.position) % N)) ∧
      ∀ b t, (o.queue N).heap b = some t → ∃ t2, q2.heap b = some t2 ∧
        t2.start = t.start ∧
        (∀ p, p < t.length → t2.data ((t.start + p) % N) = t.data ((t.start + p) % N)) ∧
        ((o.queue N).first ≠ some b → t2.length = t.length) := by
  obtain ⟨l, segs, hr, _⟩ := abs_origin hN o
  generalize o.queue N = q at hr hs ⊢
  obtain ⟨q2, h1, h2⟩ := rep_push_frame x hr
  refine ⟨q2, h1, ?_, ?_, ?_⟩
  · simp [segmentedQueueIterator.dereference, Queue.load, hcur, hs, Nat.not_le.mpr hp]
    rfl
  · obtain ⟨t2, h3, h4, h5, h6, _⟩ := h2 a s hs
    have hp2 : ¬ t2.length ≤ it.position := by omega
    simp [segmentedQueueIterator.dereference, Queue.load, hcur, h3, hp2, h4, h6 _ hp]
    rfl
  · intro b t hb
    obtain ⟨t2, h3, h4, _, h6, h7⟩ := h2 b t hb
    exact ⟨t2, h3, h4, h6, h7⟩

theorem push_back_keeps_iterators_witness :
    ∃ q2, (push_back 2 3).run ((Origin.called (Origin.called Origin.constructed
        (Call.push_back 1)) (Call.push_back 2)).queue 2) = (.ok (), q2) ∧
      segmentedQueueIterator.dereference 2 ((Origin.called (Origin.called
        Origin.constructed (Call.push_back 1)) (Call.push_back 2)).queue 2)
        { current := some 0, position := 1 } = .ok 2 ∧
      segmentedQueueIterator.dereference 2 q2 { current := some 0, position := 1 } = .ok 2 :=
  match push_back_keeps_iterators 2 (by decide)
    (Origin.called (Origin.called Origin.constructed (Call.push_back 1)) (Call.push_back 2))
    { current := some 0, position := 1 } 0
    { next := none, previous := none, length := 2, start := 0,
      data := Function.update (Function.update (fun _ => default) 0 1) 1 2 }
    3 rfl rfl (by decide) with
  | ⟨q2, h1, h2, h3, _⟩ => ⟨q2, h1, h2, h3⟩

/-- C24. Copy assignment of a queue to itself loses the elements.  `operator=` runs
`clear()` on the destination and then copies from `other.last`; when `other` is the
object itself, that is the block `clear()` has just reset, which holds nothing.  With
`block_size = 2`: after push 1, push 2, push 3 the queue has `size()` 3 and forward
iteration gives 1, 2, 3; `q = q` returns and leaves `size()` 0, a failing `front()` and
nothing to iterate over. -/
theorem self_assignment_empties :
    size (after 2 [Call.push_back 1, Call.push_back 2, Call.push_back 3]) = 3 ∧
    forward 2 (after 2 [Call.push_back 1, Call.push_back 2, Call.push_back 3]) =
      .ok [1, 2, 3] ∧
    ((copyAssign 2 id).run
      (after 2 [Call.push_back 1, Call.push_back 2, Call.push_back 3])).1 = .ok () ∧
    size ((copyAssign 2 id).run
      (after 2 [Call.push_back 1, Call.push_back 2, Call.push_back 3])).2 = 0 ∧
    front ((copyAssign 2 id).run
      (after 2 [Call.push_back 1, Call.push_back 2, Call.push_back 3])).2 =
      .error Err.emptyPeek ∧
    reverse 2 ((copyAssign 2 id).run
      (after 2 [Call.push_back 1, Call.push_back 2, Call.push_back 3])).2 = .ok [] :=
  ⟨rfl, rfl, rfl, rfl, rfl, rfl⟩

end SegQueue

namespace IoUtils

theorem daysInYear_eq (y : Nat) : daysInYear y = 365 + (if isLeapYear y then 1 else 0) := by
  by_cases h : isLeapYear y <;> simp [daysInYear, List.range_succ, daysInMonth, h]

/-- The days of the whole years from 1970, by the count of leap years that
`getDaysSinceEpoch` uses. -/
theorem days_of_years (n : Nat) :
    ((((List.range n).map fun k => daysInYear (1970 + k)).sum : Nat) : Int) =
      365 * (n : Int) + ((1969 + n : Int)) / 4 - 492 - ((1969 + n : Int)) / 100 + 19
        + ((1969 + n : Int)) / 400 - 4 := by
  induction n with
  | zero => simp
  | succ n ih =>
    rw [List.range_succ, List.map_append, List.sum_append, Nat.cast_add, ih]
    simp only [List.map_cons, List.map_nil, List.sum_cons, List.sum_nil, daysInYear_eq,
      Nat.add_zero]
    by_cases h : isLeapYear (1970 + n)
    · rw [if_pos h]
      unfold isLeapYear at h
      push_cast
      omega
    · rw [if_neg h]
      unfold isLeapYear at h
      push_cast
      omega

/-- The days of the whole months before month `m`, by the table and the leap day
correction that `getDaysSinceEpoch` uses. -/
theorem days_of_months (y m : Nat) (h1 : 1 ≤ m) (h2 : m ≤ 12) :
    ((((List.range (m - 1)).map fun k => daysInMonth y (k + 1)).sum : Nat) : Int) =
      days_since_new_years.getD (m - 1) 0 + (if 2 < m ∧ isLeapYear y then 1 else 0) := by
  by_cases h : isLeapYear y <;> interval_cases m <;>
    simp [List.range_succ, daysInMonth, h, days_since_new_years]

/-- The table `days_in_month` against the calendar. -/
theorem days_in_month_eq (y m : Nat) (h1 : 1 ≤ m) (h2 : m ≤ 12) :
    (daysInMonth y m : Int) =
      days_in_month.getD (m - 1) 0 + (if m = 2 ∧ isLeapYear y then 1 else 0) := by
  by_cases h : isLeapYear y <;> interval_cases m <;>
    simp [daysInMonth, h, days_in_month]
theorem code_digit (n : Nat) (h : n < 10) : code (digit n) = 48 + (n : Int) := by
  interval_cases n <;> rfl

/-- The test `is_leap` of `getDaysSinceEpoch` decides the leap years of the calendar. -/
theorem is_leap_eq (y : Nat) :
    (((y : Int) % 4 == 0) && ((y : Int) % 100 != 0 || (y : Int) % 400 == 0)) =
      decide (isLeapYear y) := by
  have h4 : ((y : Int) % 4 = 0) ↔ y % 4 = 0 := by omega
  have h100 : ((y : Int) % 100 = 0) ↔ y % 100 = 0 := by omega
  have h400 : ((y : Int) % 400 = 0) ↔ y % 400 = 0 := by omega
  by_cases h : isLeapYear y
  · rw [decide_eq_true h]
    obtain ⟨a, b⟩ := h
    rcases b with b | b
    · simp [h4, h100, a, b]
    · simp [h4, h400, a, b]
  · rw [decide_eq_false h]
    unfold isLeapYear at h
    by_cases a : y % 4 = 0
    · have hb : ¬ (y % 100 ≠ 0 ∨ y % 400 = 0) := fun hb => h ⟨a, hb⟩
      simp only [not_or, not_not] at hb
      simp [h4, h100, h400, a, hb.1, hb.2]
    · simp [h4, a]

/-- On a string that starts with a valid date from 1970 on, `getDaysSinceEpoch` returns
the number of days elapsed since 1970-01-01, counted on the calendar. -/
theorem getDaysSinceEpoch_eq (y3 y2 y1 y0 m1 m0 d1 d0 : Nat) (rest : List Char)
    (hy3 : y3 < 10) (hy2 : y2 < 10) (hy1 : y1 < 10) (hy0 : y0 < 10)
    (hm1 : m1 < 10) (hm0 : m0 < 10) (hd1 : d1 < 10) (hd0 : d0 < 10)
    (hy : 1970 ≤ 1000 * y3 + 100 * y2 + 10 * y1 + y0)
    (hv : validDate (1000 * y3 + 100 * y2 + 10 * y1 + y0) (10 * m1 + m0) (10 * d1 + d0)) :
    getDaysSinceEpoch (dateText y3 y2 y1 y0 m1 m0 d1 d0 ++ rest) =
      .ok (daysElapsed (1000 * y3 + 100 * y2 + 10 * y1 + y0) (10 * m1 + m0)
        (10 * d1 + d0)) := by
  have c0 : charAt (dateText y3 y2 y1 y0 m1 m0 d1 d0 ++ rest) 0 = 48 + (y3 : Int) := by
    simp [charAt, dateText, code_digit _ hy3]
  have c1 : charAt (dateText y3 y2 y1 y0 m1 m0 d1 d0 ++ rest) 1 = 48 + (y2 : Int) := by
    simp [charAt, dateText, code_digit _ hy2]
  have c2 : charAt (dateText y3 y2 y1 y0 m1 m0 d1 d0 ++ rest) 2 = 48 + (y1 : Int) := by
    simp [charAt, dateText, code_digit _ hy1]
  have c3 : charAt (dateText y3 y2 y1 y0 m1 m0 d1 d0 ++ rest) 3 = 48 + (y0 : Int) := by
    simp [charAt, dateText, code_digit _ hy0]
  have c4 : charAt (dateText y3 y2 y1 y0 m1 m0 d1 d0 ++ rest) 4 = 45 := by
    simp [charAt, dateText]; rfl
  have c5 : charAt (dateText y3 y2 y1 y0 m1 m0 d1 d0 ++ rest) 5 = 48 + (m1 : Int) := by
    simp [charAt, dateText, code_digit _ hm1]
  have c6 : charAt (dateText y3 y2 y1 y0 m1 m0 d1 d0 ++ rest) 6 = 48 + (m0 : Int) := by
    simp [charAt, dateText, code_digit _ hm0]
  have c7 : charAt (dateText y3 y2 y1 y0 m1 m0 d1 d0 ++ rest) 7 = 45 := by
    simp [charAt, dateText]; rfl
  have c8 : charAt (dateText y3 y2 y1 y0 m1 m0 d1 d0 ++ rest) 8 = 48 + (d1 : Int) := by
    simp [charAt, dateText, code_digit _ hd1]
  have c9 : charAt (dateText y3 y2 y1 y0 m1 m0 d1 d0 ++ rest) 9 = 48 + (d0 : Int) := by
    simp [charAt, dateText, code_digit _ hd0]
  have k0 : code '0' = 48 := rfl
  have k9 : code '9' = 57 := rfl
  have kd : code '-' = 45 := rfl
  have hlen : ¬ (dateText y3 y2 y1 y0 m1 m0 d1 d0 ++ rest).length < 10 := by
    simp [dateText]
  obtain ⟨hm1', hm12, hd1', hdmax⟩ := hv
  have hY : (1000 * (48 + (y3 : Int) - 48) + 100 * (48 + (y2 : Int) - 48)
      + 10 * (48 + (y1 : Int) - 48) + (48 + (y0 : Int)) - 48) =
      ((1000 * y3 + 100 * y2 + 10 * y1 + y0 : Nat) : Int) := by push_cast; ring
  have hM : (10 * (48 + (m1 : Int) - 48) + (48 + (m0 : Int)) - 48) =
      ((10 * m1 + m0 : Nat) : Int) := by push_cast; ring
  have hD : (10 * (48 + (d1 : Int) - 48) + (48 + (d0 : Int)) - 48) =
      ((10 * d1 + d0 : Nat) : Int) := by push_cast; ring
  simp only [getDaysSinceEpoch, c0, c1, c2, c3, c4, c5, c6, c7, c8, c9, k0, k9, kd, hY, hM,
    hD, is_leap_eq]
  generalize 1000 * y3 + 100 * y2 + 10 * y1 + y0 = Y at hy hdmax ⊢
  generalize 10 * m1 + m0 = M at hm1' hm12 hdmax ⊢
  generalize 10 * d1 + d0 = D at hd1' hdmax ⊢
  have hT : ((M : Int) - 1).toNat = M - 1 := by omega
  rw [hT, if_neg hlen, if_neg (by omega), if_neg (by omega), if_neg (by omega),
    if_neg (by omega), if_neg (by omega), if_neg (by simp), if_neg (by omega),
    if_neg (by omega), if_neg (by omega), if_neg (by omega), if_neg (by simp),
    if_neg (by omega), if_neg (by omega), if_neg (by omega)]
  have hyears := days_of_years (Y - 1970)
  have hmonths := days_of_months Y M hm1' hm12
  have hdim := days_in_month_eq Y M hm1' hm12
  have hE : ((daysElapsed Y M D : Nat) : Int) =
      365 * ((Y : Int) - 1970) + ((Y : Int) - 1) / 4 - 492 - ((Y : Int) - 1) / 100 + 19
        + ((Y : Int) - 1) / 400 - 4 + days_since_new_years.getD (M - 1) 0
        + (if 2 < M ∧ isLeapYear Y then 1 else 0) + D - 1 := by
    unfold daysElapsed
    rw [Nat.cast_add, Nat.cast_add, hyears, hmonths]
    have h1 : ((Y - 1970 : Nat) : Int) = (Y : Int) - 1970 := by omega
    have h2 : ((D - 1 : Nat) : Int) = (D : Int) - 1 := by omega
    rw [h1, h2]
    have h3 : (1969 + ((Y : Int) - 1970)) = (Y : Int) - 1 := by ring
    rw [h3]
    ring
  rw [hE]
  have e1 : ((M : Int) > 2) = (2 < M) := by
    apply propext; constructor <;> intro h <;> omega
  have e2 : ((M : Int) = 2) = (M = 2) := by
    apply propext; constructor <;> intro h <;> omega
  have hT2 : M = 2 → days_in_month.getD (M - 1) 0 = 28 := by
    intro h; subst h; rfl
  by_cases hleap : isLeapYear Y
  · simp only [decide_eq_true hleap, hleap, and_true, e1, e2, decide_True] at hdim hE ⊢
    by_cases hM2 : M = 2
    · have hT := hT2 hM2
      rw [if_pos hM2] at hdim
      split_ifs
      all_goals (try (exact congrArg Except.ok (by omega)))
      all_goals (exfalso; omega)
    · rw [if_neg hM2] at hdim
      split_ifs at hE ⊢
      all_goals (try (exact congrArg Except.ok (by omega)))
      all_goals (exfalso; omega)
  · simp only [decide_eq_false hleap, hleap, and_false, if_false, Bool.false_eq_true,
      Int.add_zero, e1, e2, decide_False] at hdim hE ⊢
    split_ifs
    all_goals (try (exact congrArg Except.ok (by omega)))
    all_goals (exfalso; omega)
theorem daysElapsed_epoch : daysElapsed 1970 1 1 = 0 := rfl

/-- The day after a valid date is a valid date. -/
theorem validDate_nextDay (y m d : Nat) (hv : validDate y m d) :
    validDate (nextDay y m d).1 (nextDay y m d).2.1 (nextDay y m d).2.2 := by
  obtain ⟨h1, h2, h3, h4⟩ := hv
  unfold nextDay
  split_ifs with ha hb
  · exact ⟨h1, h2, Nat.succ_le_succ (Nat.zero_le d), Nat.succ_le_of_lt ha⟩
  · refine ⟨Nat.succ_le_succ (Nat.zero_le m), Nat.succ_le_of_lt hb, le_refl _, ?_⟩
    show 1 ≤ daysInMonth y (m + 1)
    unfold daysInMonth
    split_ifs <;> omega
  · refine ⟨le_refl _, (by show 1 ≤ 12; decide), le_refl _, ?_⟩
    show 1 ≤ daysInMonth (y + 1) 1
    unfold daysInMonth
    split_ifs <;> omega

/-- The count of days elapsed goes up by one from a valid date to the day after. -/
theorem daysElapsed_nextDay (y m d : Nat) (hy : 1970 ≤ y) (hv : validDate y m d) :
    daysElapsed (nextDay y m d).1 (nextDay y m d).2.1 (nextDay y m d).2.2 =
      daysElapsed y m d + 1 := by
  obtain ⟨h1, h2, h3, h4⟩ := hv
  unfold nextDay
  split_ifs with ha hb
  · simp only [daysElapsed]
    omega
  · have hd : d = daysInMonth y m := by omega
    obtain ⟨k, rfl⟩ : ∃ k, m = k + 1 := ⟨m - 1, by omega⟩
    simp only [daysElapsed, Nat.add_sub_cancel, List.range_succ, List.map_append,
      List.sum_append, List.map_cons, List.map_nil, List.sum_cons, List.sum_nil]
    omega
  · have hd : d = daysInMonth y m := by omega
    have hm : m = 12 := by omega
    subst hm
    obtain ⟨n, rfl⟩ : ∃ n, y = 1970 + n := ⟨y - 1970, by omega⟩
    have e : 1970 + n + 1 - 1970 = n + 1 := by omega
    have hyear : daysInYear (1970 + n) =
        ((List.range 11).map fun k => daysInMonth (1970 + n) (k + 1)).sum
          + daysInMonth (1970 + n) 12 := by
      unfold daysInYear
      rw [show (12 : Nat) = 11 + 1 from rfl, List.range_succ, List.map_append,
        List.sum_append]
      simp
    show daysElapsed (1970 + n + 1) 1 1 = daysElapsed (1970 + n) 12 d + 1
    unfold daysElapsed
    rw [e, List.range_succ, List.map_append, List.sum_append, Nat.add_sub_cancel_left]
    simp only [List.map_cons, List.map_nil, List.sum_cons, List.sum_nil, hyear,
      Nat.sub_self, List.range_zero, Nat.add_zero]
    have e2 : 12 - 1 = 11 := rfl
    rw [e2]
    omega

/-- C17. For every string whose first ten characters spell a valid Gregorian calendar
date `YYYY-MM-DD` with `YYYY` from 1970 on (four digits, so at most 9999), whatever
follows them: `getDaysSinceEpoch` returns the number of days elapsed from 1970-01-01 to
that date, counted on the calendar with the leap years divisible by 4 and either not by
100 or by 400.  It returns 0 for 1970-01-01, and for the string of the following calendar
day, across month ends, year ends and leap days, it returns one more. -/
theorem getDaysSinceEpoch_counts_days (y3 y2 y1 y0 m1 m0 d1 d0 : Nat) (rest : List Char)
    (hy3 : y3 < 10) (hy2 : y2 < 10) (hy1 : y1 < 10) (hy0 : y0 < 10)
    (hm1 : m1 < 10) (hm0 : m0 < 10) (hd1 : d1 < 10) (hd0 : d0 < 10)
    (hy : 1970 ≤ 1000 * y3 + 100 * y2 + 10 * y1 + y0)
    (hv : validDate (1000 * y3 + 100 * y2 + 10 * y1 + y0) (10 * m1 + m0) (10 * d1 + d0)) :
    getDaysSinceEpoch (dateText y3 y2 y1 y0 m1 m0 d1 d0 ++ rest) =
      .ok (daysElapsed (1000 * y3 + 100 * y2 + 10 * y1 + y0) (10 * m1 + m0)
        (10 * d1 + d0)) ∧
    (∀ tail : List Char, getDaysSinceEpoch (dateText 1 9 7 0 0 1 0 1 ++ tail) = .ok 0) ∧
    (∀ (z3 z2 z1 z0 n1 n0 e1 e0 : Nat) (tail : List Char),
      z3 < 10 → z2 < 10 → z1 < 10 → z0 < 10 → n1 < 10 → n0 < 10 → e1 < 10 → e0 < 10 →
      (1000 * z3 + 100 * z2 + 10 * z1 + z0, 10 * n1 + n0, 10 * e1 + e0) =
        nextDay (1000 * y3 + 100 * y2 + 10 * y1 + y0) (10 * m1 + m0) (10 * d1 + d0) →
      getDaysSinceEpoch (dateText z3 z2 z1 z0 n1 n0 e1 e0 ++ tail) =
        .ok (daysElapsed (1000 * y3 + 100 * y2 + 10 * y1 + y0) (10 * m1 + m0)
          (10 * d1 + d0) + 1)) := by
  refine ⟨getDaysSinceEpoch_eq y3 y2 y1 y0 m1 m0 d1 d0 rest hy3 hy2 hy1 hy0 hm1 hm0 hd1 hd0
    hy hv, ?_, ?_⟩
  · intro tail
    have := getDaysSinceEpoch_eq 1 9 7 0 0 1 0 1 tail (by decide) (by decide) (by decide)
      (by decide) (by decide) (by decide) (by decide) (by decide) (by decide)
      (by decide)
    rw [this]
    rfl
  · intro z3 z2 z1 z0 n1 n0 e1 e0 tail hz3 hz2 hz1 hz0 hn1 hn0 he1 he0 hnext
    have hv2 := validDate_nextDay _ _ _ hv
    have hd2 := daysElapsed_nextDay _ _ _ hy hv
    rw [← hnext] at hv2 hd2
    have hy2' : 1970 ≤ 1000 * z3 + 100 * z2 + 10 * z1 + z0 := by
      have h1 : (1000 * z3 + 100 * z2 + 10 * z1 + z0) =
          (nextDay (1000 * y3 + 100 * y2 + 10 * y1 + y0) (10 * m1 + m0)
            (10 * d1 + d0)).1 := by rw [← hnext]
      rw [h1]
      unfold nextDay
      split_ifs <;> simp <;> omega
    rw [getDaysSinceEpoch_eq z3 z2 z1 z0 n1 n0 e1 e0 tail hz3 hz2 hz1 hz0 hn1 hn0 he1 he0
      hy2' hv2, hd2]
    rfl

theorem getDaysSinceEpoch_counts_days_witness :
    validDate 2024 2 29 ∧
    getDaysSinceEpoch (dateText 2 0 2 4 0 2 2 9 ++ "T12:00:00Z".toList) = .ok 19782 ∧
    getDaysSinceEpoch (dateText 2 0 2 4 0 3 0 1 ++ []) = .ok 19783 :=
  ⟨by decide,
    (getDaysSinceEpoch_counts_days 2 0 2 4 0 2 2 9 "T12:00:00Z".toList (by decide)
      (by decide) (by decide) (by decide) (by decide) (by decide) (by decide) (by decide)
      (by decide) (by decide)).1,
    (getDaysSinceEpoch_counts_days 2 0 2 4 0 2 2 9 "T12:00:00Z".toList (by decide)
      (by decide) (by decide) (by decide) (by decide) (by decide) (by decide) (by decide)
      (by decide) (by decide)).2.2 2 0 2 4 0 3 0 1 [] (by decide) (by decide) (by decide)
      (by decide) (by decide) (by decide) (by decide) (by decide) (by decide)⟩

/-- The multiply and shift step divides the weights `10^8` down to `10` by ten. -/
theorem scale_pow (k : Nat) (hk : k ≤ 7) : scale (10 ^ (k + 1)) = 10 ^ k := by
  interval_cases k <;> rfl

theorem scale_one : scale 1 = 0 := rfl

theorem scale_zero : scale 0 = 0 := rfl

/-- The weights the loop of `convertUTC` goes through: `10^8` down to 1, then 0. -/
theorem weightAt_eq (i : Nat) : weightAt i = if i ≤ 8 then 10 ^ (8 - i) else 0 := by
  induction i with
  | zero => rfl
  | succ i ih =>
    unfold weightAt at ih ⊢
    rw [Function.iterate_succ_apply', ih]
    by_cases h : i ≤ 8
    · rw [if_pos h]
      by_cases h2 : i + 1 ≤ 8
      · rw [if_pos h2]
        have e : 8 - i = (8 - (i + 1)) + 1 := by omega
        rw [e]
        exact scale_pow _ (by omega)
      · rw [if_neg h2]
        have e : 8 - i = 0 := by omega
        rw [e]
        exact scale_one
    · rw [if_neg h, if_neg (by omega)]
      exact scale_zero

/-- On decimal digits followed by `Z` the loop of `convertUTC` adds the fraction they
spell and stops at the `Z`. -/
theorem fractionLoop_digits (rest : List Char) (ds : List Nat) :
    ∀ (i : Nat) (t : Int), (∀ d ∈ ds, d < 10) →
      fractionLoop (ds.map digit ++ 'Z' :: rest) t (weightAt i) =
        .ok (t + fractionFrom (i + 1) ds, code 'Z') := by
  induction ds with
  | nil =>
    intro i t _
    simp [fractionLoop, fractionFrom, pure, Except.pure]
  | cons d ds ih =>
    intro i t hd
    have hd10 : d < 10 := hd d (by simp)
    have hc := code_digit d hd10
    have k0 : code '0' = 48 := rfl
    have k9 : code '9' = 57 := rfl
    have kz : code 'Z' = 90 := rfl
    have h1 : code (digit d) ≠ code 'Z' ∧ code (digit d) ≠ 0 := by
      rw [hc, kz]; constructor <;> omega
    have h2 : ¬ (code (digit d) < code '0' ∨ code (digit d) > code '9') := by
      rw [hc, k0, k9]; omega
    have hw : scale (weightAt i) = weightAt (i + 1) := by
      unfold weightAt
      rw [Function.iterate_succ_apply']
    simp only [List.map_cons, List.cons_append, fractionLoop, if_pos h1, if_neg h2, hw,
      List.append_eq]
    rw [ih (i + 1) _ (fun x hx => hd x (List.mem_cons.mpr (Or.inr hx)))]
    simp only [fractionFrom, hc, k0, weightAt_eq i]
    congr 2
    by_cases h : i ≤ 8
    · rw [if_pos h, if_pos (by omega)]
      have e : 9 - (i + 1) = 8 - i := by omega
      rw [e]
      ring
    · rw [if_neg h, if_neg (by omega)]
      ring
/-- After a well-formed `Thh:mm:ss` at index 10, `convertUTC` has the whole seconds in
`t` and goes on with what follows. -/
theorem convertUTC_time (pre : List Char) (h1 h0 m1 m0 s1 s0 : Nat) (tail : List Char)
    (hpre : pre.length = 10)
    (hh1 : h1 < 10) (hh0 : h0 < 10) (hm1 : m1 < 10) (hm0 : m0 < 10) (hs1 : s1 < 10)
    (hs0 : s0 < 10) (hh : 10 * h1 + h0 ≤ 23) (hm : 10 * m1 + m0 ≤ 59)
    (hs : 10 * s1 + s0 ≤ 59) (htail : tail ≠ []) :
    convertUTC (pre ++ timeText h1 h0 m1 m0 s1 s0 ++ tail) =
      if charAt tail 0 = code '.' then
        match fractionLoop (tail.drop 1)
          (((10 * h1 + h0 : Nat) : Int) * 3600000000000
            + ((10 * m1 + m0 : Nat) : Int) * 60000000000
            + ((10 * s1 + s0 : Nat) : Int) * 1000000000) 100000000 with
        | .error e => throw e
        | .ok (t, last) => if last ≠ code 'Z' then throw Err.invalidFormat else pure t
      else
        if charAt tail 0 ≠ code 'Z' then throw Err.invalidFormat
        else pure (((10 * h1 + h0 : Nat) : Int) * 3600000000000
            + ((10 * m1 + m0 : Nat) : Int) * 60000000000
            + ((10 * s1 + s0 : Nat) : Int) * 1000000000) := by
  match pre, hpre with
  | [p0, p1, p2, p3, p4, p5, p6, p7, p8, p9], _ =>
    obtain ⟨z, zs, rfl⟩ : ∃ z zs, tail = z :: zs := by
      cases tail with
      | nil => exact absurd rfl htail
      | cons z zs => exact ⟨z, zs, rfl⟩
    have kT : code 'T' = 84 := rfl
    have kc : code ':' = 58 := rfl
    have k0 : code '0' = 48 := rfl
    have k9 : code '9' = 57 := rfl
    have k5 : code '5' = 53 := rfl
    have hlen : ¬ ([p0, p1, p2, p3, p4, p5, p6, p7, p8, p9] ++ timeText h1 h0 m1 m0 s1 s0
        ++ z :: zs).length < 19 := by
      simp [timeText]
    have c10 : charAt ([p0, p1, p2, p3, p4, p5, p6, p7, p8, p9] ++ timeText h1 h0 m1 m0 s1 s0
        ++ z :: zs) 10 = 84 := by
      simp [charAt, timeText]; rfl
    have c11 : charAt ([p0, p1, p2, p3, p4, p5, p6, p7, p8, p9] ++ timeText h1 h0 m1 m0 s1 s0
        ++ z :: zs) (11 + 0) = 48 + (h1 : Int) := by
      simp [charAt, timeText, code_digit _ hh1]
    have c12 : charAt ([p0, p1, p2, p3, p4, p5, p6, p7, p8, p9] ++ timeText h1 h0 m1 m0 s1 s0
        ++ z :: zs) (11 + 1) = 48 + (h0 : Int) := by
      simp [charAt, timeText, code_digit _ hh0]
    have c13 : charAt ([p0, p1, p2, p3, p4, p5, p6, p7, p8, p9] ++ timeText h1 h0 m1 m0 s1 s0
        ++ z :: zs) (11 + 2) = 58 := by
      simp [charAt, timeText]; rfl
    have c14 : charAt ([p0, p1, p2, p3, p4, p5, p6, p7, p8, p9] ++ timeText h1 h0 m1 m0 s1 s0
        ++ z :: zs) (11 + 3) = 48 + (m1 : Int) := by
      simp [charAt, timeText, code_digit _ hm1]
    have c15 : charAt ([p0, p1, p2, p3, p4, p5, p6, p7, p8, p9] ++ timeText h1 h0 m1 m0 s1 s0
        ++ z :: zs) (11 + 4) = 48 + (m0 : Int) := by
      simp [charAt, timeText, code_digit _ hm0]
    have c16 : charAt ([p0, p1, p2, p3, p4, p5, p6, p7, p8, p9] ++ timeText h1 h0 m1 m0 s1 s0
        ++ z :: zs) (11 + 5) = 58 := by
      simp [charAt, timeText]; rfl
    have c17 : charAt ([p0, p1, p2, p3, p4, p5, p6, p7, p8, p9] ++ timeText h1 h0 m1 m0 s1 s0
        ++ z :: zs) (11 + 6) = 48 + (s1 : Int) := by
      simp [charAt, timeText, code_digit _ hs1]
    have c18 : charAt ([p0, p1, p2, p3, p4, p5, p6, p7, p8, p9] ++ timeText h1 h0 m1 m0 s1 s0
        ++ z :: zs) (11 + 7) = 48 + (s0 : Int) := by
      simp [charAt, timeText, code_digit _ hs0]
    have c19 : charAt ([p0, p1, p2, p3, p4, p5, p6, p7, p8, p9] ++ timeText h1 h0 m1 m0 s1 s0
        ++ z :: zs) (11 + 8) = charAt (z :: zs) 0 := by
      simp [charAt, timeText]
    have hdrop : ([p0, p1, p2, p3, p4, p5, p6, p7, p8, p9] ++ timeText h1 h0 m1 m0 s1 s0
        ++ z :: zs).drop 20 = (z :: zs).drop 1 := by
      simp [timeText]
    have hH : (10 * (48 + (h1 : Int) - 48) + (48 + (h0 : Int)) - 48) =
        ((10 * h1 + h0 : Nat) : Int) := by push_cast; ring
    have hM : (10 * (48 + (m1 : Int) - 48) + (48 + (m0 : Int)) - 48) =
        ((10 * m1 + m0 : Nat) : Int) := by push_cast; ring
    have hS : (10 * (48 + (s1 : Int) - 48) + (48 + (s0 : Int)) - 48) =
        ((10 * s1 + s0 : Nat) : Int) := by push_cast; ring
    simp only [convertUTC, c10, c11, c12, c13, c14, c15, c16, c17, c18, c19, hdrop, kT, kc,
      k0, k9, k5, hH, hM, hS]
    rw [if_neg hlen, if_neg (by simp), if_neg (by omega), if_neg (by omega),
      if_neg (by omega), if_neg (by simp), if_neg (by omega), if_neg (by omega),
      if_neg (by simp), if_neg (by omega), if_neg (by omega)]
/-- C18. For every string `<any 10 characters>Thh:mm:ss` followed by `Z`, or by `.`,
decimal digits `d1 ... dk` and `Z` (and then anything), with `hh ≤ 23`, `mm ≤ 59` and
`ss ≤ 59`: `convertUTC` returns the time of day in nanoseconds,
`hh * 3600000000000 + mm * 60000000000 + ss * 1000000000` plus the fraction truncated to
nine digits (the sum of `d_i * 10^(9 - i)` for `i ≤ 9`).  The multiply and shift step
`(f * 0xCCCCCCCD) >> 35`, computed in 64 bits, gives `f / 10` for every weight `f` the
loop applies it to, and the product never leaves the range of `long long`. -/
theorem convertUTC_nanoseconds (pre : List Char) (h1 h0 m1 m0 s1 s0 : Nat) (ds : List Nat)
    (rest : List Char) (hpre : pre.length = 10)
    (hh1 : h1 < 10) (hh0 : h0 < 10) (hm1 : m1 < 10) (hm0 : m0 < 10) (hs1 : s1 < 10)
    (hs0 : s0 < 10) (hds : ∀ d ∈ ds, d < 10) (hh : 10 * h1 + h0 ≤ 23)
    (hm : 10 * m1 + m0 ≤ 59) (hs : 10 * s1 + s0 ≤ 59) :
    convertUTC (pre ++ timeText h1 h0 m1 m0 s1 s0 ++ 'Z' :: rest) =
      .ok (((10 * h1 + h0 : Nat) : Int) * 3600000000000
        + ((10 * m1 + m0 : Nat) : Int) * 60000000000
        + ((10 * s1 + s0 : Nat) : Int) * 1000000000) ∧
    convertUTC (pre ++ timeText h1 h0 m1 m0 s1 s0 ++ '.' :: (ds.map digit ++ 'Z' :: rest)) =
      .ok (((10 * h1 + h0 : Nat) : Int) * 3600000000000
        + ((10 * m1 + m0 : Nat) : Int) * 60000000000
        + ((10 * s1 + s0 : Nat) : Int) * 1000000000 + fractionFrom 1 ds) ∧
    (∀ i : Nat, scale (weightAt i) = weightAt i / 10 ∧
      0 ≤ weightAt i * 0xCCCCCCCD ∧ weightAt i * 0xCCCCCCCD < 2 ^ 63) := by
  refine ⟨?_, ?_, ?_⟩
  · rw [convertUTC_time pre h1 h0 m1 m0 s1 s0 _ hpre hh1 hh0 hm1 hm0 hs1 hs0 hh hm hs
      (by simp)]
    have e1 : charAt ('Z' :: rest) 0 = code 'Z' := rfl
    have e2 : ¬ code 'Z' = code '.' := by decide
    rw [e1, if_neg e2, if_neg (by simp)]
    rfl
  · rw [convertUTC_time pre h1 h0 m1 m0 s1 s0 _ hpre hh1 hh0 hm1 hm0 hs1 hs0 hh hm hs
      (by simp)]
    have e1 : charAt ('.' :: (ds.map digit ++ 'Z' :: rest)) 0 = code '.' := rfl
    have e3 : ('.' :: (ds.map digit ++ 'Z' :: rest)).drop 1 = ds.map digit ++ 'Z' :: rest :=
      rfl
    have hw : (100000000 : Int) = weightAt 0 := rfl
    rw [if_pos e1, e3, hw, fractionLoop_digits rest ds 0 _ hds]
    simp only [Nat.zero_add]
    rw [if_neg (by simp)]
    rfl
  · intro i
    rw [weightAt_eq]
    by_cases h : i ≤ 8
    · rw [if_pos h]
      interval_cases i <;> exact ⟨rfl, by decide, by decide⟩
    · rw [if_neg h]
      exact ⟨rfl, by decide, by decide⟩

theorem convertUTC_nanoseconds_witness :
    convertUTC ("2024-03-01".toList ++ timeText 1 2 3 4 5 6 ++
      '.' :: ([1, 2, 3, 4, 5, 6, 7, 8, 9, 9, 9].map digit ++ 'Z' :: [])) =
      .ok 45296123456789 ∧
    scale (weightAt 3) = weightAt 3 / 10 :=
  ⟨(convertUTC_nanoseconds "2024-03-01".toList 1 2 3 4 5 6
      [1, 2, 3, 4, 5, 6, 7, 8, 9, 9, 9] [] rfl (by decide) (by decide) (by decide)
      (by decide) (by decide) (by decide) (by decide) (by decide) (by decide)
      (by decide)).2.1,
    ((convertUTC_nanoseconds "2024-03-01".toList 1 2 3 4 5 6
      [1, 2, 3, 4, 5, 6, 7, 8, 9, 9, 9] [] rfl (by decide) (by decide) (by decide)
      (by decide) (by decide) (by decide) (by decide) (by decide) (by decide)
      (by decide)).2.2 3).1⟩

/-! ## `convert` for the integer types -/

theorem two_pow_pred (w : Nat) (hw : 1 ≤ w) : (2 : Int) ^ w = 2 * 2 ^ (w - 1) := by
  obtain ⟨k, rfl⟩ : ∃ k, w = k + 1 := ⟨w - 1, by omega⟩
  rw [Nat.add_sub_cancel, pow_succ]
  ring

/-- A value in the range of the type is not changed by wrapping. -/
theorem wrap_eq (w : Nat) (hw : 1 ≤ w) (x : Int) (h1 : -2 ^ (w - 1) ≤ x)
    (h2 : x < 2 ^ (w - 1)) : wrap w x = x := by
  unfold wrap
  rw [two_pow_pred w hw]
  generalize (2 : Int) ^ (w - 1) = h at *
  rw [Int.emod_eq_of_lt (by omega) (by omega)]
  omega

theorem wrap_wrap_add (w : Nat) (a b : Int) : wrap w (wrap w a + b) = wrap w (a + b) := by
  unfold wrap
  have e : (a + 2 ^ (w - 1)) % 2 ^ w - 2 ^ (w - 1) + b + 2 ^ (w - 1) =
      (a + 2 ^ (w - 1)) % 2 ^ w + b := by ring
  rw [e, Int.emod_add_emod]
  congr 2
  ring

/-- The digit appended in `w` bits is the wrapped value of the digit appended exactly. -/
theorem appendDigit_eq (w : Nat) (num : Int) (d : Nat) (hd : d < 10) :
    appendDigit w num (digit d) = wrap w (10 * num + d) := by
  unfold appendDigit
  rw [code_digit d hd, sub_eq_add_neg, wrap_wrap_add, add_assoc, wrap_wrap_add]
  congr 1
  have : code '0' = 48 := rfl
  rw [this]
  ring

theorem le_decimalFrom (ds : List Nat) : ∀ num, num ≤ decimalFrom num ds := by
  induction ds with
  | nil => intro num; exact le_refl _
  | cons d ds ih =>
    intro num
    have := ih (10 * num + d)
    simp only [decimalFrom, List.foldl_cons] at this ⊢
    omega

/-- On digits whose number fits the type, the loop over the digits rejects nothing and
computes the number exactly. -/
theorem digitsLoop_exact (w : Nat) (hw : 1 ≤ w) (ds : List Nat) :
    ∀ num : Nat, (∀ d ∈ ds, d < 10) → ((decimalFrom num ds : Nat) : Int) < 2 ^ (w - 1) →
      digitsLoop w (ds.map digit) num = .ok (((decimalFrom num ds : Nat) : Int), []) := by
  induction ds with
  | nil => intro num _ _; rfl
  | cons d ds ih =>
    intro num hd hfit
    have hd1 : d < 10 := hd d (by simp)
    have hstep : ((10 * num + d : Nat) : Int) < 2 ^ (w - 1) := by
      have := le_decimalFrom ds (10 * num + d)
      have h2 : decimalFrom num (d :: ds) = decimalFrom (10 * num + d) ds := rfl
      rw [h2] at hfit
      exact lt_of_le_of_lt (by exact_mod_cast this) hfit
    have happ : appendDigit w num (digit d) = ((10 * num + d : Nat) : Int) := by
      rw [appendDigit_eq w num d hd1]
      push_cast
      apply wrap_eq w hw
      · have : (0 : Int) < 2 ^ (w - 1) := by positivity
        omega
      · push_cast at hstep
        exact hstep
    have hc := code_digit d hd1
    have hdot : code '.' = 46 := rfl
    have hzero : code '0' = 48 := rfl
    have hnine : code '9' = 57 := rfl
    have h1 : code (digit d) ≠ code '.' ∧ code (digit d) ≠ 0 := by
      rw [hc, hdot]; constructor <;> omega
    have h2 : ¬ (code (digit d) < code '0' ∨ code (digit d) > code '9') := by
      rw [hc, hzero, hnine]; omega
    have h3 : ¬ (((10 * num + d : Nat) : Int) ≤ (num : Int) ∧ (num : Int) ≠ 0) := by
      push_cast
      omega
    simp only [List.map_cons, digitsLoop, if_pos h1, if_neg h2, happ]
    rw [if_neg h3]
    exact ih (10 * num + d) (fun e he => hd e (by simp [he])) hfit

theorem convertTail_end (w : Nat) (sign num : Int) :
    convertTail w sign num [] = .ok (if sign = -1 then wrap w (-num) else num) := rfl

/-- A string of decimal digits whose number fits the type converts to that number, and
after a leading `'-'` to its negation: nothing that fits is rejected. -/
theorem convert_exact (w : Nat) (hw : 1 ≤ w) (ds : List Nat) (hd : ∀ d ∈ ds, d < 10)
    (hfit : ((decimalValue ds : Nat) : Int) < 2 ^ (w - 1)) :
    convert w (ds.map digit) = .ok ((decimalValue ds : Nat) : Int) ∧
    convert w ('-' :: ds.map digit) = .ok (-((decimalValue ds : Nat) : Int)) := by
  have hloop : digitsLoop w (ds.map digit) 0 = .ok (((decimalValue ds : Nat) : Int), []) := by
    have := digitsLoop_exact w hw ds 0 hd hfit
    simpa using this
  have hminus : code '-' = 45 := rfl
  constructor
  · cases ds with
    | nil => rfl
    | cons d ds =>
      have hc := code_digit d (hd d (by simp))
      have h1 : ¬ charAt (List.map digit (d :: ds)) 0 = 0 := by
        simp only [charAt, List.map_cons, List.getD_cons_zero, hc]
        omega
      have h2 : ¬ charAt (List.map digit (d :: ds)) 0 = code '-' := by
        simp only [charAt, List.map_cons, List.getD_cons_zero, hc, hminus]
        omega
      unfold convert
      rw [if_neg h1, if_neg h2, hloop]
      simp only [convertTail_end]
      rfl
  · have h1 : ¬ charAt ('-' :: List.map digit ds) 0 = 0 := by
      simp only [charAt, List.getD_cons_zero, hminus]
      omega
    have h2 : charAt ('-' :: List.map digit ds) 0 = code '-' := rfl
    unfold convert
    rw [if_neg h1, if_pos h2]
    simp only [List.drop_succ_cons, List.drop_zero, hloop, convertTail_end, if_true]
    rw [wrap_eq w hw]
    · have : (0 : Int) < 2 ^ (w - 1) := by positivity
      omega
    · omega

/-- C25. `convert` lets numbers that are too large for the type through.  The test
`10 * num + *c - '0' <= num` sees a wrapped value only when it is not above `num`.  For
`int` and the digits of 5000000000: before the last digit `num` is 500000000, and
`10 * num` wraps to 705032704, which is above `num`, so nothing is thrown and 705032704 is
returned (and its negation after `'-'`).  For `long long` and the digits of
25000000000000000000 the result is 6553255926290448384.  Just above the largest value of
the type the test does throw. -/
theorem convert_misses_overflow :
    convert 32 "5000000000".toList = .ok 705032704 ∧
    convert 32 "-5000000000".toList = .ok (-705032704) ∧
    convert 64 "25000000000000000000".toList = .ok 6553255926290448384 ∧
    convert 64 "-25000000000000000000".toList = .ok (-6553255926290448384) ∧
    convert 32 "2147483648".toList = .error ConvertErr.tooLarge ∧
    convert 64 "9223372036854775808".toList = .error ConvertErr.tooLarge :=
  ⟨rfl, rfl, rfl, rfl, rfl, rfl⟩

end IoUtils
